import Mathlib


/-! Brik configuration reader: lexer and recursive-descent parser.

A shallow embedding of `main_v17.cpp`.  The cursor of the lexer
(`source_`, `current_pos_`) and of the parser (`tokens_`,
`current_token_index_`) is represented by the part of the input that is still
to be read.  A `std::string` is a list of characters, a thrown
`std::runtime_error` is an `Outcome.error` with one constructor per message.

The loops and the recursive calls of the program are bounded by a count of
steps; running out of the count is the separate outcome `Outcome.outOfFuel`.
The counts that `tokenize` and `parse` start with are never exhausted
(`Lexer.tokenize_ne_outOfFuel`, `Parser.parse_ne_outOfFuel`).
-/

namespace Brik

/-- Result of a bounded run: a value, a thrown `std::runtime_error`, or an
exhausted loop bound. -/
inductive Outcome (ε α : Type) where
  | ok (a : α)
  | error (e : ε)
  | outOfFuel
  deriving DecidableEq

namespace Outcome

/-- Sequencing: exceptions and exhausted bounds propagate. -/
def bind {ε α β : Type} : Outcome ε α → (α → Outcome ε β) → Outcome ε β
  | ok a, f => f a
  | error e, _ => error e
  | outOfFuel, _ => outOfFuel

instance {ε : Type} : Monad (Outcome ε) where
  pure := ok
  bind := bind

end Outcome

/-- `std::string`: a sequence of characters. -/
abbrev Str := List Char

/-- `using AstValue = std::string;` -/
abbrev AstValue := Str

/-- `using AstList = std::vector<AstValue>;` -/
abbrev AstList := List AstValue

/-- `std::map<std::string, AstValue>`: the entries in ascending key order. -/
abbrev AstBlock := List (Str × AstValue)

/-- `enum TokenType` -/
inductive TokenType where
  | IDENTIFIER
  | STRING
  | NUMBER
  | OPERATOR
  | LBRACE
  | RBRACE
  | LBRACKET
  | RBRACKET
  | COMMA
  | EQUALS
  deriving DecidableEq

/-- `struct Token` -/
structure Token where
  type : TokenType
  value : Str
  deriving DecidableEq

/-! ## Character classes of `<cctype>` in the "C" locale -/

/-- `isspace`: space, `\t`, `\n`, `\v`, `\f`, `\r`. -/
def isspace (c : Char) : Bool :=
  c.toNat = 32 || (9 ≤ c.toNat && c.toNat ≤ 13)

/-- `isdigit`: `0`..`9`. -/
def isdigit (c : Char) : Bool :=
  48 ≤ c.toNat && c.toNat ≤ 57

/-- `isalpha`: `A`..`Z`, `a`..`z`. -/
def isalpha (c : Char) : Bool :=
  (65 ≤ c.toNat && c.toNat ≤ 90) || (97 ≤ c.toNat && c.toNat ≤ 122)

/-- `isalnum` -/
def isalnum (c : Char) : Bool :=
  isalpha c || isdigit c

/-! ## Lexer -/

namespace Lexer

/-- The one exception thrown by `tokenize`:
`"Caracter inesperado: " + std::string(1, current_char)`. -/
inductive LexError where
  | unexpectedChar (c : Char)
  deriving DecidableEq

/-- Loop condition of the comment scan: `source_[current_pos_] != '\n'`. -/
def notNewline (c : Char) : Bool := c != '\n'

/-- Loop condition of the string scan: `source_[current_pos_] != '"'`. -/
def notQuote (c : Char) : Bool := c != '"'

/-- Loop condition of the identifier scan:
`isalnum(source_[current_pos_]) || source_[current_pos_] == '_'`. -/
def identChar (c : Char) : Bool := isalnum c || c == '_'

/-- Loop condition of the number scan:
`isdigit(source_[current_pos_]) || source_[current_pos_] == '.'`. -/
def numberChar (c : Char) : Bool := isdigit c || c == '.'

/-- The `while (current_pos_ < source_.length())` loop of `tokenize`.  The
second argument is `source_` from `current_pos_` on, the third is `tokens`.
An inner scan `while (current_pos_ < source_.length() && p(...)) current_pos_++`
leaves the cursor at `dropWhile p`, and the `substr(start, current_pos_ - start)`
it delimits is `takeWhile p`; a `current_pos_++` past the end leaves nothing
to read. -/
def tokenizeLoop : Nat → List Char → List Token → Outcome LexError (List Token)
  | 0, _, _ => .outOfFuel
  | _ + 1, [], tokens => .ok tokens
  | fuel + 1, current_char :: rest, tokens =>
    if isspace current_char then
      tokenizeLoop fuel rest tokens
    else if current_char = '#' then
      tokenizeLoop fuel (((current_char :: rest).dropWhile notNewline).drop 1) tokens
    else if current_char = '"' then
      tokenizeLoop fuel ((rest.dropWhile notQuote).drop 1)
        (tokens ++ [⟨.STRING, rest.takeWhile notQuote⟩])
    else if isalpha current_char || current_char = '_' then
      tokenizeLoop fuel ((current_char :: rest).dropWhile identChar)
        (tokens ++ [⟨.IDENTIFIER, (current_char :: rest).takeWhile identChar⟩])
    else if isdigit current_char then
      tokenizeLoop fuel ((current_char :: rest).dropWhile numberChar)
        (tokens ++ [⟨.NUMBER, (current_char :: rest).takeWhile numberChar⟩])
    else if current_char = '{' then tokenizeLoop fuel rest (tokens ++ [⟨.LBRACE, ['{']⟩])
    else if current_char = '}' then tokenizeLoop fuel rest (tokens ++ [⟨.RBRACE, ['}']⟩])
    else if current_char = '[' then tokenizeLoop fuel rest (tokens ++ [⟨.LBRACKET, ['[']⟩])
    else if current_char = ']' then tokenizeLoop fuel rest (tokens ++ [⟨.RBRACKET, [']']⟩])
    else if current_char = '=' then tokenizeLoop fuel rest (tokens ++ [⟨.EQUALS, ['=']⟩])
    else if current_char = ',' then tokenizeLoop fuel rest (tokens ++ [⟨.COMMA, [',']⟩])
    else .error (.unexpectedChar current_char)

/-- `Lexer(source).tokenize()`: every iteration reads at least one character,
so `source.length + 1` iterations are enough. -/
def tokenize (source : List Char) : Outcome LexError (List Token) :=
  tokenizeLoop (source.length + 1) source []

/-- `create_token(value)`, a private helper that `tokenize` never calls.
`value.front()` of an empty string is undefined behaviour: `none`.  The loop
over `value[1..]` clears `is_number` at a character that is neither a digit
nor `.`. -/
def create_token (value : Str) : Option Token :=
  if value = ['='] then some ⟨.EQUALS, ['=']⟩
  else if value = ['{'] then some ⟨.LBRACE, ['{']⟩
  else if value = ['}'] then some ⟨.RBRACE, ['}']⟩
  else if value = ['['] then some ⟨.LBRACKET, ['[']⟩
  else if value = [']'] then some ⟨.RBRACKET, [']']⟩
  else if value = [','] then some ⟨.COMMA, [',']⟩
  else
    match value with
    | [] => none
    | front :: tail =>
      if (front = '-' || isdigit front) && tail.all numberChar then some ⟨.NUMBER, value⟩
      else some ⟨.IDENTIFIER, value⟩

end Lexer

/-! ## `std::map<std::string, AstValue>` -/

/-- `operator<` of `std::string`: lexicographic comparison of the characters. -/
def strLt : Str → Str → Bool
  | [], [] => false
  | [], _ :: _ => true
  | _ :: _, [] => false
  | a :: as, b :: bs => decide (a < b) || (a == b && strLt as bs)

/-- `m[key] = value` on a `std::map`: the entry of an equivalent key is
overwritten, otherwise a new entry is placed at its position in key order. -/
def mapAssign : AstBlock → Str → AstValue → AstBlock
  | [], key, value => [(key, value)]
  | (k, v) :: m, key, value =>
    if strLt key k then (key, value) :: (k, v) :: m
    else if strLt k key then (k, v) :: mapAssign m key value
    else (key, value) :: m

/-- Lookup of a key in a `std::map` (`find`). -/
def mapFind : AstBlock → Str → Option AstValue
  | [], _ => none
  | (k, v) :: m, key => if k = key then some v else mapFind m key

/-! ## Parser -/

namespace Parser

/-- The exceptions thrown by the parser, one constructor per message. -/
inductive ParseError where
  /-- "Error de sintaxis: Se esperaba un identificador." -/
  | expectedIdentifier
  /-- "Error de sintaxis: Se esperaba '='." -/
  | expectedEquals
  /-- "Error de sintaxis: Fin inesperado del archivo." -/
  | unexpectedEnd
  /-- "Error de sintaxis: Valor inesperado." -/
  | unexpectedValue
  /-- "Error de sintaxis en bloque: Se esperaba un identificador." -/
  | blockExpectedIdentifier
  /-- "Error de sintaxis en bloque: Se esperaba '='." -/
  | blockExpectedEquals
  /-- "Error de sintaxis en lista: Se esperaba un valor." -/
  | listExpectedValue
  deriving DecidableEq

open TokenType

/-- `peek_token()` on the tokens from `current_token_index_` on. -/
def peek_token : List Token → Outcome ParseError Token
  | [] => .error .unexpectedEnd
  | t :: _ => .ok t

/-- `get_token()`: the token and the tokens after it. -/
def get_token : List Token → Outcome ParseError (Token × List Token)
  | [] => .error .unexpectedEnd
  | t :: ts => .ok (t, ts)

/-- The `std::ostringstream` output of `parse_list`. -/
def serialize_list (list_content : AstList) : AstValue :=
  ['['] ++ (list_content.map (fun item => item ++ [','])).flatten ++ [']']

/-- The `std::ostringstream` output of `parse_block`; the map is iterated in
key order. -/
def serialize_block (block_content : AstBlock) : AstValue :=
  ['{'] ++ (block_content.map (fun pair => pair.1 ++ ['='] ++ pair.2 ++ [','])).flatten ++ ['}']

mutual

/-- `parse_list()` -/
def parse_list : Nat → List Token → Outcome ParseError (AstValue × List Token)
  | 0, _ => .outOfFuel
  | fuel + 1, ts => do
    let (_, ts) ← get_token ts
    let (list_content, ts) ← parse_list_loop fuel ts []
    let (_, ts) ← get_token ts
    pure (serialize_list list_content, ts)

/-- The `while (peek_token().type != RBRACKET)` loop of `parse_list`. -/
def parse_list_loop : Nat → List Token → AstList → Outcome ParseError (AstList × List Token)
  | 0, _, _ => .outOfFuel
  | fuel + 1, ts, list_content => do
    let t ← peek_token ts
    if t.type ≠ RBRACKET then
      let item_token ← peek_token ts
      let (list_content, ts) ←
        if item_token.type = IDENTIFIER ∨ item_token.type = NUMBER ∨ item_token.type = STRING then do
          let (tok, ts) ← get_token ts
          pure (list_content ++ [tok.value], ts)
        else if item_token.type = LBRACKET then do
          let (item, ts) ← parse_list fuel ts
          pure (list_content ++ [item], ts)
        else
          (Outcome.error .listExpectedValue : Outcome ParseError (AstList × List Token))
      let sep ← peek_token ts
      let ts ← if sep.type = COMMA then do
          let (_, ts) ← get_token ts
          pure ts
        else pure ts
      parse_list_loop fuel ts list_content
    else
      pure (list_content, ts)

end

mutual

/-- `parse_value()` -/
def parse_value : Nat → List Token → Outcome ParseError (AstValue × List Token)
  | 0, _ => .outOfFuel
  | fuel + 1, ts => do
    let token ← peek_token ts
    if token.type = IDENTIFIER ∨ token.type = STRING ∨ token.type = NUMBER then do
      let (tok, ts) ← get_token ts
      pure (tok.value, ts)
    else if token.type = LBRACE then
      parse_block fuel ts
    else if token.type = LBRACKET then
      parse_list fuel ts
    else
      .error .unexpectedValue

/-- `parse_block()` -/
def parse_block : Nat → List Token → Outcome ParseError (AstValue × List Token)
  | 0, _ => .outOfFuel
  | fuel + 1, ts => do
    let (_, ts) ← get_token ts
    let (block_content, ts) ← parse_block_loop fuel ts []
    let (_, ts) ← get_token ts
    pure (serialize_block block_content, ts)

/-- The `while (peek_token().type != RBRACE)` loop of `parse_block`. -/
def parse_block_loop : Nat → List Token → AstBlock → Outcome ParseError (AstBlock × List Token)
  | 0, _, _ => .outOfFuel
  | fuel + 1, ts, block_content => do
    let t ← peek_token ts
    if t.type ≠ RBRACE then
      let t ← peek_token ts
      if t.type ≠ IDENTIFIER then
        .error .blockExpectedIdentifier
      else
        let (keyTok, ts) ← get_token ts
        let (eq, ts) ← get_token ts
        if eq.type ≠ EQUALS then
          .error .blockExpectedEquals
        else
          let (value, ts) ← parse_value fuel ts
          parse_block_loop fuel ts (mapAssign block_content keyTok.value value)
    else
      pure (block_content, ts)

end

/-- The `while (current_token_index_ < tokens_.size())` loop of `parse`.  The
call of `parse_value` gets a count of twice the remaining tokens plus two:
every call and every iteration below it reads a token at most one step
later (`parse_value_ne_outOfFuel`). -/
def parseLoop : Nat → List Token → AstBlock → Outcome ParseError AstBlock
  | 0, _, _ => .outOfFuel
  | _ + 1, [], ast => .ok ast
  | fuel + 1, t :: ts0, ast => do
    let t ← peek_token (t :: ts0)
    if t.type ≠ IDENTIFIER then
      .error .expectedIdentifier
    else
      let (keyTok, ts) ← get_token (t :: ts0)
      let eq ← peek_token ts
      if eq.type ≠ EQUALS then
        .error .expectedEquals
      else
        let (_, ts) ← get_token ts
        let (value, ts) ← parse_value (2 * ts.length + 2) ts
        parseLoop fuel ts (mapAssign ast keyTok.value value)

/-- `Parser(tokens).parse()`: every iteration reads at least three tokens, so
`tokens.length + 1` iterations are enough. -/
def parse (tokens : List Token) : Outcome ParseError AstBlock :=
  parseLoop (tokens.length + 1) tokens []

end Parser

/-- The lexer and parser errors of a whole run. -/
inductive BrikError where
  | lex (e : Lexer.LexError)
  | syn (e : Parser.ParseError)
  deriving DecidableEq

/-- The pipeline of `main`: `Lexer(source).tokenize()` then
`Parser(tokens).parse()`. -/
def parseSource (source : List Char) : Outcome BrikError AstBlock :=
  match Lexer.tokenize source with
  | .ok tokens =>
    match Parser.parse tokens with
    | .ok ast => .ok ast
    | .error e => .error (.syn e)
    | .outOfFuel => .outOfFuel
  | .error e => .error (.lex e)
  | .outOfFuel => .outOfFuel


/-! ## Definitions used to state and prove the properties -/

namespace Lexer

/-- Body of one iteration of the `tokenize` loop, with the rest of the loop
abstracted as `k`. -/
def tokenizeBody (k : List Char → List Token → Outcome LexError (List Token))
    (current_char : Char) (rest : List Char) (tokens : List Token) : Outcome LexError (List Token) :=
  if isspace current_char then
    k rest tokens
  else if current_char = '#' then
    k (((current_char :: rest).dropWhile notNewline).drop 1) tokens
  else if current_char = '"' then
    k ((rest.dropWhile notQuote).drop 1) (tokens ++ [⟨.STRING, rest.takeWhile notQuote⟩])
  else if isalpha current_char || current_char = '_' then
    k ((current_char :: rest).dropWhile identChar)
      (tokens ++ [⟨.IDENTIFIER, (current_char :: rest).takeWhile identChar⟩])
  else if isdigit current_char then
    k ((current_char :: rest).dropWhile numberChar)
      (tokens ++ [⟨.NUMBER, (current_char :: rest).takeWhile numberChar⟩])
  else if current_char = '{' then k rest (tokens ++ [⟨.LBRACE, ['{']⟩])
  else if current_char = '}' then k rest (tokens ++ [⟨.RBRACE, ['}']⟩])
  else if current_char = '[' then k rest (tokens ++ [⟨.LBRACKET, ['[']⟩])
  else if current_char = ']' then k rest (tokens ++ [⟨.RBRACKET, [']']⟩])
  else if current_char = '=' then k rest (tokens ++ [⟨.EQUALS, ['=']⟩])
  else if current_char = ',' then k rest (tokens ++ [⟨.COMMA, [',']⟩])
  else .error (.unexpectedChar current_char)

/-- Tokenizing from a remainder of the source with the tokens found so far. -/
def resume (s : List Char) (tokens : List Token) : Outcome LexError (List Token) :=
  tokenizeLoop (s.length + 1) s tokens

end Lexer

namespace Lexer

/-- Text of an identifier: a letter or underscore, then letters, digits and
underscores. -/
def isIdentText : List Char → Bool
  | [] => false
  | c :: cs => (isalpha c || c == '_') && cs.all identChar

/-- Text of a number as the lexer scans it: a digit, then digits and dots. -/
def isNumberText : List Char → Bool
  | [] => false
  | c :: cs => isdigit c && cs.all numberChar

/-- The characters that start or continue some token, a comment or white
space: white space, letters, digits, underscore, `#`, the double quote and
`{ } [ ] = ,`. -/
def recognized (c : Char) : Bool :=
  isspace c || isalpha c || isdigit c || c == '_' || c == '#' || c == '"' ||
    c == '{' || c == '}' || c == '[' || c == ']' || c == '=' || c == ','

end Lexer


namespace Lexer

/-- Where a left-to-right reading of the source stands: between tokens,
inside an identifier, inside a number, inside a comment or inside a string. -/
inductive Mode where
  | code
  | ident
  | number
  | comment
  | string
  deriving DecidableEq

/-- The mode after a character read between tokens; `none` when the character
is outside the recognized set. -/
def Mode.start (c : Char) : Option Mode :=
  if isspace c then some .code
  else if c = '#' then some .comment
  else if c = '"' then some .string
  else if isalpha c || c == '_' then some .ident
  else if isdigit c then some .number
  else if recognized c then some .code
  else none

/-- The mode after one more character; `none` when the character is an
offending one: outside comments and strings, outside the recognized set, and
not a `.` that continues a number. -/
def Mode.next : Mode → Char → Option Mode
  | .comment, c => if c = '\n' then some .code else some .comment
  | .string, c => if c = '"' then some .code else some .string
  | .ident, c => if identChar c then some .ident else Mode.start c
  | .number, c => if numberChar c then some .number else Mode.start c
  | .code, c => Mode.start c

/-- The mode after a run of characters none of which is offending. -/
def Mode.scan : Mode → List Char → Option Mode
  | m, [] => some m
  | m, c :: cs =>
    match m.next c with
    | some m1 => Mode.scan m1 cs
    | none => none

end Lexer


/-! ## Token sequences accepted by the parser, as trees

The trees describe inputs; `tokens` is the token sequence of a tree, and
`values`, `value` and `assignTo` are what the parser computes for it. -/

namespace Grammar

open Parser

/-- The three kinds of scalar token. -/
inductive ScalarKind where
  | identifier
  | string
  | number
  deriving DecidableEq

/-- The token type of a scalar kind. -/
def ScalarKind.type : ScalarKind → TokenType
  | .identifier => .IDENTIFIER
  | .string => .STRING
  | .number => .NUMBER

/-- The token `[` as the lexer emits it. -/
def lbracketTok : Token := ⟨.LBRACKET, ['[']⟩

/-- The token `]` as the lexer emits it. -/
def rbracketTok : Token := ⟨.RBRACKET, [']']⟩

/-- The token `{` as the lexer emits it. -/
def lbraceTok : Token := ⟨.LBRACE, ['{']⟩

/-- The token `}` as the lexer emits it. -/
def rbraceTok : Token := ⟨.RBRACE, ['}']⟩

/-- The token `,` as the lexer emits it. -/
def commaTok : Token := ⟨.COMMA, [',']⟩

/-- The token `=` as the lexer emits it. -/
def equalsTok : Token := ⟨.EQUALS, ['=']⟩

/-- An optional comma. -/
def optComma (comma : Bool) : List Token := if comma then [commaTok] else []

/-- The items between `[` and `]`: scalars and bracketed lists, each followed
by a comma or not. -/
inductive Items where
  | nil
  | scalar (kind : ScalarKind) (text : Str) (comma : Bool) (rest : Items)
  | nested (inner : Items) (comma : Bool) (rest : Items)

/-- Token sequence of the items of a list. -/
def Items.tokens : Items → List Token
  | .nil => []
  | .scalar kind text comma rest => ⟨kind.type, text⟩ :: (optComma comma ++ rest.tokens)
  | .nested inner comma rest =>
    lbracketTok :: (inner.tokens ++ rbracketTok :: (optComma comma ++ rest.tokens))

/-- The values of the items in source order; a bracketed item contributes the
value of the inner list. -/
def Items.values : Items → AstList
  | .nil => []
  | .scalar _ text _ rest => text :: rest.values
  | .nested inner _ rest => serialize_list inner.values :: rest.values

/-- The same items with every comma deleted. -/
def Items.strip : Items → Items
  | .nil => .nil
  | .scalar kind text _ rest => .scalar kind text false rest.strip
  | .nested inner _ rest => .nested inner.strip false rest.strip

mutual

/-- A value: a scalar, a list or a block. -/
inductive Value where
  | scalar (kind : ScalarKind) (text : Str)
  | list (items : Items)
  | block (body : Assignments)

/-- A sequence of assignments `key = value`. -/
inductive Assignments where
  | nil
  | cons (key : Str) (value : Value) (rest : Assignments)

end

mutual

/-- Token sequence of a value. -/
def Value.tokens : Value → List Token
  | .scalar kind text => [⟨kind.type, text⟩]
  | .list items => lbracketTok :: (items.tokens ++ [rbracketTok])
  | .block body => lbraceTok :: (body.tokens ++ [rbraceTok])

/-- Token sequence of a sequence of assignments. -/
def Assignments.tokens : Assignments → List Token
  | .nil => []
  | .cons key value rest => ⟨.IDENTIFIER, key⟩ :: equalsTok :: (value.tokens ++ rest.tokens)

end

mutual

/-- The `AstValue` of a value. -/
def Value.value : Value → AstValue
  | .scalar _ text => text
  | .list items => serialize_list items.values
  | .block body => serialize_block (body.assignTo [])

/-- The map after the assignments have been made, in order, to a map. -/
def Assignments.assignTo : Assignments → AstBlock → AstBlock
  | .nil, m => m
  | .cons key value rest, m => rest.assignTo (mapAssign m key value.value)

end

/-- The keys assigned, in source order. -/
def Assignments.keys : Assignments → List Str
  | .nil => []
  | .cons key _ rest => key :: rest.keys

/-- The `(key, value)` pairs assigned, in source order. -/
def Assignments.pairs : Assignments → List (Str × AstValue)
  | .nil => []
  | .cons key value rest => (key, value.value) :: rest.pairs

/-- The value of the last assignment to a key, if the key is assigned. -/
def Assignments.last : Assignments → Str → Option Value
  | .nil, _ => none
  | .cons key value rest, k =>
    match rest.last k with
    | some v => some v
    | none => if key = k then some value else none

/-- The text is one the lexer emits for a token of this kind, and the kind is
identifier or number. -/
def wordText (kind : ScalarKind) (text : Str) : Bool :=
  match kind with
  | .identifier => Lexer.isIdentText text
  | .number => Lexer.isNumberText text
  | .string => false

/-- Every scalar item is an identifier or a number as the lexer emits them
(no string token), at every depth. -/
def Items.plain : Items → Bool
  | .nil => true
  | .scalar kind text _ rest => wordText kind text && rest.plain
  | .nested inner _ rest => inner.plain && rest.plain

/-- The characters that `serialize_list` writes between `[` and `]` for the
values of the items. -/
def Items.content (items : Items) : List Char :=
  (items.values.map (fun item => item ++ [','])).flatten

/-- The characters between `[` and `]` of the value of a list, written out item
by item in source order: a scalar item gives its text and a `,`; a bracketed
item gives `[`, the characters of the inner items, `]`, and a `,`. -/
def Items.written : Items → List Char
  | .nil => []
  | .scalar _ text _ rest => text ++ ',' :: rest.written
  | .nested inner _ rest => '[' :: (inner.written ++ ']' :: ',' :: rest.written)

/-- The items with a comma after the last one. -/
def Items.setLastComma : Items → Items
  | .nil => .nil
  | .scalar kind text comma rest =>
    match rest with
    | .nil => .scalar kind text true .nil
    | _ => .scalar kind text comma rest.setLastComma
  | .nested inner comma rest =>
    match rest with
    | .nil => .nested inner true .nil
    | _ => .nested inner comma rest.setLastComma

/-- There is a last item and no comma follows it. -/
def Items.endsPlain : Items → Bool
  | .nil => false
  | .scalar _ _ comma rest =>
    match rest with
    | .nil => !comma
    | _ => rest.endsPlain
  | .nested _ comma rest =>
    match rest with
    | .nil => !comma
    | _ => rest.endsPlain

/-- The tokens between the `[` of a list and a position where `parse_list`
expects an item: complete items, and `[` of lists that are still open at
the position. -/
inductive ListPath where
  | here
  | scalar (kind : ScalarKind) (text : Str) (comma : Bool) (more : ListPath)
  | nested (inner : Items) (comma : Bool) (more : ListPath)
  | enter (more : ListPath)

/-- Token sequence of a path inside a list. -/
def ListPath.tokens : ListPath → List Token
  | .here => []
  | .scalar kind text comma more => ⟨kind.type, text⟩ :: (optComma comma ++ more.tokens)
  | .nested inner comma more =>
    lbracketTok :: (inner.tokens ++ rbracketTok :: (optComma comma ++ more.tokens))
  | .enter more => lbracketTok :: more.tokens

/-- The tokens from the start of a value to a position inside it where
`parse_list` expects an item: the value is a list, or a block one of whose
assignments holds the position. -/
inductive ValuePath where
  | list (p : ListPath)
  | block (before : Assignments) (key : Str) (more : ValuePath)

/-- Token sequence of a path inside a value. -/
def ValuePath.tokens : ValuePath → List Token
  | .list p => lbracketTok :: p.tokens
  | .block before key more =>
    lbraceTok :: (before.tokens ++ ⟨.IDENTIFIER, key⟩ :: equalsTok :: more.tokens)

/-- The path inside the innermost list that holds the position. -/
def ValuePath.listPath : ValuePath → ListPath
  | .list p => p
  | .block _ _ more => more.listPath

/-- The type of the last token of a sequence that follows a token of type
`prev`. -/
def lastType (prev : TokenType) : List Token → TokenType
  | [] => prev
  | t :: ts => lastType t.type ts

/-! Example trees. -/

/-- The items `1, 2 3` (with `false`) and `1, 2, 3` (with `true`). -/
def Examples.oneTwoThree (comma : Bool) : Items :=
  .scalar .number "1".toList true
    (.scalar .number "2".toList comma (.scalar .number "3".toList false .nil))

/-- The assignments `y = 1 x = 2`. -/
def Examples.yThenX : Assignments :=
  .cons "y".toList (.scalar .number "1".toList) (.cons "x".toList (.scalar .number "2".toList) .nil)

/-- The tokens of `a = 1`. -/
def Examples.aIsOne : List Token :=
  [⟨.IDENTIFIER, "a".toList⟩, equalsTok, ⟨.NUMBER, "1".toList⟩]

/-- The tokens of `b = 3`. -/
def Examples.bIsThree : List Token :=
  [⟨.IDENTIFIER, "b".toList⟩, equalsTok, ⟨.NUMBER, "3".toList⟩]

end Grammar


/-! ## Sources made of flat assignments -/

namespace Flat

open Lexer Grammar

/-- One assignment `key = value` with a scalar value, and the white space
after the key, after `=` and after the value. -/
structure Assign where
  key : Str
  kind : ScalarKind
  text : Str
  afterKey : Str
  afterEquals : Str
  afterValue : Str

/-- The value as written in the source: a string stands between double
quotes. -/
def Assign.valueSource (a : Assign) : List Char :=
  match a.kind with
  | .string => '"' :: (a.text ++ ['"'])
  | _ => a.text

/-- The key and the value are well formed and the separators are white
space. -/
def Assign.wellFormed (a : Assign) : Bool :=
  isIdentText a.key &&
    (match a.kind with
      | .identifier => isIdentText a.text
      | .number => isNumberText a.text
      | .string => a.text.all notQuote) &&
    a.afterKey.all isspace && a.afterEquals.all isspace && a.afterValue.all isspace

/-- Source text of one assignment. -/
def Assign.source (a : Assign) : List Char :=
  a.key ++ (a.afterKey ++ '=' :: (a.afterEquals ++ (a.valueSource ++ a.afterValue)))

/-- Source text of a sequence of assignments. -/
def source : List Assign → List Char
  | [] => []
  | a :: rest => a.source ++ source rest

/-- Every assignment is well formed and is separated from the next one by
white space. -/
def wellFormed : List Assign → Bool
  | [] => true
  | a :: rest => a.wellFormed && (!a.afterValue.isEmpty || rest.isEmpty) && wellFormed rest

/-- The assignments as a tree. -/
def doc : List Assign → Assignments
  | [] => .nil
  | a :: rest => .cons a.key (.scalar a.kind a.text) (doc rest)

/-- The source ` a = 1\nb="x y" a = on`, with a leading blank. -/
def sample : List Assign :=
  [⟨"a".toList, .number, "1".toList, " ".toList, " ".toList, "\n".toList⟩,
    ⟨"b".toList, .string, "x y".toList, [], [], " ".toList⟩,
    ⟨"a".toList, .identifier, "on".toList, " ".toList, " ".toList, []⟩]

end Flat


/-- A sequence of assignments `m[key] = value` made in order to a map. -/
def mapAssignAll (m : AstBlock) (l : List (Str × AstValue)) : AstBlock :=
  l.foldl (fun acc p => mapAssign acc p.1 p.2) m


/-! ## The grammar of section 4.2 of the specification

```
document  := (assignment)*
assignment:= Identifier Equals value
value     := Identifier | String | Number | block | list
block     := LBrace (assignment)* RBrace
list      := LBracket (listitem (Comma listitem)*)? RBracket
listitem  := Identifier | String | Number | list
```
A terminal stands for any token of that type. -/

namespace SpecGrammar

/-- The nonterminals; `items` is `listitem (Comma listitem)*`. -/
inductive Sym where
  | document
  | assignment
  | value
  | block
  | list
  | listitem
  | items

/-- Derivation of a token sequence from a nonterminal. -/
inductive Derives : Sym → List Token → Prop where
  | document_nil : Derives .document []
  | document_cons {a rest : List Token} :
    Derives .assignment a → Derives .document rest → Derives .document (a ++ rest)
  | assignment {k e : Token} {v : List Token} :
    k.type = .IDENTIFIER → e.type = .EQUALS → Derives .value v → Derives .assignment (k :: e :: v)
  | value_identifier {t : Token} : t.type = .IDENTIFIER → Derives .value [t]
  | value_string {t : Token} : t.type = .STRING → Derives .value [t]
  | value_number {t : Token} : t.type = .NUMBER → Derives .value [t]
  | value_block {ts : List Token} : Derives .block ts → Derives .value ts
  | value_list {ts : List Token} : Derives .list ts → Derives .value ts
  | block {lb rb : Token} {body : List Token} :
    lb.type = .LBRACE → rb.type = .RBRACE → Derives .document body →
    Derives .block (lb :: (body ++ [rb]))
  | list_empty {lb rb : Token} :
    lb.type = .LBRACKET → rb.type = .RBRACKET → Derives .list [lb, rb]
  | list_items {lb rb : Token} {its : List Token} :
    lb.type = .LBRACKET → rb.type = .RBRACKET → Derives .items its →
    Derives .list (lb :: (its ++ [rb]))
  | items_one {it : List Token} : Derives .listitem it → Derives .items it
  | items_cons {it more : List Token} {c : Token} :
    Derives .listitem it → c.type = .COMMA → Derives .items more →
    Derives .items (it ++ c :: more)
  | listitem_identifier {t : Token} : t.type = .IDENTIFIER → Derives .listitem [t]
  | listitem_string {t : Token} : t.type = .STRING → Derives .listitem [t]
  | listitem_number {t : Token} : t.type = .NUMBER → Derives .listitem [t]
  | listitem_list {ts : List Token} : Derives .list ts → Derives .listitem ts

open Parser in
/-- What the parser does on a token sequence derived from a nonterminal. -/
def Accepts : Sym → List Token → Prop
  | .document, ts =>
    (∀ (ast : AstBlock) (fuel : Nat), ts.length < fuel → ∃ d, parseLoop fuel ts ast = .ok d) ∧
      ∀ (rb : Token) (rest : List Token) (m : AstBlock) (fuel : Nat), rb.type = .RBRACE →
        2 * ts.length + 1 ≤ fuel →
        ∃ m1, parse_block_loop fuel (ts ++ rb :: rest) m = .ok (m1, rb :: rest)
  | .assignment, ts =>
    ∃ (k e : Token) (v : List Token), ts = k :: e :: v ∧ k.type = .IDENTIFIER ∧
      e.type = .EQUALS ∧
      ∀ (rest : List Token) (fuel : Nat), 2 * v.length + 1 ≤ fuel →
        ∃ val, parse_value fuel (v ++ rest) = .ok (val, rest)
  | .value, ts =>
    ∀ (rest : List Token) (fuel : Nat), 2 * ts.length + 1 ≤ fuel →
      ∃ val, parse_value fuel (ts ++ rest) = .ok (val, rest)
  | .block, ts =>
    1 ≤ ts.length ∧ ∃ lb tl, ts = lb :: tl ∧ lb.type = .LBRACE ∧
      ∀ (rest : List Token) (fuel : Nat), 2 * ts.length ≤ fuel →
        ∃ val, parse_block fuel (ts ++ rest) = .ok (val, rest)
  | .list, ts =>
    ∃ lb tl, ts = lb :: tl ∧ lb.type = .LBRACKET ∧
      ∀ (rest : List Token) (fuel : Nat), 2 * ts.length ≤ fuel →
        ∃ val, parse_list fuel (ts ++ rest) = .ok (val, rest)
  | .listitem, ts =>
    1 ≤ ts.length ∧
      ∀ (fuel : Nat) (nxt : Token) (rest : List Token) (acc : AstList), 2 * ts.length ≤ fuel →
        ∃ v, (nxt.type ≠ .COMMA → parse_list_loop (fuel + 1) (ts ++ nxt :: rest) acc =
            parse_list_loop fuel (nxt :: rest) (acc ++ [v])) ∧
          (nxt.type = .COMMA → parse_list_loop (fuel + 1) (ts ++ nxt :: rest) acc =
            parse_list_loop fuel rest (acc ++ [v]))
  | .items, ts =>
    ∀ (rb : Token) (rest : List Token) (acc : AstList) (fuel : Nat), rb.type = .RBRACKET →
      2 * ts.length + 1 ≤ fuel →
      ∃ c, parse_list_loop fuel (ts ++ rb :: rest) acc = .ok (c, rb :: rest)

/-- One `assignment` of a derived document, `key equals value`, together with
the value that `parse_value` returns for it. -/
structure Reading where
  key : Token
  equals : Token
  value : List Token
  result : AstValue

/-- The tokens of the assignment. -/
def Reading.tokens (r : Reading) : List Token :=
  r.key :: r.equals :: r.value

/-- The entry that the assignment makes in the document. -/
def Reading.pair (r : Reading) : Str × AstValue :=
  (r.key.value, r.result)

/-- The assignment is derived by the grammar, and `parse_value` reads the
tokens of its value to their end and returns `result`. -/
def Reading.Valid (r : Reading) : Prop :=
  r.key.type = .IDENTIFIER ∧ r.equals.type = .EQUALS ∧ Derives .value r.value ∧
    Parser.parse_value (2 * r.value.length + 1) r.value = .ok (r.result, [])

/-- A derived document is a sequence of assignments, each with the value that
`parse_value` returns for it. -/
def Splits : Sym → List Token → Prop
  | .document, ts =>
    ∃ rs : List Reading, ts = (rs.map Reading.tokens).flatten ∧ ∀ r ∈ rs, r.Valid
  | .assignment, ts => ∃ r : Reading, ts = r.tokens ∧ r.Valid
  | _, _ => True

/-- The tokens of `a = [1, "s"]`. -/
def sample : List Token :=
  [⟨.IDENTIFIER, "a".toList⟩, ⟨.EQUALS, "=".toList⟩, ⟨.LBRACKET, "[".toList⟩,
    ⟨.NUMBER, "1".toList⟩, ⟨.COMMA, ",".toList⟩, ⟨.STRING, "s".toList⟩, ⟨.RBRACKET, "]".toList⟩]

end SpecGrammar


/-! ## The lexer with its cursor as an index

The same `tokenize`, with `current_pos_` kept as a number and every
`source_[i]` and `source_.substr(start, n)` checked against the length of the
source. -/

namespace Indexed

open Lexer

/-- What a run of the index-based lexer can stop with: the exception thrown by
`tokenize`, a character read at an index that is not below the length of the
source, or a `substr` that starts beyond the length. -/
inductive Fault where
  | lex (e : LexError)
  | index (i : Nat)
  | substrStart (start : Nat)
  deriving DecidableEq

/-- `source_[i]`, a fault unless `i < source_.length()`. -/
def charAt (source : Str) (i : Nat) : Outcome Fault Char :=
  match source[i]? with
  | some c => .ok c
  | none => .error (.index i)

/-- `source_.substr(start, len)`, a fault unless `start <= source_.length()`. -/
def substr (source : Str) (start len : Nat) : Outcome Fault Str :=
  if start ≤ source.length then .ok ((source.drop start).take len)
  else .error (.substrStart start)

/-- `while (current_pos_ < source_.length() && p(source_[current_pos_])) current_pos_++;`
returning the cursor after the loop. -/
def scan (p : Char → Bool) (source : Str) : Nat → Nat → Outcome Fault Nat
  | 0, _ => .outOfFuel
  | fuel + 1, current_pos =>
    if current_pos < source.length then
      charAt source current_pos >>= fun c =>
        if p c then scan p source fuel (current_pos + 1) else .ok current_pos
    else .ok current_pos

/-- The loop of `Lexer::tokenize` from the cursor `current_pos`, returning the
tokens and the cursor at the exit of the loop.  The inner scans get
`source.length + 1` iterations. -/
def tokenizeLoop (source : Str) : Nat → Nat → List Token → Outcome Fault (List Token × Nat)
  | 0, _, _ => .outOfFuel
  | fuel + 1, current_pos, tokens =>
    if current_pos < source.length then
      charAt source current_pos >>= fun current_char =>
        if isspace current_char then
          tokenizeLoop source fuel (current_pos + 1) tokens
        else if current_char = '#' then
          scan notNewline source (source.length + 1) current_pos >>= fun stop =>
            tokenizeLoop source fuel (stop + 1) tokens
        else if current_char = '"' then
          scan notQuote source (source.length + 1) (current_pos + 1) >>= fun stop =>
            substr source (current_pos + 1) (stop - (current_pos + 1)) >>= fun text =>
              tokenizeLoop source fuel (stop + 1) (tokens ++ [⟨.STRING, text⟩])
        else if isalpha current_char || current_char = '_' then
          scan identChar source (source.length + 1) current_pos >>= fun stop =>
            substr source current_pos (stop - current_pos) >>= fun text =>
              tokenizeLoop source fuel stop (tokens ++ [⟨.IDENTIFIER, text⟩])
        else if isdigit current_char then
          scan numberChar source (source.length + 1) current_pos >>= fun stop =>
            substr source current_pos (stop - current_pos) >>= fun text =>
              tokenizeLoop source fuel stop (tokens ++ [⟨.NUMBER, text⟩])
        else if current_char = '{' then
          tokenizeLoop source fuel (current_pos + 1) (tokens ++ [⟨.LBRACE, ['{']⟩])
        else if current_char = '}' then
          tokenizeLoop source fuel (current_pos + 1) (tokens ++ [⟨.RBRACE, ['}']⟩])
        else if current_char = '[' then
          tokenizeLoop source fuel (current_pos + 1) (tokens ++ [⟨.LBRACKET, ['[']⟩])
        else if current_char = ']' then
          tokenizeLoop source fuel (current_pos + 1) (tokens ++ [⟨.RBRACKET, [']']⟩])
        else if current_char = '=' then
          tokenizeLoop source fuel (current_pos + 1) (tokens ++ [⟨.EQUALS, ['=']⟩])
        else if current_char = ',' then
          tokenizeLoop source fuel (current_pos + 1) (tokens ++ [⟨.COMMA, [',']⟩])
        else .error (.lex (.unexpectedChar current_char))
    else .ok (tokens, current_pos)

/-- `Lexer(source).tokenize()` with the final value of `current_pos_`. -/
def tokenize (source : Str) : Outcome Fault (List Token × Nat) :=
  tokenizeLoop source (source.length + 1) 0 []

/-- The index-based run `q` does what the run `r` on the rest of the input
does, and a cursor it returns is at most `bound`. -/
def Agrees (bound : Nat) :
    Outcome LexError (List Token) → Outcome Fault (List Token × Nat) → Prop
  | .ok ts, q => ∃ stop, q = .ok (ts, stop) ∧ stop ≤ bound
  | .error e, q => q = .error (.lex e)
  | .outOfFuel, q => q = .outOfFuel

end Indexed


namespace Outcome
@[simp] theorem ok_bind {ε α β : Type} (a : α) (f : α → Outcome ε β) : (Outcome.ok a >>= f) = f a := rfl
@[simp] theorem error_bind {ε α β : Type} (e : ε) (f : α → Outcome ε β) : ((Outcome.error e : Outcome ε α) >>= f) = Outcome.error e := rfl
@[simp] theorem outOfFuel_bind {ε α β : Type} (f : α → Outcome ε β) : ((Outcome.outOfFuel : Outcome ε α) >>= f) = Outcome.outOfFuel := rfl
@[simp] theorem pure_eq {ε α : Type} (a : α) : (pure a : Outcome ε α) = Outcome.ok a := rfl
end Outcome

namespace Lexer

theorem length_dropWhile_le (p : Char → Bool) (s : List Char) : (s.dropWhile p).length ≤ s.length := by
  induction s with
  | nil => simp
  | cons c s ih =>
    simp only [List.dropWhile_cons]
    split
    · simp only [List.length_cons]; omega
    · exact le_refl _


theorem tokenizeLoop_succ_cons (fuel : Nat) (c : Char) (rest : List Char) (tokens : List Token) :
    tokenizeLoop (fuel + 1) (c :: rest) tokens = tokenizeBody (tokenizeLoop fuel) c rest tokens := by
  simp only [tokenizeLoop, tokenizeBody]

theorem tokenizeBody_congr (k1 k2 : List Char → List Token → Outcome LexError (List Token))
    (c : Char) (rest : List Char) (tokens : List Token)
    (h : ∀ s t, s.length ≤ rest.length → k1 s t = k2 s t) :
    tokenizeBody k1 c rest tokens = tokenizeBody k2 c rest tokens := by
  have e1 : ∀ (p : Char → Bool), p c = true → ((c :: rest).dropWhile p).length ≤ rest.length := by
    intro p hp
    simp only [List.dropWhile_cons, hp, if_true]
    exact length_dropWhile_le p rest
  have e2 : ∀ (l : List Char), l.length ≤ rest.length + 1 → (l.drop 1).length ≤ rest.length := by
    intro l hl
    simp only [List.length_drop]; omega
  unfold tokenizeBody
  by_cases h1 : isspace c = true
  · rw [if_pos h1, if_pos h1]; exact h _ _ (le_refl _)
  rw [if_neg h1, if_neg h1]
  by_cases h2 : c = '#'
  · rw [if_pos h2, if_pos h2]
    apply h
    apply e2
    have := length_dropWhile_le notNewline (c :: rest)
    simpa using this
  rw [if_neg h2, if_neg h2]
  by_cases h3 : c = '"'
  · rw [if_pos h3, if_pos h3]
    apply h
    have := length_dropWhile_le notQuote rest
    simp only [List.length_drop]; omega
  rw [if_neg h3, if_neg h3]
  by_cases h4 : (isalpha c || decide (c = '_')) = true
  · rw [if_pos h4, if_pos h4]
    apply h
    apply e1
    simp only [identChar, isalnum]
    simp only [Bool.or_eq_true, decide_eq_true_eq] at h4
    rcases h4 with h4 | h4
    · simp [h4]
    · simp [h4]
  rw [if_neg h4, if_neg h4]
  by_cases h5 : isdigit c = true
  · rw [if_pos h5, if_pos h5]
    apply h
    apply e1
    simp [numberChar, h5]
  rw [if_neg h5, if_neg h5]
  by_cases h6 : c = '{'
  · rw [if_pos h6, if_pos h6]; exact h _ _ (le_refl _)
  rw [if_neg h6, if_neg h6]
  by_cases h7 : c = '}'
  · rw [if_pos h7, if_pos h7]; exact h _ _ (le_refl _)
  rw [if_neg h7, if_neg h7]
  by_cases h8 : c = '['
  · rw [if_pos h8, if_pos h8]; exact h _ _ (le_refl _)
  rw [if_neg h8, if_neg h8]
  by_cases h9 : c = ']'
  · rw [if_pos h9, if_pos h9]; exact h _ _ (le_refl _)
  rw [if_neg h9, if_neg h9]
  by_cases h10 : c = '='
  · rw [if_pos h10, if_pos h10]; exact h _ _ (le_refl _)
  rw [if_neg h10, if_neg h10]
  by_cases h11 : c = ','
  · rw [if_pos h11, if_pos h11]; exact h _ _ (le_refl _)
  rw [if_neg h11, if_neg h11]

theorem tokenizeLoop_fuel (f1 : Nat) : ∀ (f2 : Nat) (s : List Char) (tokens : List Token),
    s.length < f1 → s.length < f2 → tokenizeLoop f1 s tokens = tokenizeLoop f2 s tokens := by
  induction f1 with
  | zero => intro f2 s tokens h1; omega
  | succ n ih =>
    intro f2 s tokens h1 h2
    cases f2 with
    | zero => omega
    | succ m =>
      cases s with
      | nil => simp [tokenizeLoop]
      | cons c rest =>
        simp only [List.length_cons] at h1 h2
        rw [tokenizeLoop_succ_cons, tokenizeLoop_succ_cons]
        apply tokenizeBody_congr
        intro s t hs
        exact ih m s t (by omega) (by omega)

theorem resume_nil (tokens : List Token) : resume [] tokens = .ok tokens := by
  simp [resume, tokenizeLoop]

theorem resume_cons (c : Char) (rest : List Char) (tokens : List Token) :
    resume (c :: rest) tokens = tokenizeBody resume c rest tokens := by
  unfold resume
  rw [List.length_cons, tokenizeLoop_succ_cons]
  apply tokenizeBody_congr
  intro s t hs
  exact tokenizeLoop_fuel _ _ s t (by omega) (by omega)

theorem tokenize_eq_resume (source : List Char) : tokenize source = resume source [] := rfl

end Lexer

namespace Lexer

/-! ### Character classes -/

theorem isalpha_not_isspace {c : Char} (h : isalpha c = true) : isspace c = false := by
  simp only [isalpha, isspace, Bool.or_eq_true, Bool.and_eq_true, decide_eq_true_eq,
    Bool.or_eq_false_iff, Bool.and_eq_false_imp, decide_eq_false_iff_not] at *
  omega

theorem isdigit_not_isspace {c : Char} (h : isdigit c = true) : isspace c = false := by
  simp only [isdigit, isspace, Bool.or_eq_true, Bool.and_eq_true, decide_eq_true_eq,
    Bool.or_eq_false_iff, Bool.and_eq_false_imp, decide_eq_false_iff_not] at *
  omega

theorem isdigit_not_isalpha {c : Char} (h : isdigit c = true) : isalpha c = false := by
  simp only [isdigit, isalpha, Bool.or_eq_true, Bool.and_eq_true, decide_eq_true_eq,
    Bool.or_eq_false_iff, Bool.and_eq_false_imp, decide_eq_false_iff_not] at *
  omega

theorem ne_of_class {p : Char → Bool} {c d : Char} (hc : p c = true) (hd : p d = false) : c ≠ d := by
  intro e
  rw [e, hd] at hc
  exact Bool.false_ne_true hc

theorem identStart_identChar {c : Char} (h : (isalpha c || c == '_') = true) : identChar c = true := by
  simp only [Bool.or_eq_true, beq_iff_eq] at h
  rcases h with h | h
  · simp [identChar, isalnum, h]
  · simp [identChar, h]

theorem isdigit_numberChar {c : Char} (h : isdigit c = true) : numberChar c = true := by
  simp [numberChar, h]

theorem isspace_not_identChar {c : Char} (h : isspace c = true) : identChar c = false := by
  have h2 : c ≠ '_' := by
    intro e
    rw [e] at h
    exact absurd h (by decide)
  simp only [isspace, identChar, isalnum, isalpha, isdigit, Bool.or_eq_true, Bool.and_eq_true,
    decide_eq_true_eq, Bool.or_eq_false_iff, Bool.and_eq_false_imp, decide_eq_false_iff_not,
    beq_eq_false_iff_ne, ne_eq] at *
  refine ⟨⟨⟨?_, ?_⟩, ?_⟩, h2⟩ <;> omega

theorem isspace_not_numberChar {c : Char} (h : isspace c = true) : numberChar c = false := by
  have h2 : c ≠ '.' := by
    intro e
    rw [e] at h
    exact absurd h (by decide)
  simp only [isspace, numberChar, isdigit, Bool.or_eq_true, Bool.and_eq_true,
    decide_eq_true_eq, Bool.or_eq_false_iff, Bool.and_eq_false_imp, decide_eq_false_iff_not,
    beq_eq_false_iff_ne, ne_eq] at *
  refine ⟨?_, h2⟩
  omega

/-! ### Scans -/

theorem takeWhile_append_all (p : Char → Bool) (l r : List Char) (h : l.all p = true) :
    (l ++ r).takeWhile p = l ++ r.takeWhile p := by
  induction l with
  | nil => rfl
  | cons a l ih =>
    simp only [List.all_cons, Bool.and_eq_true] at h
    simp only [List.cons_append, List.takeWhile_cons, h.1, if_true, ih h.2]

theorem dropWhile_append_all (p : Char → Bool) (l r : List Char) (h : l.all p = true) :
    (l ++ r).dropWhile p = r.dropWhile p := by
  induction l with
  | nil => rfl
  | cons a l ih =>
    simp only [List.all_cons, Bool.and_eq_true] at h
    simp only [List.cons_append, List.dropWhile_cons, h.1, if_true, ih h.2]

theorem dropWhile_of_takeWhile_nil (p : Char → Bool) (r : List Char) (h : r.takeWhile p = []) :
    r.dropWhile p = r := by
  cases r with
  | nil => rfl
  | cons a r =>
    simp only [List.takeWhile_cons] at h
    simp only [List.dropWhile_cons]
    split at h
    · exact absurd h (List.cons_ne_nil _ _)
    · rename_i hp
      simp [hp]

/-! ### One iteration of the loop, by the character under the cursor -/

theorem resume_space (c : Char) (rest : List Char) (tokens : List Token) (h : isspace c = true) :
    resume (c :: rest) tokens = resume rest tokens := by
  rw [resume_cons, tokenizeBody, if_pos h]

theorem resume_blank (ws rest : List Char) (tokens : List Token) (h : ws.all isspace = true) :
    resume (ws ++ rest) tokens = resume rest tokens := by
  induction ws with
  | nil => rfl
  | cons a ws ih =>
    simp only [List.all_cons, Bool.and_eq_true] at h
    rw [List.cons_append, resume_space _ _ _ h.1, ih h.2]

theorem resume_hash (rest : List Char) (tokens : List Token) :
    resume ('#' :: rest) tokens = resume ((rest.dropWhile notNewline).drop 1) tokens := by
  rw [resume_cons, tokenizeBody, if_neg (by decide), if_pos rfl]
  rfl

theorem resume_quote (rest : List Char) (tokens : List Token) :
    resume ('"' :: rest) tokens =
      resume ((rest.dropWhile notQuote).drop 1) (tokens ++ [⟨.STRING, rest.takeWhile notQuote⟩]) := by
  rw [resume_cons, tokenizeBody, if_neg (by decide), if_neg (by decide), if_pos rfl]

theorem resume_identStart (c : Char) (rest : List Char) (tokens : List Token)
    (h : (isalpha c || c == '_') = true) :
    resume (c :: rest) tokens =
      resume (rest.dropWhile identChar) (tokens ++ [⟨.IDENTIFIER, c :: rest.takeWhile identChar⟩]) := by
  have hs : isspace c = false := by
    simp only [Bool.or_eq_true, beq_iff_eq] at h
    rcases h with h | h
    · exact isalpha_not_isspace h
    · rw [h]; decide
  have h1 : c ≠ '#' := ne_of_class (p := fun x => isalpha x || x == '_') h (by decide)
  have h2 : c ≠ '"' := ne_of_class (p := fun x => isalpha x || x == '_') h (by decide)
  have h3 : (isalpha c || decide (c = '_')) = true := by simpa using h
  have hi := identStart_identChar h
  rw [resume_cons, tokenizeBody, if_neg (by simp [hs]), if_neg h1, if_neg h2, if_pos h3]
  simp only [List.dropWhile_cons, List.takeWhile_cons, hi, if_true]

theorem resume_digit (c : Char) (rest : List Char) (tokens : List Token)
    (h : isdigit c = true) :
    resume (c :: rest) tokens =
      resume (rest.dropWhile numberChar) (tokens ++ [⟨.NUMBER, c :: rest.takeWhile numberChar⟩]) := by
  have hs := isdigit_not_isspace h
  have ha := isdigit_not_isalpha h
  have h1 : c ≠ '#' := ne_of_class h (by decide)
  have h2 : c ≠ '"' := ne_of_class h (by decide)
  have h3 : c ≠ '_' := ne_of_class h (by decide)
  have hn := isdigit_numberChar h
  rw [resume_cons, tokenizeBody, if_neg (by simp [hs]), if_neg h1, if_neg h2,
    if_neg (by simp [ha, h3]), if_pos h]
  simp only [List.dropWhile_cons, List.takeWhile_cons, hn, if_true]

theorem resume_lbrace (rest : List Char) (tokens : List Token) :
    resume ('{' :: rest) tokens = resume rest (tokens ++ [⟨.LBRACE, ['{']⟩]) := by
  rw [resume_cons, tokenizeBody, if_neg (by decide), if_neg (by decide), if_neg (by decide),
    if_neg (by decide), if_neg (by decide), if_pos rfl]

theorem resume_rbrace (rest : List Char) (tokens : List Token) :
    resume ('}' :: rest) tokens = resume rest (tokens ++ [⟨.RBRACE, ['}']⟩]) := by
  rw [resume_cons, tokenizeBody, if_neg (by decide), if_neg (by decide), if_neg (by decide),
    if_neg (by decide), if_neg (by decide), if_neg (by decide), if_pos rfl]

theorem resume_lbracket (rest : List Char) (tokens : List Token) :
    resume ('[' :: rest) tokens = resume rest (tokens ++ [⟨.LBRACKET, ['[']⟩]) := by
  rw [resume_cons, tokenizeBody, if_neg (by decide), if_neg (by decide), if_neg (by decide),
    if_neg (by decide), if_neg (by decide), if_neg (by decide), if_neg (by decide), if_pos rfl]

theorem resume_rbracket (rest : List Char) (tokens : List Token) :
    resume (']' :: rest) tokens = resume rest (tokens ++ [⟨.RBRACKET, [']']⟩]) := by
  rw [resume_cons, tokenizeBody, if_neg (by decide), if_neg (by decide), if_neg (by decide),
    if_neg (by decide), if_neg (by decide), if_neg (by decide), if_neg (by decide),
    if_neg (by decide), if_pos rfl]

theorem resume_equals (rest : List Char) (tokens : List Token) :
    resume ('=' :: rest) tokens = resume rest (tokens ++ [⟨.EQUALS, ['=']⟩]) := by
  rw [resume_cons, tokenizeBody, if_neg (by decide), if_neg (by decide), if_neg (by decide),
    if_neg (by decide), if_neg (by decide), if_neg (by decide), if_neg (by decide),
    if_neg (by decide), if_neg (by decide), if_pos rfl]

theorem resume_comma (rest : List Char) (tokens : List Token) :
    resume (',' :: rest) tokens = resume rest (tokens ++ [⟨.COMMA, [',']⟩]) := by
  rw [resume_cons, tokenizeBody, if_neg (by decide), if_neg (by decide), if_neg (by decide),
    if_neg (by decide), if_neg (by decide), if_neg (by decide), if_neg (by decide),
    if_neg (by decide), if_neg (by decide), if_neg (by decide), if_pos rfl]

theorem resume_unrecognized (c : Char) (rest : List Char) (tokens : List Token)
    (h : recognized c = false) :
    resume (c :: rest) tokens = .error (.unexpectedChar c) := by
  simp only [recognized, Bool.or_eq_false_iff, beq_eq_false_iff_ne, ne_eq] at h
  obtain ⟨⟨⟨⟨⟨⟨⟨⟨⟨⟨⟨h1, h2⟩, h3⟩, h4⟩, h5⟩, h6⟩, h7⟩, h8⟩, h9⟩, h10⟩, h11⟩, h12⟩ := h
  rw [resume_cons, tokenizeBody, if_neg (by simp [h1]), if_neg h5, if_neg h6,
    if_neg (by simp [h2, h4]), if_neg (by simp [h3]), if_neg h7, if_neg h8, if_neg h9,
    if_neg h10, if_neg h11, if_neg h12]

/-! ### Whole tokens -/

theorem resume_ident_text (name rest : List Char) (tokens : List Token)
    (hn : isIdentText name = true) (hr : rest.takeWhile identChar = []) :
    resume (name ++ rest) tokens = resume rest (tokens ++ [⟨.IDENTIFIER, name⟩]) := by
  cases name with
  | nil => exact absurd hn (by decide)
  | cons c cs =>
    simp only [isIdentText, Bool.and_eq_true] at hn
    rw [List.cons_append, resume_identStart _ _ _ hn.1, takeWhile_append_all _ _ _ hn.2,
      dropWhile_append_all _ _ _ hn.2, hr, dropWhile_of_takeWhile_nil _ _ hr, List.append_nil]

theorem resume_number_text (digits rest : List Char) (tokens : List Token)
    (hn : isNumberText digits = true) (hr : rest.takeWhile numberChar = []) :
    resume (digits ++ rest) tokens = resume rest (tokens ++ [⟨.NUMBER, digits⟩]) := by
  cases digits with
  | nil => exact absurd hn (by decide)
  | cons c cs =>
    simp only [isNumberText, Bool.and_eq_true] at hn
    rw [List.cons_append, resume_digit _ _ _ hn.1, takeWhile_append_all _ _ _ hn.2,
      dropWhile_append_all _ _ _ hn.2, hr, dropWhile_of_takeWhile_nil _ _ hr, List.append_nil]

theorem resume_string_text (w rest : List Char) (tokens : List Token)
    (hw : w.all notQuote = true) :
    resume ('"' :: (w ++ '"' :: rest)) tokens = resume rest (tokens ++ [⟨.STRING, w⟩]) := by
  have ht : ('"' :: rest).takeWhile notQuote = [] := by
    simp [List.takeWhile_cons, notQuote]
  rw [resume_quote, takeWhile_append_all _ _ _ hw, dropWhile_append_all _ _ _ hw, ht,
    dropWhile_of_takeWhile_nil _ _ ht, List.append_nil]
  rfl

theorem takeWhile_nil_of_blank (p : Char → Bool) (hp : ∀ c, isspace c = true → p c = false)
    (ws rest : List Char) (hws : ws.all isspace = true) (h : ws ≠ [] ∨ rest = []) :
    (ws ++ rest).takeWhile p = [] := by
  cases ws with
  | nil =>
    rcases h with h | h
    · exact absurd rfl h
    · rw [h]; rfl
  | cons a ws =>
    simp only [List.all_cons, Bool.and_eq_true] at hws
    simp [List.takeWhile_cons, hp a hws.1]

theorem takeWhile_nil_blank_cons (p : Char → Bool) (hp : ∀ c, isspace c = true → p c = false)
    (ws : List Char) (c : Char) (rest : List Char) (hws : ws.all isspace = true)
    (hc : p c = false) : (ws ++ c :: rest).takeWhile p = [] := by
  cases ws with
  | nil => simp [List.takeWhile_cons, hc]
  | cons a ws =>
    simp only [List.all_cons, Bool.and_eq_true] at hws
    simp [List.takeWhile_cons, hp a hws.1]

theorem all_numberChar_of_isdigit (digits : List Char) (h : digits.all isdigit = true) :
    digits.all numberChar = true := by
  rw [List.all_eq_true] at *
  intro x hx
  exact isdigit_numberChar (h x hx)

end Lexer


/-! ### The first offending character -/

namespace Lexer

theorem dropWhile_append_split (p : Char → Bool) (l r : List Char) :
    (l ++ r).dropWhile p = if l.dropWhile p = [] then r.dropWhile p else l.dropWhile p ++ r := by
  induction l with
  | nil => simp
  | cons a l ih =>
    by_cases h : p a = true
    · simp only [List.cons_append, List.dropWhile_cons, h, if_true, ih]
    · simp [List.dropWhile_cons, h]

theorem start_none {c : Char} (h : Mode.start c = none) : recognized c = false := by
  unfold Mode.start at h
  split at h
  · cases h
  split at h
  · cases h
  split at h
  · cases h
  split at h
  · cases h
  split at h
  · cases h
  split at h
  · cases h
  · rename_i hr
    simpa using hr

theorem scan_ident (l : List Char) :
    Mode.scan .ident l =
      if l.dropWhile identChar = [] then some .ident else Mode.scan .code (l.dropWhile identChar) := by
  induction l with
  | nil => rfl
  | cons a l ih =>
    by_cases h : identChar a = true
    · simp only [Mode.scan, Mode.next, h, if_true, List.dropWhile_cons, ih]
    · simp [Mode.scan, Mode.next, h, List.dropWhile_cons]

theorem scan_number (l : List Char) :
    Mode.scan .number l =
      if l.dropWhile numberChar = [] then some .number
      else Mode.scan .code (l.dropWhile numberChar) := by
  induction l with
  | nil => rfl
  | cons a l ih =>
    by_cases h : numberChar a = true
    · simp only [Mode.scan, Mode.next, h, if_true, List.dropWhile_cons, ih]
    · simp [Mode.scan, Mode.next, h, List.dropWhile_cons]

theorem scan_comment (l : List Char) :
    Mode.scan .comment l =
      if l.dropWhile notNewline = [] then some .comment
      else Mode.scan .code ((l.dropWhile notNewline).drop 1) := by
  induction l with
  | nil => rfl
  | cons a l ih =>
    by_cases h : a = '\n'
    · simp [Mode.scan, Mode.next, h, List.dropWhile_cons, notNewline]
    · simp only [Mode.scan, Mode.next, h, if_false, List.dropWhile_cons, notNewline, ih, bne_iff_ne,
        ne_eq, not_false_eq_true, if_true]

theorem scan_string (l : List Char) :
    Mode.scan .string l =
      if l.dropWhile notQuote = [] then some .string
      else Mode.scan .code ((l.dropWhile notQuote).drop 1) := by
  induction l with
  | nil => rfl
  | cons a l ih =>
    by_cases h : a = '"'
    · simp [Mode.scan, Mode.next, h, List.dropWhile_cons, notQuote]
    · simp only [Mode.scan, Mode.next, h, if_false, List.dropWhile_cons, notQuote, ih, bne_iff_ne,
        ne_eq, not_false_eq_true, if_true]

theorem resume_punct (a : Char) (hs : isspace a = false) (h1 : a ≠ '#') (h2 : a ≠ '"')
    (h3 : (isalpha a || a == '_') = false) (h4 : isdigit a = false) (hr : recognized a = true) :
    ∃ tok, ∀ rest tokens, resume (a :: rest) tokens = resume rest (tokens ++ [tok]) := by
  simp only [Bool.or_eq_false_iff, beq_eq_false_iff_ne, ne_eq] at h3
  simp only [recognized, hs, h3.1, h4, Bool.or_self, Bool.false_or, Bool.or_eq_true, beq_iff_eq,
    h3.2, h1, h2, false_or] at hr
  rcases hr with ((((hr | hr) | hr) | hr) | hr) | hr
  · exact ⟨_, fun rest tokens => hr ▸ resume_lbrace rest tokens⟩
  · exact ⟨_, fun rest tokens => hr ▸ resume_rbrace rest tokens⟩
  · exact ⟨_, fun rest tokens => hr ▸ resume_lbracket rest tokens⟩
  · exact ⟨_, fun rest tokens => hr ▸ resume_rbracket rest tokens⟩
  · exact ⟨_, fun rest tokens => hr ▸ resume_equals rest tokens⟩
  · exact ⟨_, fun rest tokens => hr ▸ resume_comma rest tokens⟩

theorem resume_offending (n : Nat) : ∀ (pre : List Char), pre.length ≤ n →
    ∀ (m : Mode) (c : Char) (rest : List Char) (tokens : List Token),
      Mode.scan .code pre = some m → m.next c = none →
      resume (pre ++ c :: rest) tokens = .error (.unexpectedChar c) := by
  induction n with
  | zero =>
    intro pre hlen m c rest tokens hscan hnext
    have : pre = [] := List.length_eq_zero.mp (Nat.le_zero.mp hlen)
    subst this
    simp only [Mode.scan, Option.some.injEq] at hscan
    subst hscan
    exact resume_unrecognized c rest tokens (start_none hnext)
  | succ n ih =>
    intro pre hlen m c rest tokens hscan hnext
    cases pre with
    | nil =>
      simp only [Mode.scan, Option.some.injEq] at hscan
      subst hscan
      exact resume_unrecognized c rest tokens (start_none hnext)
    | cons a pre =>
      simp only [List.length_cons, Nat.add_le_add_iff_right] at hlen
      simp only [Mode.scan, Mode.next] at hscan
      rw [List.cons_append]
      unfold Mode.start at hscan
      by_cases hs : isspace a = true
      · simp only [hs, if_true] at hscan
        rw [resume_space _ _ _ hs]
        exact ih pre hlen m c rest tokens hscan hnext
      simp only [hs, if_false, Bool.false_eq_true] at hscan
      by_cases h1 : a = '#'
      · simp only [h1, if_true, scan_comment] at hscan
        rw [h1, resume_hash, dropWhile_append_split]
        by_cases hd : pre.dropWhile notNewline = []
        · rw [if_pos hd] at hscan
          cases hscan
          simp [Mode.next] at hnext
          split at hnext <;> cases hnext
        · rw [if_neg hd] at hscan
          rw [if_neg hd]
          have hl := length_dropWhile_le notNewline pre
          obtain ⟨b, y, hy⟩ := List.exists_cons_of_ne_nil hd
          rw [hy] at hscan hl ⊢
          simp only [List.drop_one, List.tail_cons, List.cons_append, List.length_cons] at hscan hl ⊢
          exact ih y (by omega) m c rest tokens hscan hnext
      simp only [h1, if_false] at hscan
      by_cases h2 : a = '"'
      · simp only [h2, if_true, scan_string] at hscan
        rw [h2, resume_quote, dropWhile_append_split]
        by_cases hd : pre.dropWhile notQuote = []
        · rw [if_pos hd] at hscan
          cases hscan
          simp [Mode.next] at hnext
          split at hnext <;> cases hnext
        · rw [if_neg hd] at hscan
          rw [if_neg hd]
          have hl := length_dropWhile_le notQuote pre
          obtain ⟨b, y, hy⟩ := List.exists_cons_of_ne_nil hd
          rw [hy] at hscan hl ⊢
          simp only [List.drop_one, List.tail_cons, List.cons_append, List.length_cons] at hscan hl ⊢
          exact ih y (by omega) m c rest _ hscan hnext
      simp only [h2, if_false] at hscan
      by_cases h3 : (isalpha a || a == '_') = true
      · simp only [h3, if_true, scan_ident] at hscan
        rw [resume_identStart _ _ _ h3, dropWhile_append_split]
        by_cases hd : pre.dropWhile identChar = []
        · rw [if_pos hd] at hscan
          cases hscan
          rw [if_pos hd]
          simp only [Mode.next] at hnext
          split at hnext
          · cases hnext
          · rename_i hc
            simp only [List.dropWhile_cons, hc, if_false, Bool.false_eq_true]
            exact resume_unrecognized c rest _ (start_none hnext)
        · rw [if_neg hd] at hscan
          rw [if_neg hd]
          exact ih _ (le_trans (length_dropWhile_le identChar pre) hlen) m c rest _ hscan hnext
      simp only [h3, if_false, Bool.false_eq_true] at hscan
      by_cases h4 : isdigit a = true
      · simp only [h4, if_true, scan_number] at hscan
        rw [resume_digit _ _ _ h4, dropWhile_append_split]
        by_cases hd : pre.dropWhile numberChar = []
        · rw [if_pos hd] at hscan
          cases hscan
          rw [if_pos hd]
          simp only [Mode.next] at hnext
          split at hnext
          · cases hnext
          · rename_i hc
            simp only [List.dropWhile_cons, hc, if_false, Bool.false_eq_true]
            exact resume_unrecognized c rest _ (start_none hnext)
        · rw [if_neg hd] at hscan
          rw [if_neg hd]
          exact ih _ (le_trans (length_dropWhile_le numberChar pre) hlen) m c rest _ hscan hnext
      simp only [h4, if_false, Bool.false_eq_true] at hscan
      by_cases h5 : recognized a = true
      · simp only [h5, if_true] at hscan
        obtain ⟨tok, htok⟩ := resume_punct a (by simpa using hs) h1 h2 (by simpa using h3)
          (by simpa using h4) h5
        rw [htok]
        exact ih pre hlen m c rest _ hscan hnext
      · simp [h5] at hscan

end Lexer


/-! ## The ordered map -/

theorem strLt_irrefl (a : Str) : strLt a a = false := by
  induction a with
  | nil => rfl
  | cons c a ih => simp [strLt, ih]

theorem strLt_trans : ∀ (a b c : Str), strLt a b = true → strLt b c = true → strLt a c = true
  | [], [], _, h, _ => by simp [strLt] at h
  | [], _ :: _, [], _, h => by simp [strLt] at h
  | [], _ :: _, _ :: _, _, _ => by simp [strLt]
  | _ :: _, [], _, h, _ => by simp [strLt] at h
  | _ :: _, _ :: _, [], _, h => by simp [strLt] at h
  | x :: a, y :: b, z :: c, h1, h2 => by
    simp only [strLt, Bool.or_eq_true, decide_eq_true_eq, Bool.and_eq_true, beq_iff_eq] at *
    rcases h1 with h1 | ⟨e1, h1⟩
    · rcases h2 with h2 | ⟨e2, _⟩
      · exact Or.inl (lt_trans h1 h2)
      · exact Or.inl (e2 ▸ h1)
    · rcases h2 with h2 | ⟨e2, h2⟩
      · exact Or.inl (e1 ▸ h2)
      · exact Or.inr ⟨e1.trans e2, strLt_trans a b c h1 h2⟩

theorem strLt_total : ∀ (a b : Str), strLt a b = false → strLt b a = false → a = b
  | [], [], _, _ => rfl
  | [], _ :: _, h, _ => by simp [strLt] at h
  | _ :: _, [], _, h => by simp [strLt] at h
  | x :: a, y :: b, h1, h2 => by
    simp only [strLt, Bool.or_eq_false_iff, decide_eq_false_iff_not, not_lt, Bool.and_eq_false_imp,
      beq_iff_eq] at h1 h2
    have e : x = y := le_antisymm h2.1 h1.1
    rw [e, strLt_total a b (h1.2 e) (h2.2 e.symm)]

theorem mapFind_mapAssign (m : AstBlock) (key : Str) (value : AstValue) (k : Str) :
    mapFind (mapAssign m key value) k = if key = k then some value else mapFind m k := by
  induction m with
  | nil => simp [mapAssign, mapFind]
  | cons p m ih =>
    obtain ⟨k0, v0⟩ := p
    simp only [mapAssign]
    by_cases h1 : strLt key k0 = true
    · simp [h1, mapFind]
    · by_cases h2 : strLt k0 key = true
      · have hne : k0 ≠ key := by
          intro e
          rw [e, strLt_irrefl] at h2
          exact Bool.false_ne_true h2
        simp only [h1, h2, if_true, if_false, mapFind, ih, Bool.false_eq_true]
        by_cases h3 : k0 = k
        · have : key ≠ k := fun e => hne (h3.trans e.symm)
          simp [h3, this]
        · simp [h3]
      · have e : key = k0 := strLt_total key k0 (by simpa using h1) (by simpa using h2)
        subst e
        simp only [h1, if_false, mapFind, Bool.false_eq_true]
        by_cases h3 : key = k <;> simp [h3]

theorem mem_keys_mapAssign (m : AstBlock) (key : Str) (value : AstValue) (k : Str) :
    k ∈ (mapAssign m key value).map Prod.fst ↔ k = key ∨ k ∈ m.map Prod.fst := by
  induction m with
  | nil => simp [mapAssign]
  | cons p m ih =>
    obtain ⟨k0, v0⟩ := p
    simp only [mapAssign]
    by_cases h1 : strLt key k0 = true
    · simp [h1]
    · by_cases h2 : strLt k0 key = true
      · simp only [h1, h2, if_true, if_false, List.map_cons, List.mem_cons, ih, Bool.false_eq_true]
        tauto
      · have e : key = k0 := strLt_total key k0 (by simpa using h1) (by simpa using h2)
        subst e
        simp [h1]

theorem keysSorted_mapAssign (m : AstBlock) (key : Str) (value : AstValue)
    (hm : (m.map Prod.fst).Pairwise (fun a b => strLt a b = true)) :
    ((mapAssign m key value).map Prod.fst).Pairwise (fun a b => strLt a b = true) := by
  induction m with
  | nil => simp [mapAssign]
  | cons p m ih =>
    obtain ⟨k0, v0⟩ := p
    simp only [List.map_cons, List.pairwise_cons] at hm
    simp only [mapAssign]
    by_cases h1 : strLt key k0 = true
    · simp only [h1, if_true, List.map_cons, List.pairwise_cons, List.mem_cons]
      refine ⟨?_, hm⟩
      intro b hb
      rcases hb with hb | hb
      · rw [hb]; exact h1
      · exact strLt_trans _ _ _ h1 (hm.1 b hb)
    · by_cases h2 : strLt k0 key = true
      · simp only [h1, h2, if_true, if_false, List.map_cons, List.pairwise_cons, Bool.false_eq_true]
        refine ⟨?_, ih hm.2⟩
        intro b hb
        rcases (mem_keys_mapAssign m key value b).mp hb with hb | hb
        · rw [hb]; exact h2
        · exact hm.1 b hb
      · have e : key = k0 := strLt_total key k0 (by simpa using h1) (by simpa using h2)
        subst e
        simp only [h1, if_false, List.map_cons, List.pairwise_cons, Bool.false_eq_true]
        exact hm

theorem keysSorted_nodup (l : List Str) (h : l.Pairwise (fun a b => strLt a b = true)) :
    l.Nodup := by
  refine List.Pairwise.imp ?_ h
  intro a b hab e
  rw [e, strLt_irrefl] at hab
  exact Bool.false_ne_true hab

theorem mapAssign_perm (m : AstBlock) (key : Str) (value : AstValue)
    (h : key ∉ m.map Prod.fst) : (mapAssign m key value).Perm ((key, value) :: m) := by
  induction m with
  | nil => simp [mapAssign]
  | cons p m ih =>
    obtain ⟨k0, v0⟩ := p
    simp only [List.map_cons, List.mem_cons, not_or] at h
    simp only [mapAssign]
    by_cases h1 : strLt key k0 = true
    · simp [h1]
    · by_cases h2 : strLt k0 key = true
      · simp only [h1, h2, if_true, if_false, Bool.false_eq_true]
        exact ((ih h.2).cons _).trans (List.Perm.swap _ _ _)
      · exact absurd (strLt_total key k0 (by simpa using h1) (by simpa using h2)) h.1


/-! ## Single steps of the parser -/

namespace Parser

open Grammar

theorem parse_list_of_loop (fuel : Nat) (t r : Token) (ts rest : List Token) (content : AstList)
    (h : parse_list_loop fuel ts [] = .ok (content, r :: rest)) :
    parse_list (fuel + 1) (t :: ts) = .ok (serialize_list content, rest) := by
  simp [parse_list, get_token, h]

theorem parse_list_loop_rbracket (fuel : Nat) (t : Token) (ts : List Token) (content : AstList)
    (h : t.type = .RBRACKET) :
    parse_list_loop (fuel + 1) (t :: ts) content = .ok (content, t :: ts) := by
  simp [parse_list_loop, peek_token, h]

theorem parse_list_loop_scalar (fuel : Nat) (t nxt : Token) (ts : List Token) (content : AstList)
    (h : t.type = .IDENTIFIER ∨ t.type = .NUMBER ∨ t.type = .STRING) (hn : nxt.type ≠ .COMMA) :
    parse_list_loop (fuel + 1) (t :: nxt :: ts) content =
      parse_list_loop fuel (nxt :: ts) (content ++ [t.value]) := by
  have h1 : t.type ≠ .RBRACKET := by
    rcases h with h | h | h <;> rw [h] <;> decide
  simp [parse_list_loop, peek_token, get_token, h, h1, hn]

theorem parse_list_loop_scalar_comma (fuel : Nat) (t c : Token) (ts : List Token)
    (content : AstList)
    (h : t.type = .IDENTIFIER ∨ t.type = .NUMBER ∨ t.type = .STRING) (hc : c.type = .COMMA) :
    parse_list_loop (fuel + 1) (t :: c :: ts) content =
      parse_list_loop fuel ts (content ++ [t.value]) := by
  have h1 : t.type ≠ .RBRACKET := by
    rcases h with h | h | h <;> rw [h] <;> decide
  simp [parse_list_loop, peek_token, get_token, h, h1, hc]

theorem parse_list_loop_nested (fuel : Nat) (t nxt : Token) (ts ts1 : List Token)
    (content : AstList) (item : AstValue) (h : t.type = .LBRACKET)
    (hp : parse_list fuel (t :: ts) = .ok (item, nxt :: ts1)) (hn : nxt.type ≠ .COMMA) :
    parse_list_loop (fuel + 1) (t :: ts) content =
      parse_list_loop fuel (nxt :: ts1) (content ++ [item]) := by
  simp [parse_list_loop, peek_token, get_token, h, hp, hn]

theorem parse_list_loop_nested_comma (fuel : Nat) (t c : Token) (ts ts1 : List Token)
    (content : AstList) (item : AstValue) (h : t.type = .LBRACKET)
    (hp : parse_list fuel (t :: ts) = .ok (item, c :: ts1)) (hc : c.type = .COMMA) :
    parse_list_loop (fuel + 1) (t :: ts) content =
      parse_list_loop fuel ts1 (content ++ [item]) := by
  simp [parse_list_loop, peek_token, get_token, h, hp, hc]

theorem parse_value_scalar (fuel : Nat) (t : Token) (ts : List Token)
    (h : t.type = .IDENTIFIER ∨ t.type = .STRING ∨ t.type = .NUMBER) :
    parse_value (fuel + 1) (t :: ts) = .ok (t.value, ts) := by
  simp [parse_value, peek_token, get_token, h]

theorem parse_value_list (fuel : Nat) (t : Token) (ts : List Token) (h : t.type = .LBRACKET) :
    parse_value (fuel + 1) (t :: ts) = parse_list fuel (t :: ts) := by
  simp [parse_value, peek_token, h]

theorem parse_value_block (fuel : Nat) (t : Token) (ts : List Token) (h : t.type = .LBRACE) :
    parse_value (fuel + 1) (t :: ts) = parse_block fuel (t :: ts) := by
  simp [parse_value, peek_token, h]

theorem parse_block_of_loop (fuel : Nat) (t r : Token) (ts rest : List Token)
    (block_content : AstBlock)
    (h : parse_block_loop fuel ts [] = .ok (block_content, r :: rest)) :
    parse_block (fuel + 1) (t :: ts) = .ok (serialize_block block_content, rest) := by
  simp [parse_block, get_token, h]

theorem parse_block_loop_rbrace (fuel : Nat) (t : Token) (ts : List Token)
    (block_content : AstBlock) (h : t.type = .RBRACE) :
    parse_block_loop (fuel + 1) (t :: ts) block_content = .ok (block_content, t :: ts) := by
  simp [parse_block_loop, peek_token, h]

theorem parse_block_loop_assign (fuel : Nat) (k e : Token) (ts ts1 : List Token)
    (block_content : AstBlock) (value : AstValue) (hk : k.type = .IDENTIFIER)
    (he : e.type = .EQUALS) (hv : parse_value fuel ts = .ok (value, ts1)) :
    parse_block_loop (fuel + 1) (k :: e :: ts) block_content =
      parse_block_loop fuel ts1 (mapAssign block_content k.value value) := by
  simp [parse_block_loop, peek_token, get_token, hk, he, hv]

theorem parseLoop_assign (fuel : Nat) (k e : Token) (ts ts1 : List Token)
    (ast : AstBlock) (value : AstValue) (hk : k.type = .IDENTIFIER)
    (he : e.type = .EQUALS) (hv : parse_value (2 * ts.length + 2) ts = .ok (value, ts1)) :
    parseLoop (fuel + 1) (k :: e :: ts) ast =
      parseLoop fuel ts1 (mapAssign ast k.value value) := by
  simp [parseLoop, peek_token, get_token, hk, he, hv]

/-! ### Steps that raise an error -/

theorem parse_list_error_of_loop (fuel : Nat) (t : Token) (ts : List Token) (err : ParseError)
    (h : parse_list_loop fuel ts [] = .error err) :
    parse_list (fuel + 1) (t :: ts) = .error err := by
  simp [parse_list, get_token, h]

theorem parse_block_error_of_loop (fuel : Nat) (t : Token) (ts : List Token) (err : ParseError)
    (h : parse_block_loop fuel ts [] = .error err) :
    parse_block (fuel + 1) (t :: ts) = .error err := by
  simp [parse_block, get_token, h]

theorem parse_list_loop_nested_error (fuel : Nat) (t : Token) (ts : List Token)
    (content : AstList) (err : ParseError) (h : t.type = .LBRACKET)
    (hp : parse_list fuel (t :: ts) = .error err) :
    parse_list_loop (fuel + 1) (t :: ts) content = .error err := by
  simp [parse_list_loop, peek_token, h, hp]

theorem parse_list_loop_unexpected (fuel : Nat) (t : Token) (ts : List Token)
    (content : AstList) (h1 : t.type ≠ .RBRACKET)
    (h2 : ¬(t.type = .IDENTIFIER ∨ t.type = .NUMBER ∨ t.type = .STRING))
    (h3 : t.type ≠ .LBRACKET) :
    parse_list_loop (fuel + 1) (t :: ts) content = .error .listExpectedValue := by
  simp [parse_list_loop, peek_token, h1, h2, h3]

theorem parse_block_loop_assign_error (fuel : Nat) (k e : Token) (ts : List Token)
    (block_content : AstBlock) (err : ParseError) (hk : k.type = .IDENTIFIER)
    (he : e.type = .EQUALS) (hv : parse_value fuel ts = .error err) :
    parse_block_loop (fuel + 1) (k :: e :: ts) block_content = .error err := by
  simp [parse_block_loop, peek_token, get_token, hk, he, hv]

theorem parseLoop_assign_error (fuel : Nat) (k e : Token) (ts : List Token)
    (ast : AstBlock) (err : ParseError) (hk : k.type = .IDENTIFIER)
    (he : e.type = .EQUALS) (hv : parse_value (2 * ts.length + 2) ts = .error err) :
    parseLoop (fuel + 1) (k :: e :: ts) ast = .error err := by
  simp [parseLoop, peek_token, get_token, hk, he, hv]

/-! ## The parser on the token sequences of trees -/

/-- What follows an item is never a comma, unless the item carries one. -/
theorem items_tokens_head (items : Items) (rest : List Token) :
    ∃ t ts, items.tokens ++ rbracketTok :: rest = t :: ts ∧ t.type ≠ .COMMA := by
  cases items with
  | nil => exact ⟨_, _, rfl, by decide⟩
  | scalar kind text comma tail =>
    refine ⟨_, _, rfl, ?_⟩
    cases kind <;> simp [ScalarKind.type]
  | nested inner comma tail => exact ⟨_, _, rfl, by decide⟩

theorem scalarKind_list (kind : ScalarKind) :
    kind.type = .IDENTIFIER ∨ kind.type = .NUMBER ∨ kind.type = .STRING := by
  cases kind <;> simp [ScalarKind.type]

theorem scalarKind_value (kind : ScalarKind) :
    kind.type = .IDENTIFIER ∨ kind.type = .STRING ∨ kind.type = .NUMBER := by
  cases kind <;> simp [ScalarKind.type]

theorem parse_list_loop_items (items : Items) : ∀ (fuel : Nat) (rest : List Token)
    (list_content : AstList), 2 * items.tokens.length + 1 ≤ fuel →
    parse_list_loop fuel (items.tokens ++ rbracketTok :: rest) list_content =
      .ok (list_content ++ items.values, rbracketTok :: rest) := by
  induction items with
  | nil =>
    intro fuel rest list_content hf
    obtain ⟨f, rfl⟩ : ∃ f, fuel = f + 1 := ⟨fuel - 1, by omega⟩
    rw [Items.tokens, List.nil_append, parse_list_loop_rbracket _ _ _ _ rfl, Items.values,
      List.append_nil]
  | scalar kind text comma tail ih =>
    intro fuel rest list_content hf
    obtain ⟨f, rfl⟩ : ∃ f, fuel = f + 1 := ⟨fuel - 1, by omega⟩
    simp only [Items.tokens, List.length_cons, List.length_append] at hf
    have hrec := ih f rest (list_content ++ [text]) (by omega)
    obtain ⟨t, ts, hts, hne⟩ := items_tokens_head tail rest
    simp only [Items.tokens, Items.values, List.cons_append, List.append_assoc]
    rw [List.append_assoc, List.singleton_append] at hrec
    cases comma
    · simp only [optComma, Bool.false_eq_true, if_false, List.nil_append]
      rw [hts, parse_list_loop_scalar _ _ _ _ _ (scalarKind_list kind) hne, ← hts]
      exact hrec
    · simp only [optComma, if_true, List.singleton_append]
      rw [parse_list_loop_scalar_comma _ _ _ _ _ (scalarKind_list kind) rfl]
      exact hrec
  | nested inner comma tail ih1 ih2 =>
    intro fuel rest list_content hf
    obtain ⟨f, rfl⟩ : ∃ f, fuel = f + 1 := ⟨fuel - 1, by omega⟩
    simp only [Items.tokens, List.length_cons, List.length_append] at hf
    obtain ⟨g, rfl⟩ : ∃ g, f = g + 1 := ⟨f - 1, by omega⟩
    have hin := parse_list_of_loop g lbracketTok _ _ _ _
      (ih1 g (optComma comma ++ (tail.tokens ++ rbracketTok :: rest)) [] (by omega))
    have hrec := ih2 (g + 1) rest (list_content ++ [serialize_list inner.values]) (by omega)
    rw [List.nil_append] at hin
    rw [List.append_assoc, List.singleton_append] at hrec
    obtain ⟨t, ts, hts, hne⟩ := items_tokens_head tail rest
    simp only [Items.tokens, Items.values, List.cons_append, List.append_assoc]
    cases comma
    · simp only [optComma, Bool.false_eq_true, if_false, List.nil_append] at hin ⊢
      rw [hts] at hin ⊢
      rw [parse_list_loop_nested _ _ _ _ _ _ _ rfl hin hne, ← hts]
      exact hrec
    · simp only [optComma, if_true, List.singleton_append] at hin ⊢
      rw [parse_list_loop_nested_comma _ _ _ _ _ _ _ rfl hin rfl]
      exact hrec

end Parser


namespace Parser

open Grammar

theorem parse_list_items (items : Items) (fuel : Nat) (rest : List Token)
    (hf : 2 * items.tokens.length + 2 ≤ fuel) :
    parse_list fuel (lbracketTok :: (items.tokens ++ rbracketTok :: rest)) =
      .ok (serialize_list items.values, rest) := by
  obtain ⟨f, rfl⟩ : ∃ f, fuel = f + 1 := ⟨fuel - 1, by omega⟩
  have h := parse_list_loop_items items f rest [] (by omega)
  rw [List.nil_append] at h
  exact parse_list_of_loop f lbracketTok _ _ _ _ h

mutual

theorem parse_value_tree : ∀ (v : Value) (fuel : Nat) (rest : List Token),
    2 * v.tokens.length + 1 ≤ fuel →
    parse_value fuel (v.tokens ++ rest) = .ok (v.value, rest)
  | .scalar kind text, fuel, rest, hf => by
    obtain ⟨f, rfl⟩ : ∃ f, fuel = f + 1 := ⟨fuel - 1, by omega⟩
    simp only [Value.tokens, Value.value, List.singleton_append]
    exact parse_value_scalar f _ rest (scalarKind_value kind)
  | .list items, fuel, rest, hf => by
    obtain ⟨f, rfl⟩ : ∃ f, fuel = f + 1 := ⟨fuel - 1, by omega⟩
    simp only [Value.tokens, List.length_cons, List.length_append, List.length_singleton] at hf
    simp only [Value.tokens, Value.value, List.cons_append, List.append_assoc,
      List.singleton_append]
    rw [parse_value_list _ _ _ rfl]
    exact parse_list_items items f rest (by omega)
  | .block body, fuel, rest, hf => by
    obtain ⟨f, rfl⟩ : ∃ f, fuel = f + 1 := ⟨fuel - 1, by omega⟩
    simp only [Value.tokens, List.length_cons, List.length_append, List.length_singleton] at hf
    obtain ⟨g, rfl⟩ : ∃ g, f = g + 1 := ⟨f - 1, by omega⟩
    simp only [Value.tokens, Value.value, List.cons_append, List.append_assoc,
      List.singleton_append]
    rw [parse_value_block _ _ _ rfl]
    exact parse_block_of_loop g lbraceTok rbraceTok _ rest _
      (parse_block_loop_tree body g rest [] (by omega))

theorem parse_block_loop_tree : ∀ (body : Assignments) (fuel : Nat) (rest : List Token)
    (block_content : AstBlock), 2 * body.tokens.length + 1 ≤ fuel →
    parse_block_loop fuel (body.tokens ++ rbraceTok :: rest) block_content =
      .ok (body.assignTo block_content, rbraceTok :: rest)
  | .nil, fuel, rest, block_content, hf => by
    obtain ⟨f, rfl⟩ : ∃ f, fuel = f + 1 := ⟨fuel - 1, by omega⟩
    simp only [Assignments.tokens, Assignments.assignTo, List.nil_append]
    exact parse_block_loop_rbrace f _ _ _ rfl
  | .cons key value tail, fuel, rest, block_content, hf => by
    obtain ⟨f, rfl⟩ : ∃ f, fuel = f + 1 := ⟨fuel - 1, by omega⟩
    simp only [Assignments.tokens, List.length_cons, List.length_append] at hf
    simp only [Assignments.tokens, Assignments.assignTo, List.cons_append, List.append_assoc]
    rw [parse_block_loop_assign f _ _ _ _ _ _ rfl rfl
      (parse_value_tree value f (tail.tokens ++ rbraceTok :: rest) (by omega))]
    exact parse_block_loop_tree tail f rest _ (by omega)

end

theorem parseLoop_tree : ∀ (doc : Assignments) (fuel : Nat) (ast : AstBlock),
    doc.tokens.length + 1 ≤ fuel →
    parseLoop fuel doc.tokens ast = .ok (doc.assignTo ast)
  | .nil, fuel, ast, hf => by
    obtain ⟨f, rfl⟩ : ∃ f, fuel = f + 1 := ⟨fuel - 1, by omega⟩
    simp [Assignments.tokens, Assignments.assignTo, parseLoop]
  | .cons key value tail, fuel, ast, hf => by
    obtain ⟨f, rfl⟩ : ∃ f, fuel = f + 1 := ⟨fuel - 1, by omega⟩
    simp only [Assignments.tokens, List.length_cons, List.length_append] at hf
    simp only [Assignments.tokens, Assignments.assignTo]
    rw [parseLoop_assign f _ _ _ _ _ _ rfl rfl
      (parse_value_tree value _ tail.tokens (by simp only [List.length_append]; omega))]
    exact parseLoop_tree tail f _ (by omega)

theorem parse_tree (doc : Assignments) : parse doc.tokens = .ok (doc.assignTo []) :=
  parseLoop_tree doc _ [] (le_refl _)

end Parser


/-! ## What the assignments leave in the map -/

namespace Grammar

open Parser

theorem values_strip (items : Items) : items.strip.values = items.values := by
  induction items with
  | nil => rfl
  | scalar kind text comma tail ih => simp only [Items.strip, Items.values, ih]
  | nested inner comma tail ih1 ih2 => simp only [Items.strip, Items.values, ih1, ih2]

theorem assignTo_keysSorted : ∀ (body : Assignments) (m : AstBlock),
    (m.map Prod.fst).Pairwise (fun a b => strLt a b = true) →
    ((body.assignTo m).map Prod.fst).Pairwise (fun a b => strLt a b = true)
  | .nil, _, h => h
  | .cons key value tail, m, h =>
    assignTo_keysSorted tail _ (keysSorted_mapAssign m key value.value h)

theorem mem_keys_assignTo : ∀ (body : Assignments) (m : AstBlock) (k : Str),
    k ∈ (body.assignTo m).map Prod.fst ↔ k ∈ m.map Prod.fst ∨ k ∈ body.keys
  | .nil, m, k => by simp [Assignments.assignTo, Assignments.keys]
  | .cons key value tail, m, k => by
    simp only [Assignments.assignTo, Assignments.keys, List.mem_cons,
      mem_keys_assignTo tail _ k, mem_keys_mapAssign]
    tauto

theorem assignTo_perm : ∀ (body : Assignments) (m : AstBlock),
    body.keys.Nodup → (∀ k ∈ body.keys, k ∉ m.map Prod.fst) →
    (body.assignTo m).Perm (m ++ body.pairs)
  | .nil, m, _, _ => by simp [Assignments.assignTo, Assignments.pairs]
  | .cons key value tail, m, hn, hd => by
    simp only [Assignments.keys, List.nodup_cons] at hn
    simp only [Assignments.assignTo, Assignments.pairs]
    have h1 : key ∉ m.map Prod.fst := hd key (by simp [Assignments.keys])
    have h2 : ∀ k ∈ tail.keys, k ∉ (mapAssign m key value.value).map Prod.fst := by
      intro k hk hmem
      rcases (mem_keys_mapAssign m key value.value k).mp hmem with e | e
      · exact hn.1 (e ▸ hk)
      · exact hd k (by simp [Assignments.keys, hk]) e
    refine (assignTo_perm tail _ hn.2 h2).trans ?_
    refine ((mapAssign_perm m key value.value h1).append_right _).trans ?_
    simp only [List.cons_append]
    exact List.perm_middle.symm

theorem last_eq_none : ∀ (body : Assignments) (k : Str), body.last k = none ↔ k ∉ body.keys
  | .nil, k => by simp [Assignments.last, Assignments.keys]
  | .cons key value tail, k => by
    simp only [Assignments.last, Assignments.keys, List.mem_cons, not_or]
    cases h : tail.last k with
    | some v =>
      have := (last_eq_none tail k).not.mp (by simp [h])
      simp only [reduceCtorEq, false_iff, not_and]
      intro _
      exact this
    | none =>
      have := (last_eq_none tail k).mp h
      by_cases e : key = k
      · simp [e]
      · simp only [e, if_false, true_iff]
        exact ⟨fun e2 => e e2.symm, this⟩

theorem mapFind_assignTo : ∀ (body : Assignments) (m : AstBlock) (k : Str),
    mapFind (body.assignTo m) k =
      match body.last k with
      | some v => some v.value
      | none => mapFind m k
  | .nil, m, k => rfl
  | .cons key value tail, m, k => by
    simp only [Assignments.assignTo, Assignments.last]
    rw [mapFind_assignTo tail _ k]
    cases h : tail.last k with
    | some v => rfl
    | none =>
      simp only [mapFind_mapAssign]
      by_cases e : key = k <;> simp [e]

end Grammar


/-! ## Tokens of a source made of flat assignments -/

namespace Flat

open Lexer Grammar

theorem resume_valueSource (a : Assign) (rest : List Char) (tokens : List Token)
    (hwf : a.wellFormed = true)
    (h1 : rest.takeWhile identChar = []) (h2 : rest.takeWhile numberChar = []) :
    resume (a.valueSource ++ rest) tokens = resume rest (tokens ++ [⟨a.kind.type, a.text⟩]) := by
  obtain ⟨key, kind, text, w1, w2, w3⟩ := a
  simp only [Assign.wellFormed, Bool.and_eq_true] at hwf
  obtain ⟨⟨⟨⟨_, hv⟩, _⟩, _⟩, _⟩ := hwf
  cases kind with
  | identifier => exact resume_ident_text text rest tokens hv h1
  | number => exact resume_number_text text rest tokens hv h2
  | string =>
    simp only [Assign.valueSource, List.cons_append, List.append_assoc, List.singleton_append]
    exact resume_string_text text rest tokens hv

theorem resume_flat : ∀ (as : List Assign) (tokens : List Token), wellFormed as = true →
    resume (source as) tokens = .ok (tokens ++ (doc as).tokens)
  | [], tokens, _ => by
    simp [source, doc, Assignments.tokens, resume_nil]
  | a :: as, tokens, hwf => by
    simp only [wellFormed, Bool.and_eq_true, Bool.or_eq_true, Bool.not_eq_true',
      List.isEmpty_eq_true] at hwf
    obtain ⟨⟨ha, hsep⟩, has⟩ := hwf
    have ha2 := ha
    simp only [Assign.wellFormed, Bool.and_eq_true] at ha2
    obtain ⟨⟨⟨⟨hk, _⟩, hw1⟩, hw2⟩, hw3⟩ := ha2
    have hsep2 : a.afterValue ≠ [] ∨ source as = [] := by
      rcases hsep with h | h
      · left
        intro e
        rw [e] at h
        simp at h
      · right
        rw [h]
        rfl
    have t1 : (a.afterKey ++ '=' :: (a.afterEquals ++ (a.valueSource ++
        (a.afterValue ++ source as)))).takeWhile identChar = [] :=
      takeWhile_nil_blank_cons _ (fun _ h => isspace_not_identChar h) _ _ _ hw1 (by decide)
    have t2 : (a.afterValue ++ source as).takeWhile identChar = [] :=
      takeWhile_nil_of_blank _ (fun _ h => isspace_not_identChar h) _ _ hw3 hsep2
    have t3 : (a.afterValue ++ source as).takeWhile numberChar = [] :=
      takeWhile_nil_of_blank _ (fun _ h => isspace_not_numberChar h) _ _ hw3 hsep2
    simp only [source, Assign.source, List.append_assoc, List.cons_append]
    rw [resume_ident_text _ _ _ hk t1, resume_blank _ _ _ hw1, resume_equals,
      resume_blank _ _ _ hw2, resume_valueSource a _ _ ha t2 t3, resume_blank _ _ _ hw3,
      resume_flat as _ has]
    simp [doc, Assignments.tokens, Value.tokens, equalsTok]

theorem tokenize_flat (lead : List Char) (as : List Assign) (hlead : lead.all isspace = true)
    (hwf : wellFormed as = true) : tokenize (lead ++ source as) = .ok (doc as).tokens := by
  rw [tokenize_eq_resume, resume_blank _ _ _ hlead, resume_flat as [] hwf, List.nil_append]

theorem doc_keys : ∀ (as : List Assign), (doc as).keys = as.map Assign.key
  | [] => rfl
  | a :: as => by simp only [doc, Assignments.keys, List.map_cons, doc_keys as]

theorem doc_last : ∀ (pre : List Assign) (a : Assign) (post : List Assign),
    (∀ b ∈ post, b.key ≠ a.key) →
    (doc (pre ++ a :: post)).last a.key = some (.scalar a.kind a.text)
  | [], a, post, h => by
    have hnone : (doc post).last a.key = none := by
      rw [last_eq_none, doc_keys]
      intro hmem
      obtain ⟨b, hb, e⟩ := List.mem_map.mp hmem
      exact h b hb e
    simp [doc, Assignments.last, hnone]
  | p :: pre, a, post, h => by
    show (doc (p :: (pre ++ a :: post))).last a.key = _
    simp only [doc, Assignments.last, doc_last pre a post h]

end Flat


/-! ## A successful run reads only the tokens it consumes -/

namespace Parser

mutual

theorem parse_list_extend : ∀ (fuel : Nat) (ts : List Token) (v : AstValue) (r : List Token),
    parse_list fuel ts = .ok (v, r) → ∀ (fuel1 : Nat), fuel ≤ fuel1 → ∀ (extra : List Token),
    parse_list fuel1 (ts ++ extra) = .ok (v, r ++ extra)
  | 0, _, _, _, h, _, _, _ => by simp [parse_list] at h
  | f + 1, ts, v, r, h, fuel1, hf, extra => by
    obtain ⟨g, rfl⟩ : ∃ g, fuel1 = g + 1 := ⟨fuel1 - 1, by omega⟩
    cases ts with
    | nil => simp [parse_list, get_token] at h
    | cons t ts0 =>
      cases hl : parse_list_loop f ts0 [] with
      | error e => simp [parse_list, get_token, hl] at h
      | outOfFuel => simp [parse_list, get_token, hl] at h
      | ok res =>
        obtain ⟨content, ts1⟩ := res
        cases ts1 with
        | nil => simp [parse_list, get_token, hl] at h
        | cons rb ts2 =>
          rw [parse_list_of_loop f t rb ts0 ts2 content hl] at h
          cases h
          have := parse_list_loop_extend f ts0 [] content _ hl g (by omega) extra
          exact parse_list_of_loop g t rb _ _ content this

theorem parse_list_loop_extend : ∀ (fuel : Nat) (ts : List Token) (acc c : AstList)
    (r : List Token), parse_list_loop fuel ts acc = .ok (c, r) →
    ∀ (fuel1 : Nat), fuel ≤ fuel1 → ∀ (extra : List Token),
    parse_list_loop fuel1 (ts ++ extra) acc = .ok (c, r ++ extra)
  | 0, _, _, _, _, h, _, _, _ => by simp [parse_list_loop] at h
  | f + 1, ts, acc, c, r, h, fuel1, hf, extra => by
    obtain ⟨g, rfl⟩ : ∃ g, fuel1 = g + 1 := ⟨fuel1 - 1, by omega⟩
    cases ts with
    | nil => simp [parse_list_loop, peek_token] at h
    | cons t ts0 =>
      by_cases h1 : t.type = .RBRACKET
      · rw [parse_list_loop_rbracket _ _ _ _ h1] at h
        cases h
        rw [List.cons_append, parse_list_loop_rbracket _ _ _ _ h1]
      · by_cases h2 : t.type = .IDENTIFIER ∨ t.type = .NUMBER ∨ t.type = .STRING
        · cases ts0 with
          | nil => simp [parse_list_loop, peek_token, get_token, h1, h2] at h
          | cons nxt ts1 =>
            by_cases hc : nxt.type = .COMMA
            · rw [parse_list_loop_scalar_comma _ _ _ _ _ h2 hc] at h
              rw [List.cons_append, List.cons_append, parse_list_loop_scalar_comma _ _ _ _ _ h2 hc]
              exact parse_list_loop_extend f ts1 _ c r h g (by omega) extra
            · rw [parse_list_loop_scalar _ _ _ _ _ h2 hc] at h
              rw [List.cons_append, List.cons_append, parse_list_loop_scalar _ _ _ _ _ h2 hc]
              exact parse_list_loop_extend f (nxt :: ts1) _ c r h g (by omega) extra
        · by_cases h3 : t.type = .LBRACKET
          · cases hp : parse_list f (t :: ts0) with
            | error e => simp [parse_list_loop, peek_token, h1, h2, h3, hp] at h
            | outOfFuel => simp [parse_list_loop, peek_token, h1, h2, h3, hp] at h
            | ok res =>
              obtain ⟨item, ts1⟩ := res
              cases ts1 with
              | nil => simp [parse_list_loop, peek_token, h1, h2, h3, hp] at h
              | cons nxt ts2 =>
                have hp1 := parse_list_extend f (t :: ts0) item (nxt :: ts2) hp g (by omega) extra
                rw [List.cons_append, List.cons_append] at hp1
                rw [List.cons_append]
                by_cases hc : nxt.type = .COMMA
                · rw [parse_list_loop_nested_comma _ _ _ _ _ _ _ h3 hp hc] at h
                  rw [parse_list_loop_nested_comma _ _ _ _ _ _ _ h3 hp1 hc]
                  exact parse_list_loop_extend f ts2 _ c r h g (by omega) extra
                · rw [parse_list_loop_nested _ _ _ _ _ _ _ h3 hp hc] at h
                  rw [parse_list_loop_nested _ _ _ _ _ _ _ h3 hp1 hc]
                  exact parse_list_loop_extend f (nxt :: ts2) _ c r h g (by omega) extra
          · simp [parse_list_loop, peek_token, h1, h2, h3] at h

end

mutual

theorem parse_value_extend : ∀ (fuel : Nat) (ts : List Token) (v : AstValue) (r : List Token),
    parse_value fuel ts = .ok (v, r) → ∀ (fuel1 : Nat), fuel ≤ fuel1 → ∀ (extra : List Token),
    parse_value fuel1 (ts ++ extra) = .ok (v, r ++ extra)
  | 0, _, _, _, h, _, _, _ => by simp [parse_value] at h
  | f + 1, ts, v, r, h, fuel1, hf, extra => by
    obtain ⟨g, rfl⟩ : ∃ g, fuel1 = g + 1 := ⟨fuel1 - 1, by omega⟩
    cases ts with
    | nil => simp [parse_value, peek_token] at h
    | cons t ts0 =>
      by_cases h1 : t.type = .IDENTIFIER ∨ t.type = .STRING ∨ t.type = .NUMBER
      · rw [parse_value_scalar _ _ _ h1] at h
        cases h
        rw [List.cons_append, parse_value_scalar _ _ _ h1]
      · by_cases h2 : t.type = .LBRACE
        · rw [parse_value_block _ _ _ h2] at h
          rw [List.cons_append, parse_value_block _ _ _ h2]
          exact parse_block_extend f (t :: ts0) v r h g (by omega) extra
        · by_cases h3 : t.type = .LBRACKET
          · rw [parse_value_list _ _ _ h3] at h
            rw [List.cons_append, parse_value_list _ _ _ h3]
            exact parse_list_extend f (t :: ts0) v r h g (by omega) extra
          · simp [parse_value, peek_token, h1, h2, h3] at h

theorem parse_block_extend : ∀ (fuel : Nat) (ts : List Token) (v : AstValue) (r : List Token),
    parse_block fuel ts = .ok (v, r) → ∀ (fuel1 : Nat), fuel ≤ fuel1 → ∀ (extra : List Token),
    parse_block fuel1 (ts ++ extra) = .ok (v, r ++ extra)
  | 0, _, _, _, h, _, _, _ => by simp [parse_block] at h
  | f + 1, ts, v, r, h, fuel1, hf, extra => by
    obtain ⟨g, rfl⟩ : ∃ g, fuel1 = g + 1 := ⟨fuel1 - 1, by omega⟩
    cases ts with
    | nil => simp [parse_block, get_token] at h
    | cons t ts0 =>
      cases hl : parse_block_loop f ts0 [] with
      | error e => simp [parse_block, get_token, hl] at h
      | outOfFuel => simp [parse_block, get_token, hl] at h
      | ok res =>
        obtain ⟨content, ts1⟩ := res
        cases ts1 with
        | nil => simp [parse_block, get_token, hl] at h
        | cons rb ts2 =>
          rw [parse_block_of_loop f t rb ts0 ts2 content hl] at h
          cases h
          have := parse_block_loop_extend f ts0 [] content _ hl g (by omega) extra
          exact parse_block_of_loop g t rb _ _ content this

theorem parse_block_loop_extend : ∀ (fuel : Nat) (ts : List Token) (acc c : AstBlock)
    (r : List Token), parse_block_loop fuel ts acc = .ok (c, r) →
    ∀ (fuel1 : Nat), fuel ≤ fuel1 → ∀ (extra : List Token),
    parse_block_loop fuel1 (ts ++ extra) acc = .ok (c, r ++ extra)
  | 0, _, _, _, _, h, _, _, _ => by simp [parse_block_loop] at h
  | f + 1, ts, acc, c, r, h, fuel1, hf, extra => by
    obtain ⟨g, rfl⟩ : ∃ g, fuel1 = g + 1 := ⟨fuel1 - 1, by omega⟩
    cases ts with
    | nil => simp [parse_block_loop, peek_token] at h
    | cons t ts0 =>
      by_cases h1 : t.type = .RBRACE
      · rw [parse_block_loop_rbrace _ _ _ _ h1] at h
        cases h
        rw [List.cons_append, parse_block_loop_rbrace _ _ _ _ h1]
      · by_cases h2 : t.type = .IDENTIFIER
        · cases ts0 with
          | nil => simp [parse_block_loop, peek_token, get_token, h1, h2] at h
          | cons e ts1 =>
            by_cases h3 : e.type = .EQUALS
            · cases hp : parse_value f ts1 with
              | error e => simp [parse_block_loop, peek_token, get_token, h1, h2, h3, hp] at h
              | outOfFuel => simp [parse_block_loop, peek_token, get_token, h1, h2, h3, hp] at h
              | ok res =>
                obtain ⟨value, ts2⟩ := res
                have hp1 := parse_value_extend f ts1 value ts2 hp g (by omega) extra
                rw [parse_block_loop_assign _ _ _ _ _ _ _ h2 h3 hp] at h
                rw [List.cons_append, List.cons_append,
                  parse_block_loop_assign _ _ _ _ _ _ _ h2 h3 hp1]
                exact parse_block_loop_extend f ts2 _ c r h g (by omega) extra
            · simp [parse_block_loop, peek_token, get_token, h1, h2, h3] at h
        · simp [parse_block_loop, peek_token, h1, h2] at h

end

end Parser


/-! ## A successful run consumes tokens -/

namespace Parser

mutual

theorem parse_list_length : ∀ (fuel : Nat) (ts : List Token) (v : AstValue) (r : List Token),
    parse_list fuel ts = .ok (v, r) → r.length < ts.length
  | 0, _, _, _, h => by simp [parse_list] at h
  | f + 1, ts, v, r, h => by
    cases ts with
    | nil => simp [parse_list, get_token] at h
    | cons t ts0 =>
      cases hl : parse_list_loop f ts0 [] with
      | error e => simp [parse_list, get_token, hl] at h
      | outOfFuel => simp [parse_list, get_token, hl] at h
      | ok res =>
        obtain ⟨content, ts1⟩ := res
        cases ts1 with
        | nil => simp [parse_list, get_token, hl] at h
        | cons rb ts2 =>
          rw [parse_list_of_loop f t rb ts0 ts2 content hl] at h
          cases h
          have := parse_list_loop_length f ts0 [] content _ hl
          simp only [List.length_cons] at this ⊢
          omega

theorem parse_list_loop_length : ∀ (fuel : Nat) (ts : List Token) (acc c : AstList)
    (r : List Token), parse_list_loop fuel ts acc = .ok (c, r) → r.length ≤ ts.length
  | 0, _, _, _, _, h => by simp [parse_list_loop] at h
  | f + 1, ts, acc, c, r, h => by
    cases ts with
    | nil => simp [parse_list_loop, peek_token] at h
    | cons t ts0 =>
      by_cases h1 : t.type = .RBRACKET
      · rw [parse_list_loop_rbracket _ _ _ _ h1] at h
        cases h
        exact le_refl _
      · by_cases h2 : t.type = .IDENTIFIER ∨ t.type = .NUMBER ∨ t.type = .STRING
        · cases ts0 with
          | nil => simp [parse_list_loop, peek_token, get_token, h1, h2] at h
          | cons nxt ts1 =>
            by_cases hc : nxt.type = .COMMA
            · rw [parse_list_loop_scalar_comma _ _ _ _ _ h2 hc] at h
              have := parse_list_loop_length f ts1 _ c r h
              simp only [List.length_cons]
              omega
            · rw [parse_list_loop_scalar _ _ _ _ _ h2 hc] at h
              have := parse_list_loop_length f (nxt :: ts1) _ c r h
              simp only [List.length_cons] at this ⊢
              omega
        · by_cases h3 : t.type = .LBRACKET
          · cases hp : parse_list f (t :: ts0) with
            | error e => simp [parse_list_loop, peek_token, h1, h2, h3, hp] at h
            | outOfFuel => simp [parse_list_loop, peek_token, h1, h2, h3, hp] at h
            | ok res =>
              obtain ⟨item, ts1⟩ := res
              cases ts1 with
              | nil => simp [parse_list_loop, peek_token, h1, h2, h3, hp] at h
              | cons nxt ts2 =>
                have hp1 := parse_list_length f (t :: ts0) item (nxt :: ts2) hp
                by_cases hc : nxt.type = .COMMA
                · rw [parse_list_loop_nested_comma _ _ _ _ _ _ _ h3 hp hc] at h
                  have := parse_list_loop_length f ts2 _ c r h
                  simp only [List.length_cons] at hp1 ⊢
                  omega
                · rw [parse_list_loop_nested _ _ _ _ _ _ _ h3 hp hc] at h
                  have := parse_list_loop_length f (nxt :: ts2) _ c r h
                  simp only [List.length_cons] at hp1 this ⊢
                  omega
          · simp [parse_list_loop, peek_token, h1, h2, h3] at h

end

mutual

theorem parse_value_length : ∀ (fuel : Nat) (ts : List Token) (v : AstValue) (r : List Token),
    parse_value fuel ts = .ok (v, r) → r.length < ts.length
  | 0, _, _, _, h => by simp [parse_value] at h
  | f + 1, ts, v, r, h => by
    cases ts with
    | nil => simp [parse_value, peek_token] at h
    | cons t ts0 =>
      by_cases h1 : t.type = .IDENTIFIER ∨ t.type = .STRING ∨ t.type = .NUMBER
      · rw [parse_value_scalar _ _ _ h1] at h
        cases h
        simp
      · by_cases h2 : t.type = .LBRACE
        · rw [parse_value_block _ _ _ h2] at h
          exact parse_block_length f (t :: ts0) v r h
        · by_cases h3 : t.type = .LBRACKET
          · rw [parse_value_list _ _ _ h3] at h
            exact parse_list_length f (t :: ts0) v r h
          · simp [parse_value, peek_token, h1, h2, h3] at h

theorem parse_block_length : ∀ (fuel : Nat) (ts : List Token) (v : AstValue) (r : List Token),
    parse_block fuel ts = .ok (v, r) → r.length < ts.length
  | 0, _, _, _, h => by simp [parse_block] at h
  | f + 1, ts, v, r, h => by
    cases ts with
    | nil => simp [parse_block, get_token] at h
    | cons t ts0 =>
      cases hl : parse_block_loop f ts0 [] with
      | error e => simp [parse_block, get_token, hl] at h
      | outOfFuel => simp [parse_block, get_token, hl] at h
      | ok res =>
        obtain ⟨content, ts1⟩ := res
        cases ts1 with
        | nil => simp [parse_block, get_token, hl] at h
        | cons rb ts2 =>
          rw [parse_block_of_loop f t rb ts0 ts2 content hl] at h
          cases h
          have := parse_block_loop_length f ts0 [] content _ hl
          simp only [List.length_cons] at this ⊢
          omega

theorem parse_block_loop_length : ∀ (fuel : Nat) (ts : List Token) (acc c : AstBlock)
    (r : List Token), parse_block_loop fuel ts acc = .ok (c, r) → r.length ≤ ts.length
  | 0, _, _, _, _, h => by simp [parse_block_loop] at h
  | f + 1, ts, acc, c, r, h => by
    cases ts with
    | nil => simp [parse_block_loop, peek_token] at h
    | cons t ts0 =>
      by_cases h1 : t.type = .RBRACE
      · rw [parse_block_loop_rbrace _ _ _ _ h1] at h
        cases h
        exact le_refl _
      · by_cases h2 : t.type = .IDENTIFIER
        · cases ts0 with
          | nil => simp [parse_block_loop, peek_token, get_token, h1, h2] at h
          | cons e ts1 =>
            by_cases h3 : e.type = .EQUALS
            · cases hp : parse_value f ts1 with
              | error e => simp [parse_block_loop, peek_token, get_token, h1, h2, h3, hp] at h
              | outOfFuel => simp [parse_block_loop, peek_token, get_token, h1, h2, h3, hp] at h
              | ok res =>
                obtain ⟨value, ts2⟩ := res
                have hp1 := parse_value_length f ts1 value ts2 hp
                rw [parse_block_loop_assign _ _ _ _ _ _ _ h2 h3 hp] at h
                have := parse_block_loop_length f ts2 _ c r h
                simp only [List.length_cons]
                omega
            · simp [parse_block_loop, peek_token, get_token, h1, h2, h3] at h
        · simp [parse_block_loop, peek_token, h1, h2] at h

end

end Parser


/-! ## The assignments made by a run of the loops -/

theorem mapFind_mapAssignAll_of_not_mem (l : List (Str × AstValue)) : ∀ (m : AstBlock) (k : Str),
    k ∉ l.map Prod.fst → mapFind (mapAssignAll m l) k = mapFind m k := by
  induction l with
  | nil => intro m k _; rfl
  | cons p l ih =>
    intro m k hk
    simp only [List.map_cons, List.mem_cons, not_or] at hk
    show mapFind (mapAssignAll (mapAssign m p.1 p.2) l) k = _
    rw [ih _ k hk.2, mapFind_mapAssign, if_neg (fun e => hk.1 e.symm)]

theorem mapFind_mapAssignAll_ne_none (l : List (Str × AstValue)) : ∀ (m : AstBlock) (k : Str),
    (k ∈ l.map Prod.fst ∨ mapFind m k ≠ none) → mapFind (mapAssignAll m l) k ≠ none := by
  induction l with
  | nil =>
    intro m k h
    rcases h with h | h
    · simp at h
    · exact h
  | cons p l ih =>
    intro m k h
    show mapFind (mapAssignAll (mapAssign m p.1 p.2) l) k ≠ none
    apply ih
    by_cases hl : k ∈ l.map Prod.fst
    · exact Or.inl hl
    · right
      rw [mapFind_mapAssign]
      by_cases e : p.1 = k
      · simp [e]
      · rw [if_neg e]
        rcases h with h | h
        · simp only [List.map_cons, List.mem_cons] at h
          rcases h with h | h
          · exact absurd h.symm e
          · exact absurd h hl
        · exact h

namespace Parser

/-- A run of the loop of `parse` that succeeds on `pre` makes a fixed sequence
of assignments, and both loops make the same assignments when `pre` is
followed by more tokens. -/
theorem parseLoop_trace : ∀ (fuel : Nat) (pre : List Token) (a d : AstBlock),
    parseLoop fuel pre a = .ok d →
    ∃ (l : List (Str × AstValue)) (n : Nat), n < fuel ∧ n ≤ pre.length ∧ d = mapAssignAll a l ∧
      (∀ (rest : List Token) (b : AstBlock) (g : Nat),
        parseLoop (n + g) (pre ++ rest) b = parseLoop g rest (mapAssignAll b l)) ∧
      (∀ (rest : List Token) (b : AstBlock) (g : Nat), 2 * pre.length ≤ n + g →
        parse_block_loop (n + g) (pre ++ rest) b = parse_block_loop g rest (mapAssignAll b l))
  | 0, _, _, _, h => by simp [parseLoop] at h
  | f + 1, [], a, d, h => by
    simp only [parseLoop, Outcome.ok.injEq] at h
    subst h
    exact ⟨[], 0, by omega, by simp, rfl, fun rest b g => by simp [mapAssignAll],
      fun rest b g _ => by simp [mapAssignAll]⟩
  | f + 1, t :: ts0, a, d, h => by
    by_cases h2 : t.type = .IDENTIFIER
    · cases ts0 with
      | nil => simp [parseLoop, peek_token, get_token, h2] at h
      | cons e ts1 =>
        by_cases h3 : e.type = .EQUALS
        · cases hp : parse_value (2 * ts1.length + 2) ts1 with
          | error e => simp [parseLoop, peek_token, get_token, h2, h3, hp] at h
          | outOfFuel => simp [parseLoop, peek_token, get_token, h2, h3, hp] at h
          | ok res =>
            obtain ⟨value, ts2⟩ := res
            rw [parseLoop_assign _ _ _ _ _ _ _ h2 h3 hp] at h
            have hlen := parse_value_length _ ts1 value ts2 hp
            obtain ⟨l, n, hn, hn2, hd, htop, hblk⟩ := parseLoop_trace f ts2 _ d h
            refine ⟨(t.value, value) :: l, n + 1, by omega,
              by simp only [List.length_cons]; omega, hd, ?_, ?_⟩
            · intro rest b g
              have hv := parse_value_extend _ ts1 value ts2 hp
                (2 * (ts1 ++ rest).length + 2) (by simp only [List.length_append]; omega) rest
              rw [show n + 1 + g = (n + g) + 1 by omega, List.cons_append, List.cons_append,
                parseLoop_assign _ _ _ _ _ _ _ h2 h3 hv]
              exact htop rest _ g
            · intro rest b g hg
              simp only [List.length_cons] at hg
              have hv := parse_value_extend _ ts1 value ts2 hp (n + g) (by omega) rest
              rw [show n + 1 + g = (n + g) + 1 by omega, List.cons_append, List.cons_append,
                parse_block_loop_assign _ _ _ _ _ _ _ h2 h3 hv]
              exact hblk rest _ g (by omega)
        · simp [parseLoop, peek_token, get_token, h2, h3] at h
    · simp [parseLoop, peek_token, h2] at h

end Parser

namespace Parser

theorem parseLoop_of_steps (pre : List Token) (l : List (Str × AstValue)) (n : Nat)
    (h : ∀ (rest : List Token) (b : AstBlock) (g : Nat),
      parseLoop (n + g) (pre ++ rest) b = parseLoop g rest (mapAssignAll b l))
    (b : AstBlock) (fuel : Nat) (hf : n < fuel) :
    parseLoop fuel pre b = .ok (mapAssignAll b l) := by
  obtain ⟨g, rfl⟩ : ∃ g, fuel = n + (g + 1) := ⟨fuel - n - 1, by omega⟩
  have := h [] b (g + 1)
  rw [List.append_nil] at this
  rw [this]
  rfl

theorem parse_block_loop_of_steps (pre : List Token) (l : List (Str × AstValue)) (n : Nat)
    (h : ∀ (rest : List Token) (b : AstBlock) (g : Nat), 2 * pre.length ≤ n + g →
      parse_block_loop (n + g) (pre ++ rest) b = parse_block_loop g rest (mapAssignAll b l))
    (b : AstBlock) (r : Token) (rest : List Token) (hr : r.type = .RBRACE) (fuel : Nat)
    (hf : n < fuel) (hf2 : 2 * pre.length ≤ fuel) :
    parse_block_loop fuel (pre ++ r :: rest) b = .ok (mapAssignAll b l, r :: rest) := by
  obtain ⟨g, rfl⟩ : ∃ g, fuel = n + (g + 1) := ⟨fuel - n - 1, by omega⟩
  rw [h (r :: rest) b (g + 1) hf2]
  exact parse_block_loop_rbrace g r rest _ hr

end Parser


/-! ## The loop bounds are never exhausted -/

namespace Lexer

theorem tokenizeBody_ne_outOfFuel (k : List Char → List Token → Outcome LexError (List Token))
    (c : Char) (rest : List Char) (tokens : List Token)
    (h : ∀ s t, k s t ≠ .outOfFuel) : tokenizeBody k c rest tokens ≠ .outOfFuel := by
  unfold tokenizeBody
  by_cases h0 : isspace c = true
  · rw [if_pos h0]; exact h _ _
  rw [if_neg h0]
  by_cases h1 : c = '#'
  · rw [if_pos h1]; exact h _ _
  rw [if_neg h1]
  by_cases h2 : c = '"'
  · rw [if_pos h2]; exact h _ _
  rw [if_neg h2]
  by_cases h3 : (isalpha c || decide (c = '_')) = true
  · rw [if_pos h3]; exact h _ _
  rw [if_neg h3]
  by_cases h4 : isdigit c = true
  · rw [if_pos h4]; exact h _ _
  rw [if_neg h4]
  by_cases h5 : c = '{'
  · rw [if_pos h5]; exact h _ _
  rw [if_neg h5]
  by_cases h6 : c = '}'
  · rw [if_pos h6]; exact h _ _
  rw [if_neg h6]
  by_cases h7 : c = '['
  · rw [if_pos h7]; exact h _ _
  rw [if_neg h7]
  by_cases h8 : c = ']'
  · rw [if_pos h8]; exact h _ _
  rw [if_neg h8]
  by_cases h9 : c = '='
  · rw [if_pos h9]; exact h _ _
  rw [if_neg h9]
  by_cases h10 : c = ','
  · rw [if_pos h10]; exact h _ _
  rw [if_neg h10]
  exact Outcome.noConfusion

theorem resume_ne_outOfFuel (n : Nat) : ∀ (s : List Char) (tokens : List Token),
    s.length ≤ n → resume s tokens ≠ .outOfFuel := by
  induction n with
  | zero =>
    intro s tokens hs
    have : s = [] := List.length_eq_zero.mp (Nat.le_zero.mp hs)
    rw [this, resume_nil]
    exact Outcome.noConfusion
  | succ n ih =>
    intro s tokens hs
    cases s with
    | nil =>
      rw [resume_nil]
      exact Outcome.noConfusion
    | cons c rest =>
      simp only [List.length_cons, Nat.add_le_add_iff_right] at hs
      have hcongr := tokenizeBody_congr resume
        (fun s t => if s.length ≤ rest.length then resume s t else .ok []) c rest tokens
        (fun s t hs => by simp only [hs, if_true])
      rw [resume_cons, hcongr]
      apply tokenizeBody_ne_outOfFuel
      intro s t
      by_cases hl : s.length ≤ rest.length
      · simp only [hl, if_true]
        exact ih s t (le_trans hl hs)
      · simp only [hl, if_false]
        exact Outcome.noConfusion

/-- The bound `source.length + 1` of `tokenize` is never exhausted. -/
theorem tokenize_ne_outOfFuel (source : List Char) : tokenize source ≠ .outOfFuel :=
  resume_ne_outOfFuel source.length source [] (le_refl _)

end Lexer

namespace Parser

mutual

theorem parse_list_ne_outOfFuel : ∀ (fuel : Nat) (ts : List Token),
    1 ≤ fuel → 2 * ts.length ≤ fuel → parse_list fuel ts ≠ .outOfFuel
  | 0, _, h, _ => by omega
  | f + 1, ts, _, hf => by
    cases ts with
    | nil => simp [parse_list, get_token]
    | cons t ts0 =>
      simp only [List.length_cons] at hf
      cases hl : parse_list_loop f ts0 [] with
      | error e => simp [parse_list, get_token, hl]
      | outOfFuel => exact absurd hl (parse_list_loop_ne_outOfFuel f ts0 [] (by omega))
      | ok res =>
        obtain ⟨content, ts1⟩ := res
        cases ts1 with
        | nil => simp [parse_list, get_token, hl]
        | cons rb ts2 =>
          rw [parse_list_of_loop f t rb ts0 ts2 content hl]
          exact Outcome.noConfusion

theorem parse_list_loop_ne_outOfFuel : ∀ (fuel : Nat) (ts : List Token) (acc : AstList),
    2 * ts.length + 1 ≤ fuel → parse_list_loop fuel ts acc ≠ .outOfFuel
  | 0, _, _, h => by omega
  | f + 1, ts, acc, hf => by
    cases ts with
    | nil => simp [parse_list_loop, peek_token]
    | cons t ts0 =>
      simp only [List.length_cons] at hf
      by_cases h1 : t.type = .RBRACKET
      · rw [parse_list_loop_rbracket _ _ _ _ h1]
        exact Outcome.noConfusion
      · by_cases h2 : t.type = .IDENTIFIER ∨ t.type = .NUMBER ∨ t.type = .STRING
        · cases ts0 with
          | nil => simp [parse_list_loop, peek_token, get_token, h1, h2]
          | cons nxt ts1 =>
            simp only [List.length_cons] at hf
            by_cases hc : nxt.type = .COMMA
            · rw [parse_list_loop_scalar_comma _ _ _ _ _ h2 hc]
              exact parse_list_loop_ne_outOfFuel f ts1 _ (by omega)
            · rw [parse_list_loop_scalar _ _ _ _ _ h2 hc]
              exact parse_list_loop_ne_outOfFuel f (nxt :: ts1) _
                (by simp only [List.length_cons]; omega)
        · by_cases h3 : t.type = .LBRACKET
          · cases hp : parse_list f (t :: ts0) with
            | error e => simp [parse_list_loop, peek_token, h1, h2, h3, hp]
            | outOfFuel =>
              exact absurd hp (parse_list_ne_outOfFuel f (t :: ts0) (by omega)
                (by simp only [List.length_cons]; omega))
            | ok res =>
              obtain ⟨item, ts1⟩ := res
              have hlen := parse_list_length f (t :: ts0) item ts1 hp
              simp only [List.length_cons] at hlen
              cases ts1 with
              | nil => simp [parse_list_loop, peek_token, h1, h2, h3, hp]
              | cons nxt ts2 =>
                simp only [List.length_cons] at hlen
                by_cases hc : nxt.type = .COMMA
                · rw [parse_list_loop_nested_comma _ _ _ _ _ _ _ h3 hp hc]
                  exact parse_list_loop_ne_outOfFuel f ts2 _ (by omega)
                · rw [parse_list_loop_nested _ _ _ _ _ _ _ h3 hp hc]
                  exact parse_list_loop_ne_outOfFuel f (nxt :: ts2) _
                    (by simp only [List.length_cons]; omega)
          · simp [parse_list_loop, peek_token, h1, h2, h3]

end

mutual

theorem parse_value_ne_outOfFuel : ∀ (fuel : Nat) (ts : List Token),
    2 * ts.length + 1 ≤ fuel → parse_value fuel ts ≠ .outOfFuel
  | 0, _, h => by omega
  | f + 1, ts, hf => by
    cases ts with
    | nil => simp [parse_value, peek_token]
    | cons t ts0 =>
      simp only [List.length_cons] at hf
      by_cases h1 : t.type = .IDENTIFIER ∨ t.type = .STRING ∨ t.type = .NUMBER
      · rw [parse_value_scalar _ _ _ h1]
        exact Outcome.noConfusion
      · by_cases h2 : t.type = .LBRACE
        · rw [parse_value_block _ _ _ h2]
          exact parse_block_ne_outOfFuel f (t :: ts0) (by omega)
            (by simp only [List.length_cons]; omega)
        · by_cases h3 : t.type = .LBRACKET
          · rw [parse_value_list _ _ _ h3]
            exact parse_list_ne_outOfFuel f (t :: ts0) (by omega)
              (by simp only [List.length_cons]; omega)
          · simp [parse_value, peek_token, h1, h2, h3]

theorem parse_block_ne_outOfFuel : ∀ (fuel : Nat) (ts : List Token),
    1 ≤ fuel → 2 * ts.length ≤ fuel → parse_block fuel ts ≠ .outOfFuel
  | 0, _, h, _ => by omega
  | f + 1, ts, _, hf => by
    cases ts with
    | nil => simp [parse_block, get_token]
    | cons t ts0 =>
      simp only [List.length_cons] at hf
      cases hl : parse_block_loop f ts0 [] with
      | error e => simp [parse_block, get_token, hl]
      | outOfFuel => exact absurd hl (parse_block_loop_ne_outOfFuel f ts0 [] (by omega))
      | ok res =>
        obtain ⟨content, ts1⟩ := res
        cases ts1 with
        | nil => simp [parse_block, get_token, hl]
        | cons rb ts2 =>
          rw [parse_block_of_loop f t rb ts0 ts2 content hl]
          exact Outcome.noConfusion

theorem parse_block_loop_ne_outOfFuel : ∀ (fuel : Nat) (ts : List Token) (acc : AstBlock),
    2 * ts.length + 1 ≤ fuel → parse_block_loop fuel ts acc ≠ .outOfFuel
  | 0, _, _, h => by omega
  | f + 1, ts, acc, hf => by
    cases ts with
    | nil => simp [parse_block_loop, peek_token]
    | cons t ts0 =>
      simp only [List.length_cons] at hf
      by_cases h1 : t.type = .RBRACE
      · rw [parse_block_loop_rbrace _ _ _ _ h1]
        exact Outcome.noConfusion
      · by_cases h2 : t.type = .IDENTIFIER
        · cases ts0 with
          | nil => simp [parse_block_loop, peek_token, get_token, h1, h2]
          | cons e ts1 =>
            simp only [List.length_cons] at hf
            by_cases h3 : e.type = .EQUALS
            · cases hp : parse_value f ts1 with
              | error e => simp [parse_block_loop, peek_token, get_token, h1, h2, h3, hp]
              | outOfFuel => exact absurd hp (parse_value_ne_outOfFuel f ts1 (by omega))
              | ok res =>
                obtain ⟨value, ts2⟩ := res
                have hlen := parse_value_length f ts1 value ts2 hp
                rw [parse_block_loop_assign _ _ _ _ _ _ _ h2 h3 hp]
                exact parse_block_loop_ne_outOfFuel f ts2 _ (by omega)
            · simp [parse_block_loop, peek_token, get_token, h1, h2, h3]
        · simp [parse_block_loop, peek_token, h1, h2]

end

theorem parseLoop_ne_outOfFuel : ∀ (fuel : Nat) (ts : List Token) (ast : AstBlock),
    ts.length < fuel → parseLoop fuel ts ast ≠ .outOfFuel
  | 0, _, _, h => by omega
  | f + 1, [], ast, _ => by simp [parseLoop]
  | f + 1, t :: ts0, ast, hf => by
    simp only [List.length_cons] at hf
    by_cases h2 : t.type = .IDENTIFIER
    · cases ts0 with
      | nil => simp [parseLoop, peek_token, get_token, h2]
      | cons e ts1 =>
        simp only [List.length_cons] at hf
        by_cases h3 : e.type = .EQUALS
        · cases hp : parse_value (2 * ts1.length + 2) ts1 with
          | error e => simp [parseLoop, peek_token, get_token, h2, h3, hp]
          | outOfFuel => exact absurd hp (parse_value_ne_outOfFuel _ ts1 (by omega))
          | ok res =>
            obtain ⟨value, ts2⟩ := res
            have hlen := parse_value_length _ ts1 value ts2 hp
            rw [parseLoop_assign _ _ _ _ _ _ _ h2 h3 hp]
            exact parseLoop_ne_outOfFuel f ts2 _ (by omega)
        · simp [parseLoop, peek_token, get_token, h2, h3]
    · simp [parseLoop, peek_token, h2]

/-- The bounds of `parse` are never exhausted. -/
theorem parse_ne_outOfFuel (tokens : List Token) : parse tokens ≠ .outOfFuel :=
  parseLoop_ne_outOfFuel _ tokens [] (Nat.lt_succ_self _)

end Parser


/-! ## Tokens of a source in two parts -/

namespace Lexer

theorem takeWhile_append_stop (p : Char → Bool) (l r : List Char) (hr : r.takeWhile p = []) :
    (l ++ r).takeWhile p = l.takeWhile p := by
  induction l with
  | nil => simpa using hr
  | cons a l ih =>
    by_cases h : p a = true
    · simp only [List.cons_append, List.takeWhile_cons, h, if_true, ih]
    · simp [List.takeWhile_cons, h]

theorem dropWhile_append_stop (p : Char → Bool) (l r : List Char) (hr : r.takeWhile p = []) :
    (l ++ r).dropWhile p = l.dropWhile p ++ r := by
  induction l with
  | nil => simpa using dropWhile_of_takeWhile_nil p r hr
  | cons a l ih =>
    by_cases h : p a = true
    · simp only [List.cons_append, List.dropWhile_cons, h, if_true, ih]
    · simp [List.dropWhile_cons, h]

theorem mem_of_mem_dropWhile (p : Char → Bool) (x : Char) (l : List Char)
    (h : x ∈ l.dropWhile p) : x ∈ l :=
  (List.dropWhile_suffix p).subset h

/-- The tokens found so far are only carried along. -/
theorem tokenizeBody_append (k : List Char → List Token → Outcome LexError (List Token))
    (acc : List Token) (c : Char) (rest : List Char) (t : List Token)
    (h : ∀ s u, k s (acc ++ u) = (k s u >>= fun ts => .ok (acc ++ ts))) :
    tokenizeBody k c rest (acc ++ t) = (tokenizeBody k c rest t >>= fun ts => .ok (acc ++ ts)) := by
  unfold tokenizeBody
  by_cases h0 : isspace c = true
  · rw [if_pos h0, if_pos h0]; exact h _ _
  rw [if_neg h0, if_neg h0]
  by_cases h1 : c = '#'
  · rw [if_pos h1, if_pos h1]; exact h _ _
  rw [if_neg h1, if_neg h1]
  by_cases h2 : c = '"'
  · rw [if_pos h2, if_pos h2, List.append_assoc]; exact h _ _
  rw [if_neg h2, if_neg h2]
  by_cases h3 : (isalpha c || decide (c = '_')) = true
  · rw [if_pos h3, if_pos h3, List.append_assoc]; exact h _ _
  rw [if_neg h3, if_neg h3]
  by_cases h4 : isdigit c = true
  · rw [if_pos h4, if_pos h4, List.append_assoc]; exact h _ _
  rw [if_neg h4, if_neg h4]
  by_cases h5 : c = '{'
  · rw [if_pos h5, if_pos h5, List.append_assoc]; exact h _ _
  rw [if_neg h5, if_neg h5]
  by_cases h6 : c = '}'
  · rw [if_pos h6, if_pos h6, List.append_assoc]; exact h _ _
  rw [if_neg h6, if_neg h6]
  by_cases h7 : c = '['
  · rw [if_pos h7, if_pos h7, List.append_assoc]; exact h _ _
  rw [if_neg h7, if_neg h7]
  by_cases h8 : c = ']'
  · rw [if_pos h8, if_pos h8, List.append_assoc]; exact h _ _
  rw [if_neg h8, if_neg h8]
  by_cases h9 : c = '='
  · rw [if_pos h9, if_pos h9, List.append_assoc]; exact h _ _
  rw [if_neg h9, if_neg h9]
  by_cases h10 : c = ','
  · rw [if_pos h10, if_pos h10, List.append_assoc]; exact h _ _
  rw [if_neg h10, if_neg h10]
  rfl

theorem resume_append (n : Nat) : ∀ (s : List Char) (acc t : List Token), s.length ≤ n →
    resume s (acc ++ t) = (resume s t >>= fun ts => .ok (acc ++ ts)) := by
  induction n with
  | zero =>
    intro s acc t hs
    have : s = [] := List.length_eq_zero.mp (Nat.le_zero.mp hs)
    rw [this, resume_nil, resume_nil]
    rfl
  | succ n ih =>
    intro s acc t hs
    cases s with
    | nil =>
      rw [resume_nil, resume_nil]
      rfl
    | cons c rest =>
      simp only [List.length_cons, Nat.add_le_add_iff_right] at hs
      have hcongr := fun u => tokenizeBody_congr resume
        (fun s t => if s.length ≤ rest.length then resume s t else .error (.unexpectedChar c))
        c rest u (fun s t hs => by simp only [hs, if_true])
      rw [resume_cons, resume_cons, hcongr, hcongr]
      apply tokenizeBody_append
      intro s u
      by_cases hl : s.length ≤ rest.length
      · simp only [hl, if_true]
        exact ih s acc u (le_trans hl hs)
      · simp only [hl, if_false]
        rfl

theorem resume_eq_tokenize (s : List Char) (acc : List Token) :
    resume s acc = (tokenize s >>= fun ts => .ok (acc ++ ts)) := by
  have := resume_append s.length s acc [] (le_refl _)
  rw [List.append_nil] at this
  exact this

theorem resume_newline (n : Nat) : ∀ (s1 s2 : List Char) (acc : List Token), s1.length ≤ n →
    '"' ∉ s1 →
    resume (s1 ++ '\n' :: s2) acc = (resume s1 acc >>= fun ts => resume s2 ts) := by
  induction n with
  | zero =>
    intro s1 s2 acc hs _
    have : s1 = [] := List.length_eq_zero.mp (Nat.le_zero.mp hs)
    rw [this, List.nil_append, resume_space _ _ _ (by decide), resume_nil]
    rfl
  | succ n ih =>
    intro s1 s2 acc hs hq
    cases s1 with
    | nil =>
      rw [List.nil_append, resume_space _ _ _ (by decide), resume_nil]
      rfl
    | cons a s1 =>
      simp only [List.length_cons, Nat.add_le_add_iff_right] at hs
      simp only [List.mem_cons, not_or] at hq
      obtain ⟨hqa, hq⟩ := hq
      rw [List.cons_append]
      by_cases h0 : isspace a = true
      · rw [resume_space _ _ _ h0, resume_space _ _ _ h0]
        exact ih s1 s2 acc hs hq
      by_cases h1 : a = '#'
      · have hr : ('\n' :: s2).takeWhile notNewline = [] := by
          simp [List.takeWhile_cons, notNewline]
        rw [h1, resume_hash, resume_hash, dropWhile_append_stop _ _ _ hr]
        have hl := length_dropWhile_le notNewline s1
        cases hy : s1.dropWhile notNewline with
        | nil =>
          rw [List.nil_append, List.drop_one, List.tail_cons, List.drop_nil, resume_nil]
          rfl
        | cons b y =>
          rw [hy] at hl
          simp only [List.length_cons] at hl
          rw [List.cons_append, List.drop_one, List.tail_cons, List.drop_one, List.tail_cons]
          refine ih y s2 acc (by omega) ?_
          intro hmem
          exact hq (mem_of_mem_dropWhile notNewline _ s1 (hy ▸ List.mem_cons_of_mem b hmem))
      by_cases h3 : (isalpha a || a == '_') = true
      · have hr : ('\n' :: s2).takeWhile identChar = [] := by
          simp [List.takeWhile_cons, identChar, isalnum, isalpha, isdigit]
        rw [resume_identStart _ _ _ h3, resume_identStart _ _ _ h3,
          dropWhile_append_stop _ _ _ hr, takeWhile_append_stop _ _ _ hr]
        refine ih _ s2 _ (le_trans (length_dropWhile_le identChar s1) hs) ?_
        intro hmem
        exact hq (mem_of_mem_dropWhile identChar _ s1 hmem)
      by_cases h4 : isdigit a = true
      · have hr : ('\n' :: s2).takeWhile numberChar = [] := by
          simp [List.takeWhile_cons, numberChar, isdigit]
        rw [resume_digit _ _ _ h4, resume_digit _ _ _ h4,
          dropWhile_append_stop _ _ _ hr, takeWhile_append_stop _ _ _ hr]
        refine ih _ s2 _ (le_trans (length_dropWhile_le numberChar s1) hs) ?_
        intro hmem
        exact hq (mem_of_mem_dropWhile numberChar _ s1 hmem)
      by_cases h5 : recognized a = true
      · obtain ⟨tok, htok⟩ := resume_punct a (by simpa using h0) h1 (fun e => hqa e.symm)
          (by simpa using h3) (by simpa using h4) h5
        rw [htok, htok]
        exact ih s1 s2 _ hs hq
      · rw [resume_unrecognized _ _ _ (by simpa using h5),
          resume_unrecognized _ _ _ (by simpa using h5)]
        rfl

/-- Tokens of `s1 \n s2` when `s1` holds no double quote. -/
theorem tokenize_newline (s1 s2 : List Char) (hq : '"' ∉ s1) :
    tokenize (s1 ++ '\n' :: s2) =
      (tokenize s1 >>= fun t1 => tokenize s2 >>= fun t2 => .ok (t1 ++ t2)) := by
  rw [tokenize_eq_resume, resume_newline s1.length s1 s2 [] (le_refl _) hq, ← tokenize_eq_resume]
  cases tokenize s1 with
  | ok t1 => exact resume_eq_tokenize s2 t1
  | error e => rfl
  | outOfFuel => rfl

end Lexer


/-! ## Every iteration reads input or raises an error -/

namespace Lexer

theorem tokenizeBody_step (c : Char) (rest : List Char) (tokens : List Token) :
    (∃ e, ∀ k, tokenizeBody k c rest tokens = .error e) ∨
      ∃ s t, s.length ≤ rest.length ∧ ∀ k, tokenizeBody k c rest tokens = k s t := by
  have e1 : ∀ (p : Char → Bool), p c = true → ((c :: rest).dropWhile p).length ≤ rest.length := by
    intro p hp
    simp only [List.dropWhile_cons, hp, if_true]
    exact length_dropWhile_le p rest
  unfold tokenizeBody
  by_cases h0 : isspace c = true
  · exact Or.inr ⟨_, _, le_refl _, fun k => by rw [if_pos h0]⟩
  by_cases h1 : c = '#'
  · refine Or.inr ⟨_, _, ?_, fun k => by rw [if_neg h0, if_pos h1]⟩
    have := length_dropWhile_le notNewline (c :: rest)
    simp only [List.length_drop, List.length_cons] at this ⊢
    omega
  by_cases h2 : c = '"'
  · refine Or.inr ⟨_, _, ?_, fun k => by rw [if_neg h0, if_neg h1, if_pos h2]⟩
    have := length_dropWhile_le notQuote rest
    simp only [List.length_drop]
    omega
  by_cases h3 : (isalpha c || decide (c = '_')) = true
  · refine Or.inr ⟨_, _, e1 identChar ?_, fun k => by rw [if_neg h0, if_neg h1, if_neg h2, if_pos h3]⟩
    exact identStart_identChar (by simpa using h3)
  by_cases h4 : isdigit c = true
  · exact Or.inr ⟨_, _, e1 numberChar (isdigit_numberChar h4),
      fun k => by rw [if_neg h0, if_neg h1, if_neg h2, if_neg h3, if_pos h4]⟩
  by_cases h5 : c = '{'
  · exact Or.inr ⟨_, _, le_refl _,
      fun k => by rw [if_neg h0, if_neg h1, if_neg h2, if_neg h3, if_neg h4, if_pos h5]⟩
  by_cases h6 : c = '}'
  · exact Or.inr ⟨_, _, le_refl _,
      fun k => by rw [if_neg h0, if_neg h1, if_neg h2, if_neg h3, if_neg h4, if_neg h5, if_pos h6]⟩
  by_cases h7 : c = '['
  · exact Or.inr ⟨_, _, le_refl _, fun k => by
      rw [if_neg h0, if_neg h1, if_neg h2, if_neg h3, if_neg h4, if_neg h5, if_neg h6, if_pos h7]⟩
  by_cases h8 : c = ']'
  · exact Or.inr ⟨_, _, le_refl _, fun k => by
      rw [if_neg h0, if_neg h1, if_neg h2, if_neg h3, if_neg h4, if_neg h5, if_neg h6, if_neg h7,
        if_pos h8]⟩
  by_cases h9 : c = '='
  · exact Or.inr ⟨_, _, le_refl _, fun k => by
      rw [if_neg h0, if_neg h1, if_neg h2, if_neg h3, if_neg h4, if_neg h5, if_neg h6, if_neg h7,
        if_neg h8, if_pos h9]⟩
  by_cases h10 : c = ','
  · exact Or.inr ⟨_, _, le_refl _, fun k => by
      rw [if_neg h0, if_neg h1, if_neg h2, if_neg h3, if_neg h4, if_neg h5, if_neg h6, if_neg h7,
        if_neg h8, if_neg h9, if_pos h10]⟩
  · exact Or.inl ⟨_, fun k => by
      rw [if_neg h0, if_neg h1, if_neg h2, if_neg h3, if_neg h4, if_neg h5, if_neg h6, if_neg h7,
        if_neg h8, if_neg h9, if_neg h10]⟩

theorem tokenizeLoop_step (c : Char) (rest : List Char) (tokens : List Token) :
    (∃ e, ∀ fuel, tokenizeLoop (fuel + 1) (c :: rest) tokens = .error e) ∨
      ∃ s t, s.length < (c :: rest).length ∧
        ∀ fuel, tokenizeLoop (fuel + 1) (c :: rest) tokens = tokenizeLoop fuel s t := by
  rcases tokenizeBody_step c rest tokens with ⟨e, he⟩ | ⟨s, t, hl, hk⟩
  · exact Or.inl ⟨e, fun fuel => by rw [tokenizeLoop_succ_cons, he]⟩
  · exact Or.inr ⟨s, t, by simp only [List.length_cons]; omega,
      fun fuel => by rw [tokenizeLoop_succ_cons, hk]⟩

end Lexer

namespace Parser

theorem parseLoop_step (fuel : Nat) (t : Token) (ts : List Token) (ast : AstBlock) :
    (∃ e, parseLoop (fuel + 1) (t :: ts) ast = .error e) ∨
      ∃ ts1 ast1, ts1.length < (t :: ts).length ∧
        parseLoop (fuel + 1) (t :: ts) ast = parseLoop fuel ts1 ast1 := by
  by_cases h2 : t.type = .IDENTIFIER
  · cases ts with
    | nil => exact Or.inl ⟨_, by simp [parseLoop, peek_token, get_token, h2]; rfl⟩
    | cons e ts1 =>
      by_cases h3 : e.type = .EQUALS
      · cases hp : parse_value (2 * ts1.length + 2) ts1 with
        | error err =>
          exact Or.inl ⟨err, parseLoop_assign_error _ _ _ _ _ _ h2 h3 hp⟩
        | outOfFuel => exact absurd hp (parse_value_ne_outOfFuel _ ts1 (by omega))
        | ok res =>
          obtain ⟨value, ts2⟩ := res
          have hlen := parse_value_length _ ts1 value ts2 hp
          exact Or.inr ⟨ts2, _, by simp only [List.length_cons]; omega,
            parseLoop_assign _ _ _ _ _ _ _ h2 h3 hp⟩
      · exact Or.inl ⟨_, by simp [parseLoop, peek_token, get_token, h2, h3]; rfl⟩
  · exact Or.inl ⟨_, by simp [parseLoop, peek_token, h2]; rfl⟩

theorem parse_block_loop_step (extra : Nat) (t : Token) (ts : List Token) (m : AstBlock) :
    parse_block_loop (2 * ts.length + 2 + extra + 1) (t :: ts) m = .ok (m, t :: ts) ∨
      (∃ e, parse_block_loop (2 * ts.length + 2 + extra + 1) (t :: ts) m = .error e) ∨
      ∃ ts1 m1, ts1.length < (t :: ts).length ∧
        parse_block_loop (2 * ts.length + 2 + extra + 1) (t :: ts) m =
          parse_block_loop (2 * ts.length + 2 + extra) ts1 m1 := by
  by_cases h1 : t.type = .RBRACE
  · exact Or.inl (parse_block_loop_rbrace _ _ _ _ h1)
  · right
    by_cases h2 : t.type = .IDENTIFIER
    · cases ts with
      | nil => exact Or.inl ⟨_, by simp [parse_block_loop, peek_token, get_token, h1, h2]; rfl⟩
      | cons e ts1 =>
        by_cases h3 : e.type = .EQUALS
        · cases hp : parse_value (2 * (e :: ts1).length + 2 + extra) ts1 with
          | error err =>
            exact Or.inl ⟨err, parse_block_loop_assign_error _ _ _ _ _ _ h2 h3 hp⟩
          | outOfFuel =>
            exact absurd hp (parse_value_ne_outOfFuel _ ts1
              (by simp only [List.length_cons]; omega))
          | ok res =>
            obtain ⟨value, ts2⟩ := res
            have hlen := parse_value_length _ ts1 value ts2 hp
            exact Or.inr ⟨ts2, _, by simp only [List.length_cons]; omega,
              parse_block_loop_assign _ _ _ _ _ _ _ h2 h3 hp⟩
        · exact Or.inl ⟨_, by
            simp [parse_block_loop, peek_token, get_token, h1, h2, h3]; rfl⟩
    · exact Or.inl ⟨_, by simp [parse_block_loop, peek_token, h1, h2]; rfl⟩

theorem parse_list_loop_step (extra : Nat) (t : Token) (ts : List Token) (acc : AstList) :
    parse_list_loop (2 * ts.length + 2 + extra + 1) (t :: ts) acc = .ok (acc, t :: ts) ∨
      (∃ e, parse_list_loop (2 * ts.length + 2 + extra + 1) (t :: ts) acc = .error e) ∨
      ∃ ts1 acc1, ts1.length < (t :: ts).length ∧
        parse_list_loop (2 * ts.length + 2 + extra + 1) (t :: ts) acc =
          parse_list_loop (2 * ts.length + 2 + extra) ts1 acc1 := by
  by_cases h1 : t.type = .RBRACKET
  · exact Or.inl (parse_list_loop_rbracket _ _ _ _ h1)
  · right
    by_cases h2 : t.type = .IDENTIFIER ∨ t.type = .NUMBER ∨ t.type = .STRING
    · cases ts with
      | nil => exact Or.inl ⟨_, by simp [parse_list_loop, peek_token, get_token, h1, h2]; rfl⟩
      | cons nxt ts1 =>
        by_cases hc : nxt.type = .COMMA
        · exact Or.inr ⟨ts1, _, by simp only [List.length_cons]; omega,
            parse_list_loop_scalar_comma _ _ _ _ _ h2 hc⟩
        · exact Or.inr ⟨nxt :: ts1, _, by simp only [List.length_cons]; omega,
            parse_list_loop_scalar _ _ _ _ _ h2 hc⟩
    · by_cases h3 : t.type = .LBRACKET
      · cases hp : parse_list (2 * ts.length + 2 + extra) (t :: ts) with
        | error err =>
          exact Or.inl ⟨err, parse_list_loop_nested_error _ _ _ _ _ h3 hp⟩
        | outOfFuel =>
          exact absurd hp (parse_list_ne_outOfFuel _ (t :: ts) (by omega)
            (by simp only [List.length_cons]; omega))
        | ok res =>
          obtain ⟨item, ts1⟩ := res
          have hlen := parse_list_length _ (t :: ts) item ts1 hp
          cases ts1 with
          | nil => exact Or.inl ⟨_, by simp [parse_list_loop, peek_token, h1, h2, h3, hp]; rfl⟩
          | cons nxt ts2 =>
            simp only [List.length_cons] at hlen
            by_cases hc : nxt.type = .COMMA
            · exact Or.inr ⟨ts2, _, by simp only [List.length_cons]; omega,
                parse_list_loop_nested_comma _ _ _ _ _ _ _ h3 hp hc⟩
            · exact Or.inr ⟨nxt :: ts2, _, by simp only [List.length_cons]; omega,
                parse_list_loop_nested _ _ _ _ _ _ _ h3 hp hc⟩
      · exact Or.inl ⟨_, by simp [parse_list_loop, peek_token, h1, h2, h3]; rfl⟩

end Parser


/-! ## A token that cannot start an item, where an item is expected -/

namespace Parser

open Grammar

theorem lastType_append (prev : TokenType) (l : List Token) (t : Token) (r : List Token) :
    lastType prev (l ++ t :: r) = lastType t.type r := by
  induction l generalizing prev with
  | nil => rfl
  | cons a l ih => exact ih a.type

theorem lastType_cons_append (prev : TokenType) (a : Token) (l r : List Token) :
    lastType prev (a :: (l ++ r)) = lastType a.type (l ++ r) := rfl

/-- What follows an item on a path is not a comma, unless the item carries
one. -/
theorem path_tokens_head (p : ListPath) (prev : TokenType) (t : Token) (rest : List Token)
    (hprev : prev ≠ .LBRACKET ∧ prev ≠ .COMMA)
    (ht : t.type = .COMMA → lastType prev p.tokens = .LBRACKET ∨ lastType prev p.tokens = .COMMA) :
    ∃ h ts, p.tokens ++ t :: rest = h :: ts ∧ h.type ≠ .COMMA := by
  cases p with
  | here =>
    refine ⟨t, rest, rfl, ?_⟩
    intro hc
    rcases ht hc with h | h
    · exact hprev.1 h
    · exact hprev.2 h
  | scalar kind text comma more =>
    refine ⟨_, _, rfl, ?_⟩
    cases kind <;> simp [ScalarKind.type]
  | nested inner comma more => exact ⟨_, _, rfl, by decide⟩
  | enter more => exact ⟨_, _, rfl, by decide⟩

theorem parse_list_loop_path (p : ListPath) : ∀ (prev : TokenType) (t : Token)
    (rest : List Token) (acc : AstList) (fuel : Nat),
    (t.type = .LBRACE ∨ t.type = .COMMA) →
    (t.type = .COMMA → lastType prev p.tokens = .LBRACKET ∨ lastType prev p.tokens = .COMMA) →
    2 * (p.tokens ++ t :: rest).length + 1 ≤ fuel →
    parse_list_loop fuel (p.tokens ++ t :: rest) acc = .error .listExpectedValue := by
  induction p with
  | here =>
    intro prev t rest acc fuel hbad _ hf
    obtain ⟨f, rfl⟩ : ∃ f, fuel = f + 1 := ⟨fuel - 1, by omega⟩
    simp only [ListPath.tokens, List.nil_append]
    apply parse_list_loop_unexpected
    · rcases hbad with h | h <;> rw [h] <;> decide
    · rcases hbad with h | h <;> rw [h] <;> decide
    · rcases hbad with h | h <;> rw [h] <;> decide
  | scalar kind text comma more ih =>
    intro prev t rest acc fuel hbad hpos hf
    obtain ⟨f, rfl⟩ : ∃ f, fuel = f + 1 := ⟨fuel - 1, by omega⟩
    simp only [ListPath.tokens, List.cons_append, List.append_assoc, List.length_cons,
      List.length_append] at hf hpos ⊢
    cases comma
    · simp only [optComma, Bool.false_eq_true, if_false, List.nil_append, List.length_nil] at hf hpos ⊢
      have hpos1 : t.type = .COMMA → lastType (ScalarKind.type kind) more.tokens = .LBRACKET ∨
          lastType (ScalarKind.type kind) more.tokens = .COMMA := hpos
      obtain ⟨h, ts, hts, hne⟩ := path_tokens_head more (ScalarKind.type kind) t rest
        (by cases kind <;> simp [ScalarKind.type]) hpos1
      rw [hts, parse_list_loop_scalar _ _ _ _ _ (scalarKind_list kind) hne, ← hts]
      exact ih _ t rest _ f hbad hpos1 (by simp only [List.length_append, List.length_cons]; omega)
    · simp only [optComma, if_true, List.singleton_append, List.length_cons, List.length_nil] at hf hpos ⊢
      rw [parse_list_loop_scalar_comma _ _ _ _ _ (scalarKind_list kind) rfl]
      exact ih .COMMA t rest _ f hbad hpos
        (by simp only [List.length_append, List.length_cons]; omega)
  | nested inner comma more ih =>
    intro prev t rest acc fuel hbad hpos hf
    obtain ⟨f, rfl⟩ : ∃ f, fuel = f + 1 := ⟨fuel - 1, by omega⟩
    simp only [ListPath.tokens, List.cons_append, List.append_assoc, List.length_cons,
      List.length_append] at hf ⊢
    have hpos0 : t.type = .COMMA →
        lastType .RBRACKET (optComma comma ++ more.tokens) = .LBRACKET ∨
        lastType .RBRACKET (optComma comma ++ more.tokens) = .COMMA := by
      intro hc
      have := hpos hc
      simp only [ListPath.tokens, lastType_cons_append] at this
      rw [lastType_append] at this
      exact this
    have hin := parse_list_items inner f (optComma comma ++ (more.tokens ++ t :: rest)) (by omega)
    cases comma
    · simp only [optComma, Bool.false_eq_true, if_false, List.nil_append, List.length_nil] at hf hpos0 hin ⊢
      obtain ⟨h, ts, hts, hne⟩ := path_tokens_head more .RBRACKET t rest
        (by decide) hpos0
      rw [hts] at hin ⊢
      rw [parse_list_loop_nested _ _ _ _ _ _ _ rfl hin hne, ← hts]
      exact ih _ t rest _ f hbad hpos0 (by simp only [List.length_append, List.length_cons]; omega)
    · simp only [optComma, if_true, List.singleton_append, List.length_cons, List.length_nil] at hf hpos0 hin ⊢
      rw [parse_list_loop_nested_comma _ _ _ _ _ _ _ rfl hin rfl]
      exact ih .COMMA t rest _ f hbad hpos0
        (by simp only [List.length_append, List.length_cons]; omega)
  | enter more ih =>
    intro prev t rest acc fuel hbad hpos hf
    obtain ⟨f, rfl⟩ : ∃ f, fuel = f + 1 := ⟨fuel - 1, by omega⟩
    simp only [ListPath.tokens, List.cons_append, List.length_cons, List.length_append] at hf ⊢
    obtain ⟨g, rfl⟩ : ∃ g, f = g + 1 := ⟨f - 1, by omega⟩
    have hpos1 : t.type = .COMMA → lastType .LBRACKET more.tokens = .LBRACKET ∨
        lastType .LBRACKET more.tokens = .COMMA := hpos
    have hrec := ih .LBRACKET t rest [] g hbad hpos1
      (by simp only [List.length_append, List.length_cons]; omega)
    exact parse_list_loop_nested_error _ _ _ _ _ rfl
      (parse_list_error_of_loop g lbracketTok _ _ hrec)

end Parser

namespace Parser

open Grammar

theorem parse_value_path (vp : ValuePath) : ∀ (t : Token) (rest : List Token) (fuel : Nat),
    (t.type = .LBRACE ∨ t.type = .COMMA) →
    (t.type = .COMMA → lastType .LBRACKET vp.listPath.tokens = .LBRACKET ∨
      lastType .LBRACKET vp.listPath.tokens = .COMMA) →
    2 * (vp.tokens ++ t :: rest).length + 1 ≤ fuel →
    parse_value fuel (vp.tokens ++ t :: rest) = .error .listExpectedValue := by
  induction vp with
  | list p =>
    intro t rest fuel hbad hpos hf
    simp only [ValuePath.tokens, List.cons_append, List.length_cons] at hf ⊢
    obtain ⟨g, rfl⟩ : ∃ g, fuel = g + 1 + 1 := ⟨fuel - 2, by omega⟩
    rw [parse_value_list _ _ _ rfl]
    exact parse_list_error_of_loop g lbracketTok _ _
      (parse_list_loop_path p .LBRACKET t rest [] g hbad hpos (by omega))
  | block before key more ih =>
    intro t rest fuel hbad hpos hf
    simp only [ValuePath.tokens, List.cons_append, List.append_assoc, List.length_cons,
      List.length_append] at hf ⊢
    obtain ⟨l, n, _, hn, _, _, hblk⟩ := parseLoop_trace _ before.tokens [] _ (parse_tree before)
    obtain ⟨g, hg⟩ : ∃ g, fuel = (n + (g + 1)) + 1 + 1 := ⟨fuel - n - 3, by omega⟩
    subst hg
    rw [parse_value_block _ _ _ rfl]
    apply parse_block_error_of_loop
    rw [hblk _ _ _ (by omega)]
    apply parse_block_loop_assign_error _ _ _ _ _ _ rfl rfl
    exact ih t rest g hbad hpos (by simp only [List.length_append, List.length_cons]; omega)

/-- The whole parse fails when a `{` or a misplaced comma stands where
`parse_list` expects an item. -/
theorem parse_path (doc : Assignments) (key : Str) (vp : ValuePath) (t : Token)
    (rest : List Token) (hbad : t.type = .LBRACE ∨ t.type = .COMMA)
    (hpos : t.type = .COMMA → lastType .LBRACKET vp.listPath.tokens = .LBRACKET ∨
      lastType .LBRACKET vp.listPath.tokens = .COMMA) :
    parse (doc.tokens ++ ⟨.IDENTIFIER, key⟩ :: equalsTok :: (vp.tokens ++ t :: rest)) =
      .error .listExpectedValue := by
  obtain ⟨l, n, _, hn, _, htop, _⟩ := parseLoop_trace _ doc.tokens [] _ (parse_tree doc)
  obtain ⟨g, hg⟩ : ∃ g, (doc.tokens ++ ⟨.IDENTIFIER, key⟩ :: equalsTok ::
      (vp.tokens ++ t :: rest)).length + 1 = n + (g + 1) :=
    ⟨(doc.tokens ++ ⟨.IDENTIFIER, key⟩ :: equalsTok :: (vp.tokens ++ t :: rest)).length - n, by
      simp only [List.length_append, List.length_cons]; omega⟩
  unfold parse
  rw [hg, htop]
  exact parseLoop_assign_error _ _ _ _ _ _ rfl rfl
    (parse_value_path vp t rest _ hbad hpos (by omega))

theorem setLastComma_tokens (items : Items) (h : items.endsPlain = true) :
    items.setLastComma.tokens = items.tokens ++ [commaTok] := by
  induction items with
  | nil => simp [Items.endsPlain] at h
  | scalar kind text comma tail ih =>
    cases tail with
    | nil =>
      simp only [Items.endsPlain, Bool.not_eq_true'] at h
      simp [Items.setLastComma, Items.tokens, optComma, h]
    | scalar k2 t2 c2 r2 =>
      simp only [Items.endsPlain] at h
      simp only [Items.setLastComma, Items.tokens, List.cons_append, List.append_assoc] at ih ⊢
      rw [ih h]
    | nested i2 c2 r2 =>
      simp only [Items.endsPlain] at h
      simp only [Items.setLastComma, Items.tokens, List.cons_append, List.append_assoc] at ih ⊢
      rw [ih h]
  | nested inner comma tail _ ih =>
    cases tail with
    | nil =>
      simp only [Items.endsPlain, Bool.not_eq_true'] at h
      simp [Items.setLastComma, Items.tokens, optComma, h]
    | scalar k2 t2 c2 r2 =>
      simp only [Items.endsPlain] at h
      simp only [Items.setLastComma, Items.tokens, List.cons_append, List.append_assoc] at ih ⊢
      rw [ih h]
    | nested i2 c2 r2 =>
      simp only [Items.endsPlain] at h
      simp only [Items.setLastComma, Items.tokens, List.cons_append, List.append_assoc] at ih ⊢
      rw [ih h]

theorem setLastComma_values (items : Items) : items.setLastComma.values = items.values := by
  induction items with
  | nil => rfl
  | scalar kind text comma tail ih =>
    cases tail <;> simp only [Items.setLastComma, Items.values] at ih ⊢ <;> rw [ih]
  | nested inner comma tail _ ih =>
    cases tail <;> simp only [Items.setLastComma, Items.values] at ih ⊢ <;> rw [ih]

end Parser


/-! ## The parser accepts what the grammar of the specification derives -/

namespace SpecGrammar

open Parser

theorem derives_accepts {s : Sym} {ts : List Token} (h : Derives s ts) : Accepts s ts := by
  induction h with
  | document_nil =>
    refine ⟨?_, ?_⟩
    · intro ast fuel hf
      obtain ⟨f, rfl⟩ : ∃ f, fuel = f + 1 := ⟨fuel - 1, by omega⟩
      exact ⟨ast, rfl⟩
    · intro rb rest m fuel hrb hf
      obtain ⟨f, rfl⟩ : ∃ f, fuel = f + 1 := ⟨fuel - 1, by omega⟩
      exact ⟨m, parse_block_loop_rbrace f rb rest m hrb⟩
  | @document_cons a rest _ _ iha ihr =>
    obtain ⟨k, e, v, rfl, hk, he, hv⟩ := iha
    obtain ⟨htop, hblk⟩ := ihr
    refine ⟨?_, ?_⟩
    · intro ast fuel hf
      simp only [List.cons_append, List.length_cons, List.length_append] at hf ⊢
      obtain ⟨f, rfl⟩ : ∃ f, fuel = f + 1 := ⟨fuel - 1, by omega⟩
      obtain ⟨val, hval⟩ := hv rest (2 * (v ++ rest).length + 2)
        (by simp only [List.length_append]; omega)
      rw [parseLoop_assign f k e _ _ ast val hk he hval]
      exact htop _ f (by omega)
    · intro rb rest1 m fuel hrb hf
      simp only [List.cons_append, List.append_assoc, List.length_cons, List.length_append] at hf ⊢
      obtain ⟨f, rfl⟩ : ∃ f, fuel = f + 1 := ⟨fuel - 1, by omega⟩
      obtain ⟨val, hval⟩ := hv (rest ++ rb :: rest1) f (by omega)
      rw [parse_block_loop_assign f k e _ _ m val hk he hval]
      exact hblk rb rest1 _ f hrb (by omega)
  | @assignment k e v hk he _ ihv => exact ⟨k, e, v, rfl, hk, he, ihv⟩
  | @value_identifier t ht =>
    intro rest fuel hf
    obtain ⟨f, rfl⟩ : ∃ f, fuel = f + 1 := ⟨fuel - 1, by omega⟩
    exact ⟨_, parse_value_scalar f t rest (Or.inl ht)⟩
  | @value_string t ht =>
    intro rest fuel hf
    obtain ⟨f, rfl⟩ : ∃ f, fuel = f + 1 := ⟨fuel - 1, by omega⟩
    exact ⟨_, parse_value_scalar f t rest (Or.inr (Or.inl ht))⟩
  | @value_number t ht =>
    intro rest fuel hf
    obtain ⟨f, rfl⟩ : ∃ f, fuel = f + 1 := ⟨fuel - 1, by omega⟩
    exact ⟨_, parse_value_scalar f t rest (Or.inr (Or.inr ht))⟩
  | @value_block ts _ ih =>
    obtain ⟨_, lb, tl, rfl, hlb, hb⟩ := ih
    intro rest fuel hf
    obtain ⟨f, rfl⟩ : ∃ f, fuel = f + 1 := ⟨fuel - 1, by omega⟩
    rw [List.cons_append, parse_value_block _ _ _ hlb]
    exact hb rest f (by omega)
  | @value_list ts _ ih =>
    obtain ⟨lb, tl, rfl, hlb, hl⟩ := ih
    intro rest fuel hf
    obtain ⟨f, rfl⟩ : ∃ f, fuel = f + 1 := ⟨fuel - 1, by omega⟩
    rw [List.cons_append, parse_value_list _ _ _ hlb]
    exact hl rest f (by omega)
  | @block lb rb body hlb hrb _ ih =>
    refine ⟨by simp, lb, _, rfl, hlb, ?_⟩
    intro rest fuel hf
    simp only [List.cons_append, List.append_assoc, List.singleton_append, List.length_cons,
      List.length_append, List.length_nil] at hf ⊢
    obtain ⟨f, rfl⟩ : ∃ f, fuel = f + 1 := ⟨fuel - 1, by omega⟩
    obtain ⟨m1, hm⟩ := ih.2 rb rest [] f hrb (by omega)
    exact ⟨_, parse_block_of_loop f lb rb _ rest m1 hm⟩
  | @list_empty lb rb hlb hrb =>
    refine ⟨lb, _, rfl, hlb, ?_⟩
    intro rest fuel hf
    simp only [List.cons_append, List.nil_append, List.length_cons, List.length_nil] at hf ⊢
    obtain ⟨f, rfl⟩ : ∃ f, fuel = f + 1 + 1 := ⟨fuel - 2, by omega⟩
    exact ⟨_, parse_list_of_loop (f + 1) lb rb _ rest []
      (parse_list_loop_rbracket f rb rest [] hrb)⟩
  | @list_items lb rb its hlb hrb _ ih =>
    refine ⟨lb, _, rfl, hlb, ?_⟩
    intro rest fuel hf
    simp only [List.cons_append, List.append_assoc, List.singleton_append, List.length_cons,
      List.length_append, List.length_nil] at hf ⊢
    obtain ⟨f, rfl⟩ : ∃ f, fuel = f + 1 := ⟨fuel - 1, by omega⟩
    obtain ⟨c, hc⟩ := ih rb rest [] f hrb (by omega)
    exact ⟨_, parse_list_of_loop f lb rb _ rest c hc⟩
  | @items_one it _ ih =>
    obtain ⟨hlen, hstep⟩ := ih
    intro rb rest acc fuel hrb hf
    obtain ⟨f, rfl⟩ : ∃ f, fuel = f + 1 + 1 := ⟨fuel - 2, by omega⟩
    obtain ⟨v, h1, _⟩ := hstep (f + 1) rb rest acc (by omega)
    rw [h1 (by rw [hrb]; decide)]
    exact ⟨_, parse_list_loop_rbracket f rb rest _ hrb⟩
  | @items_cons it more c _ hc _ ihit ihmore =>
    obtain ⟨hlen, hstep⟩ := ihit
    intro rb rest acc fuel hrb hf
    simp only [List.append_assoc, List.cons_append, List.length_append, List.length_cons] at hf ⊢
    obtain ⟨f, rfl⟩ : ∃ f, fuel = f + 1 := ⟨fuel - 1, by omega⟩
    obtain ⟨v, _, h2⟩ := hstep f c (more ++ rb :: rest) acc (by omega)
    rw [h2 hc]
    exact ihmore rb rest _ f hrb (by omega)
  | @listitem_identifier t ht =>
    refine ⟨by simp, ?_⟩
    intro fuel nxt rest acc _
    exact ⟨t.value, fun hn => parse_list_loop_scalar fuel t nxt rest acc (Or.inl ht) hn,
      fun hc => parse_list_loop_scalar_comma fuel t nxt rest acc (Or.inl ht) hc⟩
  | @listitem_string t ht =>
    refine ⟨by simp, ?_⟩
    intro fuel nxt rest acc _
    exact ⟨t.value,
      fun hn => parse_list_loop_scalar fuel t nxt rest acc (Or.inr (Or.inr ht)) hn,
      fun hc => parse_list_loop_scalar_comma fuel t nxt rest acc (Or.inr (Or.inr ht)) hc⟩
  | @listitem_number t ht =>
    refine ⟨by simp, ?_⟩
    intro fuel nxt rest acc _
    exact ⟨t.value,
      fun hn => parse_list_loop_scalar fuel t nxt rest acc (Or.inr (Or.inl ht)) hn,
      fun hc => parse_list_loop_scalar_comma fuel t nxt rest acc (Or.inr (Or.inl ht)) hc⟩
  | @listitem_list ts _ ih =>
    obtain ⟨lb, tl, rfl, hlb, hl⟩ := ih
    refine ⟨by simp, ?_⟩
    intro fuel nxt rest acc hf
    obtain ⟨val, hval⟩ := hl (nxt :: rest) fuel hf
    rw [List.cons_append] at hval
    exact ⟨val,
      fun hn => by rw [List.cons_append]; exact parse_list_loop_nested fuel lb nxt _ rest acc val hlb hval hn,
      fun hc => by rw [List.cons_append]; exact parse_list_loop_nested_comma fuel lb nxt _ rest acc val hlb hval hc⟩

theorem parse_derived (ts : List Token) (h : Derives .document ts) :
    ∃ d, parse ts = .ok d :=
  (derives_accepts h).1 [] _ (Nat.lt_succ_self _)

theorem derives_splits {s : Sym} {ts : List Token} (h : Derives s ts) : Splits s ts := by
  induction h with
  | document_nil => exact ⟨[], rfl, fun r hr => absurd hr (List.not_mem_nil r)⟩
  | @document_cons a rest _ _ iha ihr =>
    obtain ⟨r, rfl, hr⟩ := iha
    obtain ⟨rs, rfl, hrs⟩ := ihr
    refine ⟨r :: rs, rfl, ?_⟩
    intro x hx
    rcases List.mem_cons.mp hx with e | e
    · rw [e]
      exact hr
    · exact hrs x e
  | @assignment k e v hk he hv _ =>
    obtain ⟨val, hval⟩ := derives_accepts hv [] (2 * v.length + 1) (Nat.le_refl _)
    rw [List.append_nil] at hval
    exact ⟨⟨k, e, v, val⟩, rfl, hk, he, hv, hval⟩
  | _ => exact True.intro

theorem readings_length : ∀ (rs : List Reading),
    rs.length ≤ ((rs.map Reading.tokens).flatten).length
  | [] => Nat.le_refl _
  | r :: rs => by
    have h := readings_length rs
    simp only [List.map_cons, List.flatten_cons, Reading.tokens, List.cons_append,
      List.length_cons, List.length_append]
    omega

/-- The loop of `parse` takes one iteration for each assignment and stands
after the last of them with exactly the tokens that follow. -/
theorem readings_steps : ∀ (rs : List Reading), (∀ r ∈ rs, r.Valid) →
    ∀ (rest : List Token) (ast : AstBlock) (fuel : Nat),
    parseLoop (rs.length + fuel) ((rs.map Reading.tokens).flatten ++ rest) ast =
      parseLoop fuel rest (mapAssignAll ast (rs.map Reading.pair))
  | [], _, rest, ast, fuel => by
    simp only [List.length_nil, Nat.zero_add, List.map_nil, List.flatten_nil, List.nil_append]
    rfl
  | r :: rs, h, rest, ast, fuel => by
    obtain ⟨hk, he, _, hv⟩ := h r (List.mem_cons_self _ _)
    have hv1 := parse_value_extend _ r.value r.result [] hv
      (2 * (r.value ++ ((rs.map Reading.tokens).flatten ++ rest)).length + 2)
      (by simp only [List.length_append]; omega) ((rs.map Reading.tokens).flatten ++ rest)
    rw [List.nil_append] at hv1
    have e : (r :: rs).length + fuel = (rs.length + fuel) + 1 := by
      simp only [List.length_cons]
      omega
    simp only [List.map_cons, List.flatten_cons, Reading.tokens, List.cons_append,
      List.append_assoc]
    rw [e, parseLoop_assign _ _ _ _ _ _ _ hk he hv1]
    exact readings_steps rs (fun x hx => h x (List.mem_cons_of_mem _ hx)) rest _ fuel

theorem parse_readings (rs : List Reading) (h : ∀ r ∈ rs, r.Valid) :
    parse (rs.map Reading.tokens).flatten = .ok (mapAssignAll [] (rs.map Reading.pair)) := by
  have hlen := readings_length rs
  obtain ⟨g, hg⟩ : ∃ g, ((rs.map Reading.tokens).flatten).length + 1 = rs.length + (g + 1) :=
    ⟨((rs.map Reading.tokens).flatten).length - rs.length, by omega⟩
  have hs := readings_steps rs h [] [] (g + 1)
  rw [List.append_nil] at hs
  unfold parse
  rw [hg, hs]
  rfl

theorem parse_readings_then (rs : List Reading) (h : ∀ r ∈ rs, r.Valid) (t : Token)
    (rest : List Token) (ht : t.type ≠ .IDENTIFIER) :
    parse ((rs.map Reading.tokens).flatten ++ t :: rest) = .error .expectedIdentifier := by
  have hlen := readings_length rs
  obtain ⟨g, hg⟩ : ∃ g, ((rs.map Reading.tokens).flatten ++ t :: rest).length + 1 =
      rs.length + (g + 1) :=
    ⟨((rs.map Reading.tokens).flatten ++ t :: rest).length - rs.length, by
      simp only [List.length_append, List.length_cons]
      omega⟩
  unfold parse
  rw [hg, readings_steps rs h (t :: rest) [] (g + 1)]
  simp [parseLoop, peek_token, ht]

end SpecGrammar


/-! ## Runs on a truncated input -/

namespace Parser

mutual

theorem parse_list_truncate : ∀ (fuel : Nat) (p q : List Token) (v : AstValue) (r : List Token),
    parse_list fuel (p ++ q) = .ok (v, r) → ∀ (fuel1 : Nat), 1 ≤ fuel1 → 2 * p.length ≤ fuel1 →
    (∃ r1, r = r1 ++ q ∧ parse_list fuel1 p = .ok (v, r1)) ∨
      parse_list fuel1 p = .error .unexpectedEnd
  | 0, _, _, _, _, h, _, _, _ => by simp [parse_list] at h
  | f + 1, p, q, v, r, h, fuel1, hf1, hf => by
    obtain ⟨g, rfl⟩ : ∃ g, fuel1 = g + 1 := ⟨fuel1 - 1, by omega⟩
    cases p with
    | nil => exact Or.inr (by simp [parse_list, get_token])
    | cons t p0 =>
      simp only [List.length_cons] at hf
      rw [List.cons_append] at h
      cases hl : parse_list_loop f (p0 ++ q) [] with
      | error e => simp [parse_list, get_token, hl] at h
      | outOfFuel => simp [parse_list, get_token, hl] at h
      | ok res =>
        obtain ⟨content, ts1⟩ := res
        cases ts1 with
        | nil => simp [parse_list, get_token, hl] at h
        | cons rb ts2 =>
          rw [parse_list_of_loop f t rb _ ts2 content hl] at h
          cases h
          rcases parse_list_loop_truncate f p0 q [] content _ hl g (by omega) with
            ⟨r1, hr1, hok⟩ | herr
          · cases r1 with
            | nil => exact Or.inr (by simp [parse_list, get_token, hok])
            | cons rb1 r2 =>
              rw [List.cons_append] at hr1
              cases hr1
              exact Or.inl ⟨r2, rfl, parse_list_of_loop g t _ p0 r2 content hok⟩
          · exact Or.inr (parse_list_error_of_loop g t p0 _ herr)

theorem parse_list_loop_truncate : ∀ (fuel : Nat) (p q : List Token) (acc c : AstList)
    (r : List Token), parse_list_loop fuel (p ++ q) acc = .ok (c, r) →
    ∀ (fuel1 : Nat), 2 * p.length + 1 ≤ fuel1 →
    (∃ r1, r = r1 ++ q ∧ parse_list_loop fuel1 p acc = .ok (c, r1)) ∨
      parse_list_loop fuel1 p acc = .error .unexpectedEnd
  | 0, _, _, _, _, _, h, _, _ => by simp [parse_list_loop] at h
  | f + 1, p, q, acc, c, r, h, fuel1, hf => by
    obtain ⟨g, rfl⟩ : ∃ g, fuel1 = g + 1 := ⟨fuel1 - 1, by omega⟩
    cases p with
    | nil => exact Or.inr (by simp [parse_list_loop, peek_token])
    | cons t p0 =>
      simp only [List.length_cons] at hf
      rw [List.cons_append] at h
      by_cases h1 : t.type = .RBRACKET
      · rw [parse_list_loop_rbracket _ _ _ _ h1] at h
        cases h
        exact Or.inl ⟨t :: p0, rfl, parse_list_loop_rbracket _ _ _ _ h1⟩
      · by_cases h2 : t.type = .IDENTIFIER ∨ t.type = .NUMBER ∨ t.type = .STRING
        · cases p0 with
          | nil => exact Or.inr (by simp [parse_list_loop, peek_token, get_token, h1, h2])
          | cons nxt p1 =>
            simp only [List.length_cons] at hf
            rw [List.cons_append] at h
            by_cases hc : nxt.type = .COMMA
            · rw [parse_list_loop_scalar_comma _ _ _ _ _ h2 hc] at h
              rw [parse_list_loop_scalar_comma _ _ _ _ _ h2 hc]
              exact parse_list_loop_truncate f p1 q _ c r h g (by omega)
            · rw [parse_list_loop_scalar _ _ _ _ _ h2 hc] at h
              rw [parse_list_loop_scalar _ _ _ _ _ h2 hc]
              exact parse_list_loop_truncate f (nxt :: p1) q _ c r h g
                (by simp only [List.length_cons]; omega)
        · by_cases h3 : t.type = .LBRACKET
          · cases hp : parse_list f (t :: (p0 ++ q)) with
            | error e => simp [parse_list_loop, peek_token, h1, h2, h3, hp] at h
            | outOfFuel => simp [parse_list_loop, peek_token, h1, h2, h3, hp] at h
            | ok res =>
              obtain ⟨item, ts1⟩ := res
              cases ts1 with
              | nil => simp [parse_list_loop, peek_token, h1, h2, h3, hp] at h
              | cons nxt ts2 =>
                rcases parse_list_truncate f (t :: p0) q item (nxt :: ts2) hp g (by omega)
                    (by simp only [List.length_cons]; omega) with ⟨r1, hr1, hok⟩ | herr
                · have hlen := parse_list_length g (t :: p0) item r1 hok
                  simp only [List.length_cons] at hlen
                  cases r1 with
                  | nil =>
                    exact Or.inr (by simp [parse_list_loop, peek_token, h1, h2, h3, hok])
                  | cons nxt1 r2 =>
                    rw [List.cons_append] at hr1
                    cases hr1
                    simp only [List.length_cons] at hlen
                    by_cases hc : nxt.type = .COMMA
                    · rw [parse_list_loop_nested_comma _ _ _ _ _ _ _ h3 hp hc] at h
                      rw [parse_list_loop_nested_comma _ _ _ _ _ _ _ h3 hok hc]
                      exact parse_list_loop_truncate f r2 q _ c r h g (by omega)
                    · rw [parse_list_loop_nested _ _ _ _ _ _ _ h3 hp hc] at h
                      rw [parse_list_loop_nested _ _ _ _ _ _ _ h3 hok hc]
                      exact parse_list_loop_truncate f (nxt :: r2) q _ c r h g
                        (by simp only [List.length_cons]; omega)
                · exact Or.inr (parse_list_loop_nested_error _ _ _ _ _ h3 herr)
          · simp [parse_list_loop, peek_token, h1, h2, h3] at h

end

mutual

theorem parse_value_truncate : ∀ (fuel : Nat) (p q : List Token) (v : AstValue)
    (r : List Token), parse_value fuel (p ++ q) = .ok (v, r) →
    ∀ (fuel1 : Nat), 2 * p.length + 1 ≤ fuel1 →
    (∃ r1, r = r1 ++ q ∧ parse_value fuel1 p = .ok (v, r1)) ∨
      parse_value fuel1 p = .error .unexpectedEnd
  | 0, _, _, _, _, h, _, _ => by simp [parse_value] at h
  | f + 1, p, q, v, r, h, fuel1, hf => by
    obtain ⟨g, rfl⟩ : ∃ g, fuel1 = g + 1 := ⟨fuel1 - 1, by omega⟩
    cases p with
    | nil => exact Or.inr (by simp [parse_value, peek_token])
    | cons t p0 =>
      simp only [List.length_cons] at hf
      rw [List.cons_append] at h
      by_cases h1 : t.type = .IDENTIFIER ∨ t.type = .STRING ∨ t.type = .NUMBER
      · rw [parse_value_scalar _ _ _ h1] at h
        cases h
        exact Or.inl ⟨p0, rfl, parse_value_scalar _ _ _ h1⟩
      · by_cases h2 : t.type = .LBRACE
        · rw [parse_value_block _ _ _ h2] at h
          rw [parse_value_block _ _ _ h2]
          exact parse_block_truncate f (t :: p0) q v r h g (by omega)
            (by simp only [List.length_cons]; omega)
        · by_cases h3 : t.type = .LBRACKET
          · rw [parse_value_list _ _ _ h3] at h
            rw [parse_value_list _ _ _ h3]
            exact parse_list_truncate f (t :: p0) q v r h g (by omega)
              (by simp only [List.length_cons]; omega)
          · simp [parse_value, peek_token, h1, h2, h3] at h

theorem parse_block_truncate : ∀ (fuel : Nat) (p q : List Token) (v : AstValue)
    (r : List Token), parse_block fuel (p ++ q) = .ok (v, r) →
    ∀ (fuel1 : Nat), 1 ≤ fuel1 → 2 * p.length ≤ fuel1 →
    (∃ r1, r = r1 ++ q ∧ parse_block fuel1 p = .ok (v, r1)) ∨
      parse_block fuel1 p = .error .unexpectedEnd
  | 0, _, _, _, _, h, _, _, _ => by simp [parse_block] at h
  | f + 1, p, q, v, r, h, fuel1, hf1, hf => by
    obtain ⟨g, rfl⟩ : ∃ g, fuel1 = g + 1 := ⟨fuel1 - 1, by omega⟩
    cases p with
    | nil => exact Or.inr (by simp [parse_block, get_token])
    | cons t p0 =>
      simp only [List.length_cons] at hf
      rw [List.cons_append] at h
      cases hl : parse_block_loop f (p0 ++ q) [] with
      | error e => simp [parse_block, get_token, hl] at h
      | outOfFuel => simp [parse_block, get_token, hl] at h
      | ok res =>
        obtain ⟨content, ts1⟩ := res
        cases ts1 with
        | nil => simp [parse_block, get_token, hl] at h
        | cons rb ts2 =>
          rw [parse_block_of_loop f t rb _ ts2 content hl] at h
          cases h
          rcases parse_block_loop_truncate f p0 q [] content _ hl g (by omega) with
            ⟨r1, hr1, hok⟩ | herr
          · cases r1 with
            | nil => exact Or.inr (by simp [parse_block, get_token, hok])
            | cons rb1 r2 =>
              rw [List.cons_append] at hr1
              cases hr1
              exact Or.inl ⟨r2, rfl, parse_block_of_loop g t _ p0 r2 content hok⟩
          · exact Or.inr (parse_block_error_of_loop g t p0 _ herr)

theorem parse_block_loop_truncate : ∀ (fuel : Nat) (p q : List Token) (acc c : AstBlock)
    (r : List Token), parse_block_loop fuel (p ++ q) acc = .ok (c, r) →
    ∀ (fuel1 : Nat), 2 * p.length + 1 ≤ fuel1 →
    (∃ r1, r = r1 ++ q ∧ parse_block_loop fuel1 p acc = .ok (c, r1)) ∨
      parse_block_loop fuel1 p acc = .error .unexpectedEnd
  | 0, _, _, _, _, _, h, _, _ => by simp [parse_block_loop] at h
  | f + 1, p, q, acc, c, r, h, fuel1, hf => by
    obtain ⟨g, rfl⟩ : ∃ g, fuel1 = g + 1 := ⟨fuel1 - 1, by omega⟩
    cases p with
    | nil => exact Or.inr (by simp [parse_block_loop, peek_token])
    | cons t p0 =>
      simp only [List.length_cons] at hf
      rw [List.cons_append] at h
      by_cases h1 : t.type = .RBRACE
      · rw [parse_block_loop_rbrace _ _ _ _ h1] at h
        cases h
        exact Or.inl ⟨t :: p0, rfl, parse_block_loop_rbrace _ _ _ _ h1⟩
      · by_cases h2 : t.type = .IDENTIFIER
        · cases p0 with
          | nil => exact Or.inr (by simp [parse_block_loop, peek_token, get_token, h1, h2])
          | cons e p1 =>
            simp only [List.length_cons] at hf
            rw [List.cons_append] at h
            by_cases h3 : e.type = .EQUALS
            · cases hp : parse_value f (p1 ++ q) with
              | error e => simp [parse_block_loop, peek_token, get_token, h1, h2, h3, hp] at h
              | outOfFuel => simp [parse_block_loop, peek_token, get_token, h1, h2, h3, hp] at h
              | ok res =>
                obtain ⟨value, ts2⟩ := res
                rw [parse_block_loop_assign _ _ _ _ _ _ _ h2 h3 hp] at h
                rcases parse_value_truncate f p1 q value ts2 hp g (by omega) with
                  ⟨r1, hr1, hok⟩ | herr
                · have hlen := parse_value_length g p1 value r1 hok
                  subst hr1
                  rw [parse_block_loop_assign _ _ _ _ _ _ _ h2 h3 hok]
                  exact parse_block_loop_truncate f r1 q _ c r h g (by omega)
                · exact Or.inr (parse_block_loop_assign_error _ _ _ _ _ _ h2 h3 herr)
            · simp [parse_block_loop, peek_token, get_token, h1, h2, h3] at h
        · simp [parse_block_loop, peek_token, h1, h2] at h

end

theorem parseLoop_truncate : ∀ (fuel : Nat) (p q : List Token) (ast d : AstBlock),
    parseLoop fuel (p ++ q) ast = .ok d → ∀ (fuel1 : Nat), p.length < fuel1 →
    (∃ d1, parseLoop fuel1 p ast = .ok d1) ∨ parseLoop fuel1 p ast = .error .unexpectedEnd
  | 0, _, _, _, _, h, _, _ => by simp [parseLoop] at h
  | f + 1, p, q, ast, d, h, fuel1, hf => by
    obtain ⟨g, rfl⟩ : ∃ g, fuel1 = g + 1 := ⟨fuel1 - 1, by omega⟩
    cases p with
    | nil => exact Or.inl ⟨ast, rfl⟩
    | cons t p0 =>
      simp only [List.length_cons] at hf
      rw [List.cons_append] at h
      by_cases h2 : t.type = .IDENTIFIER
      · cases p0 with
        | nil => exact Or.inr (by simp [parseLoop, peek_token, get_token, h2])
        | cons e p1 =>
          simp only [List.length_cons] at hf
          rw [List.cons_append] at h
          by_cases h3 : e.type = .EQUALS
          · cases hp : parse_value (2 * (p1 ++ q).length + 2) (p1 ++ q) with
            | error e =>
              rw [parseLoop_assign_error _ _ _ _ _ _ h2 h3 hp] at h
              cases h
            | outOfFuel => exact absurd hp (parse_value_ne_outOfFuel _ _ (by omega))
            | ok res =>
              obtain ⟨value, ts2⟩ := res
              rw [parseLoop_assign _ _ _ _ _ _ _ h2 h3 hp] at h
              rcases parse_value_truncate _ p1 q value ts2 hp (2 * p1.length + 2) (by omega) with
                ⟨r1, hr1, hok⟩ | herr
              · have hlen := parse_value_length _ p1 value r1 hok
                subst hr1
                rw [parseLoop_assign _ _ _ _ _ _ _ h2 h3 hok]
                exact parseLoop_truncate f r1 q _ d h g (by omega)
              · exact Or.inr (parseLoop_assign_error _ _ _ _ _ _ h2 h3 herr)
          · simp [parseLoop, peek_token, get_token, h2, h3] at h
      · simp [parseLoop, peek_token, h2] at h

end Parser


/-! ## Lists of identifiers and numbers can be read back from their value -/

namespace Grammar

open Parser Lexer

theorem serialize_list_content (items : Items) :
    serialize_list items.values = '[' :: (items.content ++ [']']) := rfl

theorem content_scalar (kind : ScalarKind) (text : Str) (comma : Bool) (rest : Items) :
    (Items.scalar kind text comma rest).content = text ++ ',' :: rest.content := by
  simp [Items.content, Items.values]

theorem content_nested (inner : Items) (comma : Bool) (rest : Items) :
    (Items.nested inner comma rest).content =
      '[' :: (inner.content ++ ']' :: ',' :: rest.content) := by
  simp [Items.content, Items.values, serialize_list]

/-- A character of an identifier or of a number. -/
theorem wordChar_ne {c : Char} (h : identChar c = true ∨ numberChar c = true) :
    c ≠ ',' ∧ c ≠ '[' ∧ c ≠ ']' := by
  rcases h with h | h
  · exact ⟨ne_of_class h (by decide), ne_of_class h (by decide), ne_of_class h (by decide)⟩
  · exact ⟨ne_of_class h (by decide), ne_of_class h (by decide), ne_of_class h (by decide)⟩

theorem identText_chars {text : Str} (h : isIdentText text = true) :
    ∃ c cs, text = c :: cs ∧ ∀ x ∈ text, identChar x = true := by
  cases text with
  | nil => exact absurd h (by decide)
  | cons c cs =>
    simp only [isIdentText, Bool.and_eq_true, List.all_eq_true] at h
    refine ⟨c, cs, rfl, ?_⟩
    intro x hx
    rcases List.mem_cons.mp hx with e | e
    · rw [e]; exact identStart_identChar h.1
    · exact h.2 x e

theorem numberText_chars {text : Str} (h : isNumberText text = true) :
    ∃ c cs, text = c :: cs ∧ ∀ x ∈ text, numberChar x = true := by
  cases text with
  | nil => exact absurd h (by decide)
  | cons c cs =>
    simp only [isNumberText, Bool.and_eq_true, List.all_eq_true] at h
    refine ⟨c, cs, rfl, ?_⟩
    intro x hx
    rcases List.mem_cons.mp hx with e | e
    · rw [e]; exact isdigit_numberChar h.1
    · exact h.2 x e

theorem wordText_chars {kind : ScalarKind} {text : Str} (h : wordText kind text = true) :
    ∃ c cs, text = c :: cs ∧ ∀ x ∈ text, x ≠ ',' ∧ x ≠ '[' ∧ x ≠ ']' := by
  cases kind with
  | identifier =>
    obtain ⟨c, cs, e, hall⟩ := identText_chars h
    exact ⟨c, cs, e, fun x hx => wordChar_ne (Or.inl (hall x hx))⟩
  | number =>
    obtain ⟨c, cs, e, hall⟩ := numberText_chars h
    exact ⟨c, cs, e, fun x hx => wordChar_ne (Or.inr (hall x hx))⟩
  | string => exact absurd h Bool.false_ne_true

theorem ident_number_clash {c : Char} {cs : Str} (h1 : isIdentText (c :: cs) = true)
    (h2 : isNumberText (c :: cs) = true) : False := by
  simp only [isIdentText, isNumberText, Bool.and_eq_true, Bool.or_eq_true, beq_iff_eq] at h1 h2
  rcases h1.1 with h | h
  · rw [isdigit_not_isalpha h2.1] at h
    exact Bool.false_ne_true h
  · rw [h] at h2
    exact absurd h2.1 (by decide)

theorem wordText_kind {k1 k2 : ScalarKind} {text : Str} (h1 : wordText k1 text = true)
    (h2 : wordText k2 text = true) : k1 = k2 := by
  cases text with
  | nil => cases k1 <;> exact absurd h1 (by decide)
  | cons c cs =>
    cases k1 with
    | string => exact absurd h1 Bool.false_ne_true
    | identifier =>
      cases k2 with
      | string => exact absurd h2 Bool.false_ne_true
      | identifier => rfl
      | number => exact (ident_number_clash h1 h2).elim
    | number =>
      cases k2 with
      | string => exact absurd h2 Bool.false_ne_true
      | identifier => exact (ident_number_clash h2 h1).elim
      | number => rfl

theorem split_at_separator (c : Char) : ∀ (l1 l2 r1 r2 : List Char), c ∉ l1 → c ∉ l2 →
    l1 ++ c :: r1 = l2 ++ c :: r2 → l1 = l2 ∧ r1 = r2
  | [], [], _, _, _, _, h => by
    simp only [List.nil_append, List.cons.injEq, true_and] at h
    exact ⟨rfl, h⟩
  | [], b :: l2, _, _, _, h2, h => by
    simp only [List.nil_append, List.cons_append, List.cons.injEq] at h
    exact absurd (h.1 ▸ List.mem_cons_self _ _) h2
  | a :: l1, [], _, _, h1, _, h => by
    simp only [List.nil_append, List.cons_append, List.cons.injEq] at h
    exact absurd (h.1 ▸ List.mem_cons_self _ _) h1
  | a :: l1, b :: l2, r1, r2, h1, h2, h => by
    simp only [List.cons_append, List.cons.injEq] at h
    obtain ⟨e1, e2⟩ := split_at_separator c l1 l2 r1 r2
      (fun hm => h1 (List.mem_cons_of_mem _ hm)) (fun hm => h2 (List.mem_cons_of_mem _ hm)) h.2
    exact ⟨by rw [h.1, e1], e2⟩

theorem content_injective (a : Items) : ∀ (b : Items) (r1 r2 : List Char),
    a.plain = true → b.plain = true →
    a.content ++ ']' :: r1 = b.content ++ ']' :: r2 → a.strip = b.strip ∧ r1 = r2 := by
  induction a with
  | nil =>
    intro b r1 r2 _ hb h
    cases b with
    | nil =>
      simp only [Items.content, Items.values, List.map_nil, List.flatten_nil, List.nil_append,
        List.cons.injEq, true_and] at h
      exact ⟨rfl, h⟩
    | scalar k2 t2 c2 tb =>
      simp only [Items.plain, Bool.and_eq_true] at hb
      obtain ⟨c, cs, e, hall⟩ := @wordText_chars k2 t2 hb.1
      rw [content_scalar, e] at h
      simp only [Items.content, Items.values, List.map_nil, List.flatten_nil, List.nil_append,
        List.cons_append, List.cons.injEq] at h
      exact absurd h.1.symm (hall c (e ▸ List.mem_cons_self _ _)).2.2
    | nested ib c2 tb =>
      rw [content_nested] at h
      simp only [Items.content, Items.values, List.map_nil, List.flatten_nil, List.nil_append,
        List.cons_append, List.cons.injEq] at h
      exact absurd h.1 (by decide)
  | scalar k1 t1 c1 ta ih =>
    intro b r1 r2 ha hb h
    simp only [Items.plain, Bool.and_eq_true] at ha
    obtain ⟨c, cs, e, hall⟩ := @wordText_chars k1 t1 ha.1
    rw [content_scalar] at h
    cases b with
    | nil =>
      rw [e] at h
      simp only [Items.content, Items.values, List.map_nil, List.flatten_nil, List.nil_append,
        List.cons_append, List.cons.injEq] at h
      exact absurd h.1 (hall c (e ▸ List.mem_cons_self _ _)).2.2
    | scalar k2 t2 c2 tb =>
      simp only [Items.plain, Bool.and_eq_true] at hb
      obtain ⟨c', cs', e', hall'⟩ := @wordText_chars k2 t2 hb.1
      rw [content_scalar, List.append_assoc, List.append_assoc, List.cons_append,
        List.cons_append] at h
      obtain ⟨et, er⟩ := split_at_separator ',' t1 t2 _ _
        (fun hm => (hall _ hm).1 rfl) (fun hm => (hall' _ hm).1 rfl) h
      subst et
      have ek := wordText_kind ha.1 hb.1
      subst ek
      obtain ⟨es, err⟩ := ih tb r1 r2 ha.2 hb.2 er
      exact ⟨by simp only [Items.strip, es], err⟩
    | nested ib c2 tb =>
      rw [content_nested, e] at h
      simp only [List.cons_append, List.cons.injEq] at h
      exact absurd h.1 (hall c (e ▸ List.mem_cons_self _ _)).2.1
  | nested ia c1 ta ih1 ih2 =>
    intro b r1 r2 ha hb h
    simp only [Items.plain, Bool.and_eq_true] at ha
    rw [content_nested] at h
    cases b with
    | nil =>
      simp only [Items.content, Items.values, List.map_nil, List.flatten_nil, List.nil_append,
        List.cons_append, List.cons.injEq] at h
      exact absurd h.1 (by decide)
    | scalar k2 t2 c2 tb =>
      simp only [Items.plain, Bool.and_eq_true] at hb
      obtain ⟨c', cs', e', hall'⟩ := @wordText_chars k2 t2 hb.1
      rw [content_scalar, e'] at h
      simp only [List.cons_append, List.cons.injEq] at h
      exact absurd h.1.symm (hall' c' (e' ▸ List.mem_cons_self _ _)).2.1
    | nested ib c2 tb =>
      simp only [Items.plain, Bool.and_eq_true] at hb
      rw [content_nested] at h
      simp only [List.cons_append, List.append_assoc, List.cons.injEq, true_and] at h
      obtain ⟨e1, er⟩ := ih1 ib _ _ ha.1 hb.1 h
      simp only [List.cons.injEq, true_and] at er
      obtain ⟨e2, err⟩ := ih2 tb r1 r2 ha.2 hb.2 er
      exact ⟨by simp only [Items.strip, e1, e2], err⟩

theorem written_eq_content : ∀ (items : Items), items.written = items.content
  | .nil => rfl
  | .scalar kind text comma rest => by
    rw [content_scalar, Items.written, written_eq_content rest]
  | .nested inner comma rest => by
    rw [content_nested, Items.written, written_eq_content inner, written_eq_content rest]

theorem serialize_list_written (items : Items) :
    serialize_list items.values = '[' :: (items.written ++ [']']) := by
  rw [written_eq_content, serialize_list_content]

theorem values_determine_items (a b : Items) (ha : a.plain = true) (hb : b.plain = true)
    (h : serialize_list a.values = serialize_list b.values) : a.strip = b.strip := by
  rw [serialize_list_content, serialize_list_content] at h
  simp only [List.cons.injEq, true_and] at h
  exact (content_injective a b [] [] ha hb h).1

end Grammar


/-! ## The index-based lexer agrees with the lexer on the rest of the input -/

namespace Indexed

open Lexer

theorem drop_length_takeWhile (p : Char → Bool) : ∀ (l : List Char),
    l.drop (l.takeWhile p).length = l.dropWhile p
  | [] => rfl
  | c :: l => by
    by_cases h : p c = true
    · rw [List.takeWhile_cons_of_pos h, List.dropWhile_cons_of_pos h, List.length_cons,
        List.drop_succ_cons]
      exact drop_length_takeWhile p l
    · rw [List.takeWhile_cons_of_neg h, List.dropWhile_cons_of_neg h]
      rfl

theorem take_length_takeWhile (p : Char → Bool) : ∀ (l : List Char),
    l.take (l.takeWhile p).length = l.takeWhile p
  | [] => rfl
  | c :: l => by
    by_cases h : p c = true
    · rw [List.takeWhile_cons_of_pos h, List.length_cons, List.take_succ_cons,
        take_length_takeWhile p l]
    · rw [List.takeWhile_cons_of_neg h]
      rfl

theorem length_takeWhile_le (p : Char → Bool) : ∀ (l : List Char),
    (l.takeWhile p).length ≤ l.length
  | [] => Nat.le_refl _
  | c :: l => by
    by_cases h : p c = true
    · rw [List.takeWhile_cons_of_pos h, List.length_cons, List.length_cons]
      exact Nat.succ_le_succ (length_takeWhile_le p l)
    · rw [List.takeWhile_cons_of_neg h]
      exact Nat.zero_le _

theorem charAt_lt (source : Str) (i : Nat) (h : i < source.length) :
    charAt source i = .ok (source.get ⟨i, h⟩) ∧
      source.drop i = source.get ⟨i, h⟩ :: source.drop (i + 1) := by
  constructor
  · simp only [charAt, List.getElem?_eq_getElem h, List.get_eq_getElem]
  · rw [List.get_eq_getElem]
    exact List.drop_eq_getElem_cons h

theorem charAt_ge (source : Str) (i : Nat) (h : source.length ≤ i) :
    charAt source i = .error (.index i) := by
  simp only [charAt, List.getElem?_eq_none h]

/-- The scan stops after the longest run of characters that satisfy `p`. -/
theorem scan_eq (p : Char → Bool) (source : Str) : ∀ (fuel pos : Nat),
    pos ≤ source.length → source.length - pos < fuel →
    scan p source fuel pos = .ok (pos + ((source.drop pos).takeWhile p).length)
  | 0, _, _, hf => absurd hf (Nat.not_lt_zero _)
  | fuel + 1, pos, hp, hf => by
    by_cases hlt : pos < source.length
    · obtain ⟨hc, hd⟩ := charAt_lt source pos hlt
      simp only [scan]
      rw [if_pos hlt, hc, Outcome.ok_bind, hd]
      by_cases hpc : p (source.get ⟨pos, hlt⟩) = true
      · rw [if_pos hpc, List.takeWhile_cons_of_pos hpc, List.length_cons,
          scan_eq p source fuel (pos + 1) hlt (by omega)]
        congr 1
        omega
      · rw [if_neg hpc, List.takeWhile_cons_of_neg hpc]
        rfl
    · simp only [scan]
      rw [if_neg hlt, List.drop_eq_nil_of_le (by omega)]
      rfl

theorem scan_stop_le (p : Char → Bool) (source : Str) (pos : Nat) (hp : pos ≤ source.length) :
    pos + ((source.drop pos).takeWhile p).length ≤ source.length := by
  have h := length_takeWhile_le p (source.drop pos)
  rw [List.length_drop] at h
  omega

theorem drop_stop (p : Char → Bool) (source : Str) (pos : Nat) :
    source.drop (pos + ((source.drop pos).takeWhile p).length) =
      (source.drop pos).dropWhile p := by
  rw [← List.drop_drop, drop_length_takeWhile]

theorem substr_stop (p : Char → Bool) (source : Str) (pos : Nat) (hp : pos ≤ source.length) :
    substr source pos (pos + ((source.drop pos).takeWhile p).length - pos) =
      .ok ((source.drop pos).takeWhile p) := by
  simp only [substr]
  rw [if_pos hp, Nat.add_sub_cancel_left, take_length_takeWhile]

theorem agrees_nil (bound fuel pos : Nat) (tokens : List Token) (hp : pos ≤ bound) :
    Agrees bound (Lexer.tokenizeLoop (fuel + 1) [] tokens) (.ok (tokens, pos)) := by
  simp only [Lexer.tokenizeLoop, Agrees]
  exact ⟨pos, rfl, hp⟩

theorem drop_stop_succ (p : Char → Bool) (source : Str) (pos : Nat) :
    source.drop (pos + ((source.drop pos).takeWhile p).length + 1) =
      ((source.drop pos).dropWhile p).drop 1 := by
  rw [← List.drop_drop, drop_stop]

/-- One iteration of the index-based loop at a cursor inside the source. -/
theorem indexed_step (source : Str) (fuel pos : Nat) (tokens : List Token)
    (hlt : pos < source.length)
    (ih : ∀ (next : Nat) (toks : List Token), next ≤ source.length + 1 →
      Agrees (source.length + 1) (Lexer.tokenizeLoop fuel (source.drop next) toks)
        (Indexed.tokenizeLoop source fuel next toks)) :
    Agrees (source.length + 1) (Lexer.tokenizeLoop (fuel + 1) (source.drop pos) tokens)
      (Indexed.tokenizeLoop source (fuel + 1) pos tokens) := by
  obtain ⟨hc, hd⟩ := charAt_lt source pos hlt
  generalize source.get ⟨pos, hlt⟩ = c at hc hd
  have hbody : Lexer.tokenizeLoop (fuel + 1) (source.drop pos) tokens =
      tokenizeBody (Lexer.tokenizeLoop fuel) c (source.drop (pos + 1)) tokens := by
    rw [hd, tokenizeLoop_succ_cons]
  have hple : pos ≤ source.length := Nat.le_of_lt hlt
  have hnext : ∀ toks, Agrees (source.length + 1)
      (Lexer.tokenizeLoop fuel (source.drop (pos + 1)) toks)
      (Indexed.tokenizeLoop source fuel (pos + 1) toks) :=
    fun toks => ih (pos + 1) toks (by omega)
  rw [hbody]
  simp only [Indexed.tokenizeLoop]
  rw [if_pos hlt, hc, Outcome.ok_bind]
  unfold tokenizeBody
  by_cases h1 : isspace c = true
  · rw [if_pos h1, if_pos h1]
    exact hnext tokens
  rw [if_neg h1, if_neg h1]
  by_cases h2 : c = '#'
  · rw [if_pos h2, if_pos h2, ← hd, scan_eq notNewline source _ pos hple (by omega),
      Outcome.ok_bind, ← drop_stop_succ]
    exact ih _ tokens (Nat.succ_le_succ (scan_stop_le notNewline source pos hple))
  rw [if_neg h2, if_neg h2]
  by_cases h3 : c = '"'
  · rw [if_pos h3, if_pos h3, scan_eq notQuote source _ (pos + 1) hlt (by omega),
      Outcome.ok_bind, substr_stop notQuote source (pos + 1) hlt, Outcome.ok_bind,
      ← drop_stop_succ]
    exact ih _ _ (Nat.succ_le_succ (scan_stop_le notQuote source (pos + 1) hlt))
  rw [if_neg h3, if_neg h3]
  by_cases h4 : (isalpha c || c = '_') = true
  · rw [if_pos h4, if_pos h4, ← hd, scan_eq identChar source _ pos hple (by omega),
      Outcome.ok_bind, substr_stop identChar source pos hple, Outcome.ok_bind, ← drop_stop]
    exact ih _ _ (Nat.le_succ_of_le (scan_stop_le identChar source pos hple))
  rw [if_neg h4, if_neg h4]
  by_cases h5 : isdigit c = true
  · rw [if_pos h5, if_pos h5, ← hd, scan_eq numberChar source _ pos hple (by omega),
      Outcome.ok_bind, substr_stop numberChar source pos hple, Outcome.ok_bind, ← drop_stop]
    exact ih _ _ (Nat.le_succ_of_le (scan_stop_le numberChar source pos hple))
  rw [if_neg h5, if_neg h5]
  by_cases h6 : c = '{'
  · rw [if_pos h6, if_pos h6]
    exact hnext _
  rw [if_neg h6, if_neg h6]
  by_cases h7 : c = '}'
  · rw [if_pos h7, if_pos h7]
    exact hnext _
  rw [if_neg h7, if_neg h7]
  by_cases h8 : c = '['
  · rw [if_pos h8, if_pos h8]
    exact hnext _
  rw [if_neg h8, if_neg h8]
  by_cases h9 : c = ']'
  · rw [if_pos h9, if_pos h9]
    exact hnext _
  rw [if_neg h9, if_neg h9]
  by_cases h10 : c = '='
  · rw [if_pos h10, if_pos h10]
    exact hnext _
  rw [if_neg h10, if_neg h10]
  by_cases h11 : c = ','
  · rw [if_pos h11, if_pos h11]
    exact hnext _
  rw [if_neg h11, if_neg h11]
  rfl

theorem tokenizeLoop_agrees (source : Str) : ∀ (fuel pos : Nat) (tokens : List Token),
    pos ≤ source.length + 1 →
    Agrees (source.length + 1) (Lexer.tokenizeLoop fuel (source.drop pos) tokens)
      (Indexed.tokenizeLoop source fuel pos tokens)
  | 0, _, _, _ => by
    simp only [Lexer.tokenizeLoop, Indexed.tokenizeLoop, Agrees]
  | fuel + 1, pos, tokens, hp => by
    by_cases hlt : pos < source.length
    · exact indexed_step source fuel pos tokens hlt (tokenizeLoop_agrees source fuel)
    · rw [List.drop_eq_nil_of_le (Nat.le_of_not_lt hlt)]
      simp only [Indexed.tokenizeLoop]
      rw [if_neg hlt]
      exact agrees_nil _ fuel pos tokens hp

theorem tokenize_agrees (source : Str) :
    Agrees (source.length + 1) (Lexer.tokenize source) (Indexed.tokenize source) :=
  tokenizeLoop_agrees source (source.length + 1) 0 [] (Nat.zero_le _)

end Indexed


namespace Lexer

theorem resume_comment (c s : List Char) (tokens : List Token) (hc : c.all notNewline = true) :
    resume ('#' :: (c ++ '\n' :: s)) tokens = resume s tokens := by
  have ht : ('\n' :: s).takeWhile notNewline = [] := by
    simp [List.takeWhile_cons, notNewline]
  rw [resume_hash, dropWhile_append_all _ _ _ hc, dropWhile_of_takeWhile_nil _ _ ht]
  rfl

theorem resume_comment_end (c : List Char) (tokens : List Token) (hc : c.all notNewline = true) :
    resume ('#' :: c) tokens = .ok tokens := by
  have h := dropWhile_append_all notNewline c [] hc
  rw [List.append_nil] at h
  rw [resume_hash, h]
  exact resume_nil tokens

end Lexer

theorem parseSource_congr (s1 s2 : List Char) (h : Lexer.tokenize s1 = Lexer.tokenize s2) :
    parseSource s1 = parseSource s2 := by
  unfold parseSource
  rw [h]

/-! ## The claims -/

open Grammar

/-- C1, as stated, fails: the entry of a key does not carry the kind of the
value.  The sources `a = 1` and `a = "1"` assign a number and a string, and
give the same document. -/
theorem scalar_kind_not_in_document :
    Lexer.tokenize "a = 1".toList =
        .ok [⟨.IDENTIFIER, "a".toList⟩, ⟨.EQUALS, "=".toList⟩, ⟨.NUMBER, "1".toList⟩] ∧
      Lexer.tokenize "a = \"1\"".toList =
        .ok [⟨.IDENTIFIER, "a".toList⟩, ⟨.EQUALS, "=".toList⟩, ⟨.STRING, "1".toList⟩] ∧
      parseSource "a = 1".toList = .ok [("a".toList, "1".toList)] ∧
      parseSource "a = \"1\"".toList = .ok [("a".toList, "1".toList)] := by
  decide

/-- C1 (amended): for every source made of flat assignments `k = v` separated
by white space, lexing then parsing succeeds; the document has exactly one
entry per distinct key of the source, and the entry of a key is the literal
text of the value last assigned to it (for a string, the text between the
quotes). -/
theorem flat_assignments_document (lead : List Char) (as : List Flat.Assign)
    (hlead : lead.all isspace = true) (hwf : Flat.wellFormed as = true) :
    ∃ d : AstBlock, parseSource (lead ++ Flat.source as) = .ok d ∧
      (d.map Prod.fst).Nodup ∧
      (∀ k, k ∈ d.map Prod.fst ↔ k ∈ as.map Flat.Assign.key) ∧
      (∀ pre a post, as = pre ++ a :: post → (∀ b ∈ post, b.key ≠ a.key) →
        mapFind d a.key = some a.text) := by
  refine ⟨(Flat.doc as).assignTo [], ?_, ?_, ?_, ?_⟩
  · simp only [parseSource, Flat.tokenize_flat lead as hlead hwf, Parser.parse_tree]
  · exact keysSorted_nodup _ (Grammar.assignTo_keysSorted _ [] List.Pairwise.nil)
  · intro k
    rw [Grammar.mem_keys_assignTo, Flat.doc_keys]
    simp
  · intro pre a post e h
    rw [Grammar.mapFind_assignTo, e, Flat.doc_last pre a post h]
    rfl

theorem flat_assignments_document_witness :
    " ".toList.all isspace = true ∧ Flat.wellFormed Flat.sample = true ∧
      ∃ d : AstBlock, parseSource (" ".toList ++ Flat.source Flat.sample) = .ok d ∧
        (d.map Prod.fst).Nodup ∧
        (∀ k, k ∈ d.map Prod.fst ↔ k ∈ Flat.sample.map Flat.Assign.key) ∧
        (∀ pre a post, Flat.sample = pre ++ a :: post → (∀ b ∈ post, b.key ≠ a.key) →
          mapFind d a.key = some a.text) :=
  ⟨by decide, by decide, flat_assignments_document " ".toList Flat.sample (by decide) (by decide)⟩

/-- C2: last write wins.  When `pre` and `post` are sequences of assignments
that `parse` accepts, `vt` is the token sequence of a value, and `post` makes
no assignment to `k`, then `pre k = vt post` parses and the entry of `k` is the
value of `vt`, whatever `pre` assigned to `k`.  The same holds among the
siblings of a block `{ pre k = vt post }`: the map `block_content` that the
loop of `parse_block` has built when it reaches `}` has that entry for `k`, and
the value of the block is that map written out.  `a = 1 a = 2` gives the
entry `2` for `a`, at top level and in a block. -/
theorem last_write_wins (pre vt post : List Token) (k : Str) (e : Token) (v : AstValue)
    (d1 d2 : AstBlock) (he : e.type = .EQUALS)
    (hpre : Parser.parse pre = .ok d1)
    (hv : Parser.parse_value (2 * vt.length + 2) vt = .ok (v, []))
    (hpost : Parser.parse post = .ok d2)
    (hlast : mapFind d2 k = none) :
    (∃ d, Parser.parse (pre ++ ⟨.IDENTIFIER, k⟩ :: e :: (vt ++ post)) = .ok d ∧
        mapFind d k = some v) ∧
      (∀ (rest : List Token) (extra : Nat), ∃ m,
        Parser.parse_block_loop
            (2 * (pre ++ ⟨.IDENTIFIER, k⟩ :: e :: (vt ++ post)).length + 3 + extra)
            (pre ++ ⟨.IDENTIFIER, k⟩ :: e :: (vt ++ (post ++ Grammar.rbraceTok :: rest))) [] =
            .ok (m, Grammar.rbraceTok :: rest) ∧
          mapFind m k = some v ∧
          Parser.parse_value (2 * (pre ++ ⟨.IDENTIFIER, k⟩ :: e :: (vt ++ post)).length + 5 + extra)
            (Grammar.lbraceTok ::
              (pre ++ ⟨.IDENTIFIER, k⟩ :: e :: (vt ++ (post ++ Grammar.rbraceTok :: rest)))) =
            .ok ('{' :: ((m.map (fun p => p.1 ++ '=' :: (p.2 ++ [',']))).flatten ++ ['}']),
              rest)) ∧
      parseSource "a = 1 a = 2".toList = .ok [("a".toList, "2".toList)] ∧
      parseSource "b = \x7b a = 1 a = 2 \x7d".toList =
        .ok [("b".toList, "\x7ba=2,\x7d".toList)] ∧
      parseSource "b = \x7b a = 1 c = 3 a = 2 \x7d".toList =
        .ok [("b".toList, "\x7ba=2,c=3,\x7d".toList)] := by
  obtain ⟨l1, n1, hn1, _, hd1, htop1, hblk1⟩ := Parser.parseLoop_trace _ pre [] d1 hpre
  obtain ⟨l3, n3, hn3, _, hd3, htop3, hblk3⟩ := Parser.parseLoop_trace _ post [] d2 hpost
  have hk : k ∉ l3.map Prod.fst := by
    intro hmem
    exact mapFind_mapAssignAll_ne_none l3 [] k (Or.inl hmem) (hd3 ▸ hlast)
  have hfind : ∀ b : AstBlock, mapFind (mapAssignAll (mapAssign b k v) l3) k = some v := by
    intro b
    rw [mapFind_mapAssignAll_of_not_mem l3 _ k hk, mapFind_mapAssign, if_pos rfl]
  refine ⟨⟨mapAssignAll (mapAssign (mapAssignAll [] l1) k v) l3, ?_, hfind _⟩, ?_, by decide,
    by decide, by decide⟩
  · have hv1 := Parser.parse_value_extend _ vt v [] hv (2 * (vt ++ post).length + 2)
      (by simp only [List.length_append]; omega) post
    rw [List.nil_append] at hv1
    obtain ⟨g, hg⟩ : ∃ g, (pre ++ ⟨.IDENTIFIER, k⟩ :: e :: (vt ++ post)).length + 1 =
        n1 + (g + 1) ∧ n3 < g := by
      refine ⟨(pre ++ ⟨.IDENTIFIER, k⟩ :: e :: (vt ++ post)).length - n1, ?_, ?_⟩ <;>
        simp only [List.length_append, List.length_cons] <;> omega
    unfold Parser.parse
    rw [hg.1, htop1, Parser.parseLoop_assign _ _ _ _ _ _ _ rfl he hv1]
    exact Parser.parseLoop_of_steps post l3 n3 htop3 _ g hg.2
  · intro rest extra
    obtain ⟨g, hg⟩ : ∃ g, 2 * (pre ++ ⟨.IDENTIFIER, k⟩ :: e :: (vt ++ post)).length + 5 + extra =
        (n1 + (g + 1)) + 1 + 1 ∧ n3 < g ∧ 2 * post.length ≤ g ∧ 2 * vt.length + 2 ≤ g := by
      refine ⟨2 * (pre ++ ⟨.IDENTIFIER, k⟩ :: e :: (vt ++ post)).length + 2 + extra - n1,
        ?_, ?_, ?_, ?_⟩ <;>
        simp only [List.length_append, List.length_cons] <;> omega
    have hv1 := Parser.parse_value_extend _ vt v [] hv g hg.2.2.2
      (post ++ Grammar.rbraceTok :: rest)
    rw [List.nil_append] at hv1
    have hloop : Parser.parse_block_loop (n1 + (g + 1))
        (pre ++ ⟨.IDENTIFIER, k⟩ :: e :: (vt ++ (post ++ Grammar.rbraceTok :: rest))) [] =
        .ok (mapAssignAll (mapAssign (mapAssignAll [] l1) k v) l3, Grammar.rbraceTok :: rest) := by
      have hlen : (pre ++ ⟨.IDENTIFIER, k⟩ :: e :: (vt ++ post)).length =
          pre.length + (vt.length + post.length + 2) := by
        simp only [List.length_append, List.length_cons]
      rw [hblk1 _ _ _ (by omega), Parser.parse_block_loop_assign _ _ _ _ _ _ _ rfl he hv1]
      exact Parser.parse_block_loop_of_steps post l3 n3 hblk3 _ _ rest rfl g hg.2.1 hg.2.2.1
    have hser : ∀ m : AstBlock, Parser.serialize_block m =
        '{' :: ((m.map (fun p => p.1 ++ '=' :: (p.2 ++ [',']))).flatten ++ ['}']) := by
      intro m
      simp [Parser.serialize_block]
    have hfuel : 2 * (pre ++ ⟨.IDENTIFIER, k⟩ :: e :: (vt ++ post)).length + 3 + extra =
        n1 + (g + 1) := by omega
    refine ⟨mapAssignAll (mapAssign (mapAssignAll [] l1) k v) l3, ?_, hfind _, ?_⟩
    · rw [hfuel]
      exact hloop
    · rw [hg.1, Parser.parse_value_block _ _ _ rfl, ← hser]
      exact Parser.parse_block_of_loop _ _ _ _ _ _ hloop

theorem last_write_wins_witness :
    Grammar.equalsTok.type = .EQUALS ∧
      Parser.parse Examples.aIsOne = .ok [("a".toList, "1".toList)] ∧
      Parser.parse_value (2 * [(⟨.NUMBER, "2".toList⟩ : Token)].length + 2)
        [⟨.NUMBER, "2".toList⟩] = .ok ("2".toList, []) ∧
      Parser.parse Examples.bIsThree = .ok [("b".toList, "3".toList)] ∧
      mapFind [("b".toList, "3".toList)] "a".toList = none ∧
      (∃ d, Parser.parse (Examples.aIsOne ++ ⟨.IDENTIFIER, "a".toList⟩ :: Grammar.equalsTok ::
          ([⟨.NUMBER, "2".toList⟩] ++ Examples.bIsThree)) = .ok d ∧
        mapFind d "a".toList = some "2".toList) ∧
      ∃ m, Parser.parse_block_loop
          (2 * (Examples.aIsOne ++ ⟨.IDENTIFIER, "a".toList⟩ :: Grammar.equalsTok ::
            ([⟨.NUMBER, "2".toList⟩] ++ Examples.bIsThree)).length + 3 + 0)
          (Examples.aIsOne ++ ⟨.IDENTIFIER, "a".toList⟩ :: Grammar.equalsTok ::
            ([⟨.NUMBER, "2".toList⟩] ++ (Examples.bIsThree ++ Grammar.rbraceTok :: []))) [] =
          .ok (m, Grammar.rbraceTok :: []) ∧
        mapFind m "a".toList = some "2".toList ∧
        Parser.parse_value
          (2 * (Examples.aIsOne ++ ⟨.IDENTIFIER, "a".toList⟩ :: Grammar.equalsTok ::
            ([⟨.NUMBER, "2".toList⟩] ++ Examples.bIsThree)).length + 5 + 0)
          (Grammar.lbraceTok :: (Examples.aIsOne ++ ⟨.IDENTIFIER, "a".toList⟩ ::
            Grammar.equalsTok ::
            ([⟨.NUMBER, "2".toList⟩] ++ (Examples.bIsThree ++ Grammar.rbraceTok :: [])))) =
          .ok ('{' :: ((m.map (fun p => p.1 ++ '=' :: (p.2 ++ [',']))).flatten ++ ['}']), []) :=
  ⟨by decide, by decide, by decide, by decide, by decide,
    (last_write_wins Examples.aIsOne [⟨.NUMBER, "2".toList⟩] Examples.bIsThree
      "a".toList Grammar.equalsTok "2".toList [("a".toList, "1".toList)] [("b".toList, "3".toList)]
      (by decide) (by decide) (by decide) (by decide) (by decide)).1,
    (last_write_wins Examples.aIsOne [⟨.NUMBER, "2".toList⟩] Examples.bIsThree
      "a".toList Grammar.equalsTok "2".toList [("a".toList, "1".toList)] [("b".toList, "3".toList)]
      (by decide) (by decide) (by decide) (by decide) (by decide)).2.1 [] 0⟩

/-- C3, as stated, fails: in `b = { y = 1 x = 2 }` the key `y` comes first, but
the value of the block is the serialization of `[(x,2), (y,1)]`, not of the
pairs in source order `[(y,1), (x,2)]`. -/
theorem block_source_order_lost :
    parseSource "b = \x7b y = 1 x = 2 \x7d".toList =
        .ok [("b".toList, Parser.serialize_block [("x".toList, "2".toList), ("y".toList, "1".toList)])] ∧
      parseSource "b = \x7b y = 1 x = 2 \x7d".toList ≠
        .ok [("b".toList, Parser.serialize_block [("y".toList, "1".toList), ("x".toList, "2".toList)])] := by
  decide

/-- C3 (amended): for every block whose keys are pairwise distinct, the value
of the block serializes its `(key, value)` pairs in ascending order of the
keys: the serialized map holds exactly the pairs of the source and its keys
increase strictly. -/
theorem block_pairs_in_key_order (body : Assignments) (hkeys : body.keys.Nodup)
    (rest : List Token) (extra : Nat) :
    ∃ m : AstBlock,
      Parser.parse_value (2 * (Value.block body).tokens.length + 1 + extra)
          ((Value.block body).tokens ++ rest) = .ok (Parser.serialize_block m, rest) ∧
        (m.map Prod.fst).Pairwise (fun a b => strLt a b = true) ∧ m.Perm body.pairs := by
  refine ⟨body.assignTo [], ?_, ?_, ?_⟩
  · exact Parser.parse_value_tree (.block body) _ rest (Nat.le_add_right _ _)
  · exact assignTo_keysSorted body [] List.Pairwise.nil
  · have h := assignTo_perm body [] hkeys (fun _ _ => by simp)
    simpa using h

theorem block_pairs_in_key_order_witness :
    Examples.yThenX.keys.Nodup ∧
      ∃ m : AstBlock,
        Parser.parse_value (2 * (Value.block Examples.yThenX).tokens.length + 1 + 0)
            ((Value.block Examples.yThenX).tokens ++ []) = .ok (Parser.serialize_block m, []) ∧
          (m.map Prod.fst).Pairwise (fun a b => strLt a b = true) ∧
          m.Perm Examples.yThenX.pairs :=
  ⟨by decide, block_pairs_in_key_order Examples.yThenX (by decide) [] 0⟩

/-- C4: commas between the items of a list are optional.  Two lists with the
same items (scalars and nested lists), whatever commas follow the items,
both parse, to the same value; so `[1, 2 3]` and `[1, 2, 3]` both give the
list of `1`, `2`, `3` in that order, and `[a b]` parses as `[a, b]`. -/
theorem list_commas_optional (a b : Items) (h : a.strip = b.strip) (key : Str)
    (rest : List Token) (extra : Nat) :
    (Parser.parse_value (2 * (Value.list a).tokens.length + 1 + extra)
          ((Value.list a).tokens ++ rest) = .ok (Parser.serialize_list a.values, rest) ∧
        Parser.parse_value (2 * (Value.list b).tokens.length + 1 + extra)
          ((Value.list b).tokens ++ rest) = .ok (Parser.serialize_list a.values, rest)) ∧
      (Parser.parse (Assignments.cons key (.list a) .nil).tokens =
          .ok [(key, Parser.serialize_list a.values)] ∧
        Parser.parse (Assignments.cons key (.list b) .nil).tokens =
          .ok [(key, Parser.serialize_list a.values)]) ∧
      (parseSource "x = [1, 2 3]".toList =
          .ok [("x".toList, Parser.serialize_list ["1".toList, "2".toList, "3".toList])] ∧
        parseSource "x = [1, 2, 3]".toList =
          .ok [("x".toList, Parser.serialize_list ["1".toList, "2".toList, "3".toList])] ∧
        parseSource "x = [a b]".toList = parseSource "x = [a, b]".toList) := by
  have hv : b.values = a.values := by
    rw [← values_strip a, ← values_strip b, h]
  refine ⟨⟨?_, ?_⟩, ⟨?_, ?_⟩, by decide⟩
  · exact Parser.parse_value_tree (.list a) _ rest (Nat.le_add_right _ _)
  · have := Parser.parse_value_tree (.list b) _ rest (Nat.le_add_right _ extra)
    rw [this, Value.value, hv]
  · exact Parser.parse_tree (.cons key (.list a) .nil)
  · have := Parser.parse_tree (.cons key (.list b) .nil)
    rw [this]
    simp only [Assignments.assignTo, Value.value, hv]
    rfl

theorem list_commas_optional_witness :
    (Examples.oneTwoThree false).strip = (Examples.oneTwoThree true).strip ∧
      Parser.parse (Assignments.cons "x".toList (.list (Examples.oneTwoThree false)) .nil).tokens =
        .ok [("x".toList, Parser.serialize_list (Examples.oneTwoThree false).values)] ∧
      Parser.parse (Assignments.cons "x".toList (.list (Examples.oneTwoThree true)) .nil).tokens =
        .ok [("x".toList, Parser.serialize_list (Examples.oneTwoThree false).values)] :=
  ⟨rfl, (list_commas_optional (Examples.oneTwoThree false) (Examples.oneTwoThree true) rfl
    "x".toList [] 0).2.1⟩

/-- C5, as stated, fails: the value of `[1, [2, 3], 4]` is not a tree of
scalars and lists but the string `[1,[2,3,],4,]`, and it is also the value of
the one-item list `["1,[2,3,],4"]`, which has no inner list, and of the string
`"[1,[2,3,],4,]"`, which is no list. -/
theorem nested_list_is_flat_string :
    parseSource "a = [1, [2, 3], 4]".toList = .ok [("a".toList, "[1,[2,3,],4,]".toList)] ∧
      parseSource "a = [\"1,[2,3,],4\"]".toList = .ok [("a".toList, "[1,[2,3,],4,]".toList)] ∧
      parseSource "a = \"[1,[2,3,],4,]\"".toList = .ok [("a".toList, "[1,[2,3,],4,]".toList)] :=
  ⟨by decide, by decide, by decide⟩

/-- C5 (amended): the value of a list is a string that writes out the
bracket structure with the items in source order at every depth: `[`, then
for each item its value followed by `,`, then `]`, where a scalar item
contributes its text and a bracketed item the string of the inner list.  `parse_value` reads
the list to its closing bracket and returns that string, `parse` binds the
key to it, and `[1, [2, 3], 4]` gives `[1,[2,3,],4,]`. -/
theorem nested_list_written_in_order (items : Items) (key : Str) (rest : List Token)
    (extra : Nat) :
    Parser.parse_value (2 * (Value.list items).tokens.length + 1 + extra)
        ((Value.list items).tokens ++ rest) = .ok ('[' :: (items.written ++ [']']), rest) ∧
      Parser.parse (Assignments.cons key (.list items) .nil).tokens =
        .ok [(key, '[' :: (items.written ++ [']']))] ∧
      (Items.scalar .number "1".toList true
          (.nested (.scalar .number "2".toList true (.scalar .number "3".toList false .nil)) true
            (.scalar .number "4".toList false .nil))).written = "1,[2,3,],4,".toList ∧
      parseSource "a = [1, [2, 3], 4]".toList = .ok [("a".toList, "[1,[2,3,],4,]".toList)] ∧
      parseSource "a = [[], [[x]]]".toList = .ok [("a".toList, "[[],[[x,],],]".toList)] := by
  refine ⟨?_, ?_, by decide, by decide, by decide⟩
  · rw [← serialize_list_written]
    exact Parser.parse_value_tree (.list items) _ rest (Nat.le_add_right _ _)
  · rw [← serialize_list_written]
    exact Parser.parse_tree (.cons key (.list items) .nil)

/-- C6 (defect of the string scan): on the source `"abc`, whose string is never
closed, `tokenize` does not fail: it returns the one token STRING `abc`, the
scan having stopped at the end of the source without finding a closing
quote. -/
theorem tokenize_unterminated_string_accepted :
    Lexer.tokenize "\"abc".toList = .ok [⟨.STRING, "abc".toList⟩] := by
  decide

/-- C7, as stated, fails: the full stop is outside the recognized set and, in
`1.5`, outside any comment or string (the source has neither `#` nor a
quote), yet `tokenize` succeeds; and the error of `@` is the same value at
position 0 and at position 1, so it carries no position. -/
theorem unexpected_character_claim_fails :
    (Lexer.recognized '.' = false ∧ '#' ∉ "1.5".toList ∧ '"' ∉ "1.5".toList ∧
        Lexer.tokenize "1.5".toList = .ok [⟨.NUMBER, "1.5".toList⟩]) ∧
      Lexer.tokenize "@".toList = .error (.unexpectedChar '@') ∧
      Lexer.tokenize " @".toList = .error (.unexpectedChar '@') := by
  decide

/-- C7 (amended): when the characters before `c` contain no offending
character and `c` is offending where it stands (outside comments and strings,
outside the recognized set, and not a `.` continuing a number), `tokenize`
fails with the unexpected-character error carrying `c`, whatever follows. -/
theorem tokenize_first_offending_character (pre : List Char) (c : Char) (rest : List Char)
    (m : Lexer.Mode) (hpre : Lexer.Mode.scan .code pre = some m) (hc : m.next c = none) :
    Lexer.tokenize (pre ++ c :: rest) = .error (.unexpectedChar c) :=
  Lexer.resume_offending pre.length pre (le_refl _) m c rest [] hpre hc

theorem tokenize_first_offending_character_witness :
    Lexer.Mode.scan .code "a = 1.5 # c @\n \"@\" x1 ".toList = some .code ∧
      Lexer.Mode.next .code '@' = none ∧
      Lexer.tokenize ("a = 1.5 # c @\n \"@\" x1 ".toList ++ '@' :: "junk".toList) =
        .error (.unexpectedChar '@') :=
  ⟨by decide, by decide,
    tokenize_first_offending_character "a = 1.5 # c @\n \"@\" x1 ".toList '@' "junk".toList .code
      (by decide) (by decide)⟩

/-- C8: a line comment is skipped.  For a comment text `c` without newline,
the tokens (or the failure) of `# c \n s` are those of `s`, so the parsed
document is that of `s`; and `# c` with nothing after it tokenizes to the
empty token sequence. -/
theorem tokenize_comment_skipped (c s : List Char) (hc : '\n' ∉ c) :
    Lexer.tokenize ('#' :: (c ++ '\n' :: s)) = Lexer.tokenize s ∧
      parseSource ('#' :: (c ++ '\n' :: s)) = parseSource s ∧
      Lexer.tokenize ('#' :: c) = .ok [] := by
  have hall : c.all Lexer.notNewline = true := by
    rw [List.all_eq_true]
    intro x hx
    have : x ≠ '\n' := fun e => hc (e ▸ hx)
    simp [Lexer.notNewline, this]
  have h1 : Lexer.tokenize ('#' :: (c ++ '\n' :: s)) = Lexer.tokenize s :=
    Lexer.resume_comment c s [] hall
  exact ⟨h1, parseSource_congr _ _ h1, Lexer.resume_comment_end c [] hall⟩

theorem tokenize_comment_skipped_witness :
    '\n' ∉ " note".toList ∧
      (Lexer.tokenize ('#' :: (" note".toList ++ '\n' :: "key = 1".toList)) =
          Lexer.tokenize "key = 1".toList ∧
        parseSource ('#' :: (" note".toList ++ '\n' :: "key = 1".toList)) =
          parseSource "key = 1".toList ∧
        Lexer.tokenize ('#' :: " note".toList) = .ok []) :=
  ⟨by decide, tokenize_comment_skipped " note".toList "key = 1".toList (by decide)⟩

/-- C9: a source made of an identifier, blanks, `=`, blanks and a string of
digits tokenizes to exactly the three tokens IDENTIFIER, EQUALS, NUMBER with
the literal texts; the white space yields no token. -/
theorem tokenize_identifier_equals_number (name b1 b2 digits : List Char)
    (hname : Lexer.isIdentText name = true) (hb1 : b1.all isspace = true)
    (hb2 : b2.all isspace = true) (hne : digits ≠ []) (hdig : digits.all isdigit = true) :
    Lexer.tokenize (name ++ b1 ++ '=' :: (b2 ++ digits)) =
      .ok [⟨.IDENTIFIER, name⟩, ⟨.EQUALS, ['=']⟩, ⟨.NUMBER, digits⟩] := by
  have hnum : Lexer.isNumberText digits = true := by
    cases digits with
    | nil => exact absurd rfl hne
    | cons d ds =>
      simp only [List.all_cons, Bool.and_eq_true] at hdig
      simp only [Lexer.isNumberText, Bool.and_eq_true]
      exact ⟨hdig.1, Lexer.all_numberChar_of_isdigit ds hdig.2⟩
  have h1 : (b1 ++ '=' :: (b2 ++ digits)).takeWhile Lexer.identChar = [] :=
    Lexer.takeWhile_nil_blank_cons _ (fun _ h => Lexer.isspace_not_identChar h) _ _ _ hb1
      (by decide)
  have h2 := Lexer.resume_number_text digits [] ([] ++ [⟨.IDENTIFIER, name⟩] ++ [⟨.EQUALS, ['=']⟩])
    hnum rfl
  rw [List.append_nil] at h2
  rw [Lexer.tokenize_eq_resume, List.append_assoc, Lexer.resume_ident_text _ _ _ hname h1,
    Lexer.resume_blank _ _ _ hb1, Lexer.resume_equals, Lexer.resume_blank _ _ _ hb2, h2,
    Lexer.resume_nil]
  rfl

theorem tokenize_identifier_equals_number_witness :
    Lexer.tokenize ("x".toList ++ " ".toList ++ '=' :: (" ".toList ++ "5".toList)) =
      .ok [⟨.IDENTIFIER, "x".toList⟩, ⟨.EQUALS, ['=']⟩, ⟨.NUMBER, "5".toList⟩] :=
  tokenize_identifier_equals_number "x".toList " ".toList " ".toList "5".toList
    (by decide) (by decide) (by decide) (by decide) (by decide)

/-- C10: the empty source tokenizes to the empty token sequence, the empty
token sequence parses to the empty document, and the same holds for a source
made of white space only. -/
theorem empty_input_accepted (ws : List Char) (hws : ws.all isspace = true) :
    Lexer.tokenize [] = .ok [] ∧ Parser.parse [] = .ok [] ∧ parseSource [] = .ok [] ∧
      Lexer.tokenize ws = .ok [] ∧ parseSource ws = .ok [] := by
  have h : Lexer.tokenize ws = .ok [] := by
    have := Lexer.resume_blank ws [] [] hws
    rw [List.append_nil] at this
    rw [Lexer.tokenize_eq_resume, this]
    exact Lexer.resume_nil []
  refine ⟨rfl, rfl, rfl, h, ?_⟩
  unfold parseSource
  rw [h]
  rfl

theorem empty_input_accepted_witness :
    Lexer.tokenize [] = .ok [] ∧ Parser.parse [] = .ok [] ∧ parseSource [] = .ok [] ∧
      Lexer.tokenize " \n\t ".toList = .ok [] ∧ parseSource " \n\t ".toList = .ok [] :=
  empty_input_accepted " \n\t ".toList (by decide)


/-- C16: string tokens are raw.  For every text `w` without a double quote
(backslashes, `#`, `@`, newlines or nothing at all included), the source
`"w"` tokenizes to the single token STRING `w`, the text between the quotes
unchanged. -/
theorem string_token_raw (w : List Char) (hw : '"' ∉ w) :
    Lexer.tokenize ('"' :: (w ++ ['"'])) = .ok [⟨.STRING, w⟩] := by
  have hall : w.all Lexer.notQuote = true := by
    rw [List.all_eq_true]
    intro x hx
    have : x ≠ '"' := fun e => hw (e ▸ hx)
    simp [Lexer.notQuote, this]
  rw [Lexer.tokenize_eq_resume, Lexer.resume_string_text w [] [] hall, Lexer.resume_nil]
  rfl

theorem string_token_raw_witness :
    '"' ∉ "a\\n # @\n\x7b".toList ∧
      Lexer.tokenize ('"' :: ("a\\n # @\n\x7b".toList ++ ['"'])) =
        .ok [⟨.STRING, "a\\n # @\n\x7b".toList⟩] :=
  ⟨by decide, string_token_raw "a\\n # @\n\x7b".toList (by decide)⟩

/-- C17: the number scan is greedy over digits and dots and knows no sign.
Every text that starts with a digit and continues with digits and dots is
one NUMBER token; a source whose first non-blank character is `-` fails with
the unexpected-character error for `-`, although the unused helper
`create_token` classifies `-5` as a number. -/
theorem number_scan_greedy (n ws rest : List Char) (hn : Lexer.isNumberText n = true)
    (hws : ws.all isspace = true) :
    Lexer.tokenize n = .ok [⟨.NUMBER, n⟩] ∧
      Lexer.tokenize (ws ++ '-' :: rest) = .error (.unexpectedChar '-') ∧
      Lexer.tokenize "1.2.3".toList = .ok [⟨.NUMBER, "1.2.3".toList⟩] ∧
      Lexer.tokenize "5.".toList = .ok [⟨.NUMBER, "5.".toList⟩] ∧
      Lexer.tokenize "-5".toList = .error (.unexpectedChar '-') ∧
      Lexer.create_token "-5".toList = some ⟨.NUMBER, "-5".toList⟩ := by
  refine ⟨?_, ?_, by decide, by decide, by decide, by decide⟩
  · have h := Lexer.resume_number_text n [] [] hn rfl
    rw [List.append_nil] at h
    rw [Lexer.tokenize_eq_resume, h, Lexer.resume_nil]
    rfl
  · rw [Lexer.tokenize_eq_resume, Lexer.resume_blank _ _ _ hws]
    exact Lexer.resume_unrecognized '-' rest [] (by decide)

theorem number_scan_greedy_witness :
    Lexer.isNumberText "3.14.".toList = true ∧ " \t".toList.all isspace = true ∧
      Lexer.tokenize "3.14.".toList = .ok [⟨.NUMBER, "3.14.".toList⟩] ∧
      Lexer.tokenize (" \t".toList ++ '-' :: "5".toList) = .error (.unexpectedChar '-') :=
  ⟨by decide, by decide,
    (number_scan_greedy "3.14.".toList " \t".toList "5".toList (by decide) (by decide)).1,
    (number_scan_greedy "3.14.".toList " \t".toList "5".toList (by decide) (by decide)).2.1⟩

/-- C12: termination.  The step counts that `tokenize` and `parse` start with,
computed from the length of the input, are never exhausted, so both return
a result or an error on every input; and every iteration of the loop of
`tokenize` either raises an error or goes on with a strictly shorter rest of
the source, every iteration of the loops of `parse`, `parse_block` and
`parse_list` either leaves the loop, raises an error, or goes on with
strictly fewer tokens. -/
theorem loops_terminate :
    (∀ source, Lexer.tokenize source ≠ .outOfFuel) ∧
      (∀ tokens, Parser.parse tokens ≠ .outOfFuel) ∧
      (∀ (c : Char) (rest : List Char) (tokens : List Token),
        (∃ e, ∀ fuel, Lexer.tokenizeLoop (fuel + 1) (c :: rest) tokens = .error e) ∨
          ∃ s t, s.length < (c :: rest).length ∧
            ∀ fuel, Lexer.tokenizeLoop (fuel + 1) (c :: rest) tokens =
              Lexer.tokenizeLoop fuel s t) ∧
      (∀ (fuel : Nat) (t : Token) (ts : List Token) (ast : AstBlock),
        (∃ e, Parser.parseLoop (fuel + 1) (t :: ts) ast = .error e) ∨
          ∃ ts1 ast1, ts1.length < (t :: ts).length ∧
            Parser.parseLoop (fuel + 1) (t :: ts) ast = Parser.parseLoop fuel ts1 ast1) ∧
      (∀ (extra : Nat) (t : Token) (ts : List Token) (m : AstBlock),
        Parser.parse_block_loop (2 * ts.length + 2 + extra + 1) (t :: ts) m = .ok (m, t :: ts) ∨
          (∃ e, Parser.parse_block_loop (2 * ts.length + 2 + extra + 1) (t :: ts) m = .error e) ∨
          ∃ ts1 m1, ts1.length < (t :: ts).length ∧
            Parser.parse_block_loop (2 * ts.length + 2 + extra + 1) (t :: ts) m =
              Parser.parse_block_loop (2 * ts.length + 2 + extra) ts1 m1) ∧
      (∀ (extra : Nat) (t : Token) (ts : List Token) (acc : AstList),
        Parser.parse_list_loop (2 * ts.length + 2 + extra + 1) (t :: ts) acc = .ok (acc, t :: ts) ∨
          (∃ e, Parser.parse_list_loop (2 * ts.length + 2 + extra + 1) (t :: ts) acc = .error e) ∨
          ∃ ts1 acc1, ts1.length < (t :: ts).length ∧
            Parser.parse_list_loop (2 * ts.length + 2 + extra + 1) (t :: ts) acc =
              Parser.parse_list_loop (2 * ts.length + 2 + extra) ts1 acc1) :=
  ⟨Lexer.tokenize_ne_outOfFuel, Parser.parse_ne_outOfFuel, Lexer.tokenizeLoop_step,
    Parser.parseLoop_step, Parser.parse_block_loop_step, Parser.parse_list_loop_step⟩

/-- C20: tokenization composes across a line break.  When `s1` holds no double
quote, `s1 \n s2` tokenizes exactly when `s1` and `s2` both do, to the tokens
of `s1` followed by those of `s2`; and when `s1` fails, `s1 \n s2` fails with
the same error. -/
theorem tokenize_across_newline (s1 s2 : List Char) (hq : '"' ∉ s1) :
    (∀ t1 t2, Lexer.tokenize s1 = .ok t1 → Lexer.tokenize s2 = .ok t2 →
        Lexer.tokenize (s1 ++ '\n' :: s2) = .ok (t1 ++ t2)) ∧
      (∀ t, Lexer.tokenize (s1 ++ '\n' :: s2) = .ok t →
        ∃ t1 t2, Lexer.tokenize s1 = .ok t1 ∧ Lexer.tokenize s2 = .ok t2 ∧ t = t1 ++ t2) ∧
      (∀ e, Lexer.tokenize s1 = .error e → Lexer.tokenize (s1 ++ '\n' :: s2) = .error e) := by
  have h := Lexer.tokenize_newline s1 s2 hq
  refine ⟨?_, ?_, ?_⟩
  · intro t1 t2 h1 h2
    rw [h, h1, h2]
    rfl
  · intro t ht
    rw [h] at ht
    cases h1 : Lexer.tokenize s1 with
    | error e => rw [h1] at ht; cases ht
    | outOfFuel => rw [h1] at ht; cases ht
    | ok t1 =>
      cases h2 : Lexer.tokenize s2 with
      | error e => rw [h1, h2] at ht; cases ht
      | outOfFuel => rw [h1, h2] at ht; cases ht
      | ok t2 =>
        rw [h1, h2] at ht
        cases ht
        exact ⟨t1, t2, rfl, rfl, rfl⟩
  · intro e h1
    rw [h, h1]
    rfl

theorem tokenize_across_newline_witness :
    '"' ∉ "a = 1 # c".toList ∧
      Lexer.tokenize ("a = 1 # c".toList ++ '\n' :: "b = [2]".toList) =
        .ok ([⟨.IDENTIFIER, "a".toList⟩, ⟨.EQUALS, "=".toList⟩, ⟨.NUMBER, "1".toList⟩] ++
          [⟨.IDENTIFIER, "b".toList⟩, ⟨.EQUALS, "=".toList⟩, ⟨.LBRACKET, "[".toList⟩,
            ⟨.NUMBER, "2".toList⟩, ⟨.RBRACKET, "]".toList⟩]) :=
  ⟨by decide,
    (tokenize_across_newline "a = 1 # c".toList "b = [2]".toList (by decide)).1 _ _
      (by decide) (by decide)⟩

/-- C15: a block is not a list item.  When everything before it is accepted
and a `{` stands where `parse_list` expects an item (directly inside `[ ]`, at
any depth of lists and blocks), `parse` fails with the expected-value error
of lists; a bracketed list in an item position is accepted. -/
theorem block_in_list_rejected (doc : Assignments) (key : Str) (vp : ValuePath) (t : Token)
    (rest : List Token) (inner more : Items) (comma : Bool) (ht : t.type = .LBRACE) :
    Parser.parse (doc.tokens ++ ⟨.IDENTIFIER, key⟩ :: equalsTok :: (vp.tokens ++ t :: rest)) =
        .error .listExpectedValue ∧
      Parser.parse (Assignments.cons key (.list (.nested inner comma more)) .nil).tokens =
        .ok [(key, Parser.serialize_list (Parser.serialize_list inner.values :: more.values))] ∧
      parseSource "a = [ \x7b x = 1 \x7d ]".toList = .error (.syn .listExpectedValue) ∧
      parseSource "a = [ [ x ] ]".toList = .ok [("a".toList, "[[x,],]".toList)] :=
  ⟨Parser.parse_path doc key vp t rest (Or.inl ht) (fun hc => by rw [ht] at hc; cases hc),
    Parser.parse_tree (.cons key (.list (.nested inner comma more)) .nil), by decide, by decide⟩

theorem block_in_list_rejected_witness :
    lbraceTok.type = .LBRACE ∧
      Parser.parse (Examples.yThenX.tokens ++ ⟨.IDENTIFIER, "a".toList⟩ :: equalsTok ::
          ((ValuePath.block Examples.yThenX "k".toList
              (.list (.scalar .number "1".toList false (.enter .here)))).tokens ++
            lbraceTok :: [rbraceTok])) = .error .listExpectedValue :=
  ⟨rfl, (block_in_list_rejected Examples.yThenX "a".toList
    (.block Examples.yThenX "k".toList (.list (.scalar .number "1".toList false (.enter .here))))
    lbraceTok [rbraceTok] .nil .nil false rfl).1⟩

/-- C19: comma placement in lists.  A comma after the last item changes
nothing: a list whose last item has no comma parses to the same value with
a comma inserted before `]`.  A comma directly after `[` or directly after
another comma, where `parse_list` expects an item, makes `parse` fail with the
expected-value error of lists. -/
theorem list_comma_placement (doc : Assignments) (key : Str) (items : Items) (vp : ValuePath)
    (t : Token) (rest : List Token) (hplain : items.endsPlain = true) (ht : t.type = .COMMA)
    (hpos : lastType .LBRACKET vp.listPath.tokens = .LBRACKET ∨
      lastType .LBRACKET vp.listPath.tokens = .COMMA) :
    (Parser.parse (⟨.IDENTIFIER, key⟩ :: equalsTok :: lbracketTok ::
          (items.tokens ++ [rbracketTok])) = .ok [(key, Parser.serialize_list items.values)] ∧
        Parser.parse (⟨.IDENTIFIER, key⟩ :: equalsTok :: lbracketTok ::
          (items.tokens ++ [commaTok] ++ [rbracketTok])) =
            .ok [(key, Parser.serialize_list items.values)]) ∧
      Parser.parse (doc.tokens ++ ⟨.IDENTIFIER, key⟩ :: equalsTok :: (vp.tokens ++ t :: rest)) =
        .error .listExpectedValue ∧
      (parseSource "a = [1,]".toList = parseSource "a = [1]".toList ∧
        parseSource "a = [1]".toList = .ok [("a".toList, "[1,]".toList)] ∧
        parseSource "a = [,1]".toList = .error (.syn .listExpectedValue) ∧
        parseSource "a = [,]".toList = .error (.syn .listExpectedValue) ∧
        parseSource "a = [1,,2]".toList = .error (.syn .listExpectedValue)) := by
  refine ⟨⟨?_, ?_⟩, Parser.parse_path doc key vp t rest (Or.inr ht) (fun _ => hpos),
    by decide, by decide, by decide, by decide, by decide⟩
  · have h := Parser.parse_tree (.cons key (.list items) .nil)
    simp only [Assignments.tokens, Value.tokens, List.append_nil, List.cons_append] at h
    rw [h]
    rfl
  · have h := Parser.parse_tree (.cons key (.list items.setLastComma) .nil)
    simp only [Assignments.tokens, Value.tokens, List.append_nil, List.cons_append,
      Parser.setLastComma_tokens items hplain] at h
    rw [h]
    simp only [Assignments.assignTo, Value.value, Parser.setLastComma_values]
    rfl

theorem list_comma_placement_witness :
    (Examples.oneTwoThree false).endsPlain = true ∧ commaTok.type = .COMMA ∧
      (lastType .LBRACKET
          (ValuePath.list (.scalar .number "1".toList true .here)).listPath.tokens = .LBRACKET ∨
        lastType .LBRACKET
          (ValuePath.list (.scalar .number "1".toList true .here)).listPath.tokens = .COMMA) ∧
      Parser.parse (⟨.IDENTIFIER, "a".toList⟩ :: equalsTok :: lbracketTok ::
        ((Examples.oneTwoThree false).tokens ++ [commaTok] ++ [rbracketTok])) =
          .ok [("a".toList, Parser.serialize_list (Examples.oneTwoThree false).values)] ∧
      Parser.parse (Assignments.nil.tokens ++ ⟨.IDENTIFIER, "a".toList⟩ :: equalsTok ::
        ((ValuePath.list (.scalar .number "1".toList true .here)).tokens ++
          commaTok :: [⟨.NUMBER, "2".toList⟩, rbracketTok])) = .error .listExpectedValue :=
  ⟨by decide, rfl, by decide,
    (list_comma_placement .nil "a".toList (Examples.oneTwoThree false)
      (.list (.scalar .number "1".toList true .here)) commaTok
      [⟨.NUMBER, "2".toList⟩, rbracketTok] (by decide) rfl (by decide)).1.2,
    (list_comma_placement .nil "a".toList (Examples.oneTwoThree false)
      (.list (.scalar .number "1".toList true .here)) commaTok
      [⟨.NUMBER, "2".toList⟩, rbracketTok] (by decide) rfl (by decide)).2.1⟩

/-- C14: every token sequence that the grammar of section 4.2 of the
specification derives from `document` is accepted and read to its end.  The
sequence is a run of assignments `key = value`; `parse_value` reads the tokens
of each value to their end; `parse` returns the document that binds, in order,
each key to the value read for it; the loop of `parse` stands after the last
assignment with exactly the tokens that follow the sequence, so a token that
is not an identifier right after the sequence is where `parse` fails, with the
expected-identifier error.  `a = [1, "s"] b = { c = x }` gives the entries
`[1,s,]` for `a` and `{c=x,}` for `b`. -/
theorem grammar_accepted (ts : List Token) (h : SpecGrammar.Derives .document ts) :
    (∃ rs : List SpecGrammar.Reading,
      ts = (rs.map SpecGrammar.Reading.tokens).flatten ∧ (∀ r ∈ rs, r.Valid) ∧
        Parser.parse ts = .ok (mapAssignAll [] (rs.map SpecGrammar.Reading.pair)) ∧
        ∀ (rest : List Token) (ast : AstBlock) (fuel : Nat),
          Parser.parseLoop (rs.length + fuel) (ts ++ rest) ast =
            Parser.parseLoop fuel rest (mapAssignAll ast (rs.map SpecGrammar.Reading.pair))) ∧
      (∀ (t : Token) (rest : List Token), t.type ≠ .IDENTIFIER →
        Parser.parse (ts ++ t :: rest) = .error .expectedIdentifier) ∧
      parseSource "a = [1, \"s\"] b = \x7b c = x \x7d".toList =
        .ok [("a".toList, "[1,s,]".toList), ("b".toList, "\x7bc=x,\x7d".toList)] := by
  obtain ⟨rs, rfl, hrs⟩ := SpecGrammar.derives_splits h
  exact ⟨⟨rs, rfl, hrs, SpecGrammar.parse_readings rs hrs, SpecGrammar.readings_steps rs hrs⟩,
    fun t rest ht => SpecGrammar.parse_readings_then rs hrs t rest ht, by decide⟩

theorem grammar_accepted_witness :
    SpecGrammar.Derives .document SpecGrammar.sample ∧
      Parser.parse SpecGrammar.sample = .ok [("a".toList, "[1,s,]".toList)] ∧
      (∃ rs : List SpecGrammar.Reading,
        SpecGrammar.sample = (rs.map SpecGrammar.Reading.tokens).flatten ∧ (∀ r ∈ rs, r.Valid) ∧
          Parser.parse SpecGrammar.sample =
            .ok (mapAssignAll [] (rs.map SpecGrammar.Reading.pair)) ∧
          ∀ (rest : List Token) (ast : AstBlock) (fuel : Nat),
            Parser.parseLoop (rs.length + fuel) (SpecGrammar.sample ++ rest) ast =
              Parser.parseLoop fuel rest
                (mapAssignAll ast (rs.map SpecGrammar.Reading.pair))) ∧
      Parser.parse (SpecGrammar.sample ++ rbraceTok :: []) = .error .expectedIdentifier :=
  ⟨.document_cons (.assignment rfl rfl (.value_list (.list_items rfl rfl
      (.items_cons (.listitem_number rfl) rfl (.items_one (.listitem_string rfl))))))
      .document_nil,
    by decide,
    (grammar_accepted SpecGrammar.sample
      (.document_cons (.assignment rfl rfl (.value_list (.list_items rfl rfl
        (.items_cons (.listitem_number rfl) rfl (.items_one (.listitem_string rfl))))))
        .document_nil)).1,
    (grammar_accepted SpecGrammar.sample
      (.document_cons (.assignment rfl rfl (.value_list (.list_items rfl rfl
        (.items_cons (.listitem_number rfl) rfl (.items_one (.listitem_string rfl))))))
        .document_nil)).2.1
      rbraceTok [] (by decide)⟩

/-- C13: truncated input is reported as end of input.  For every token
sequence that `parse` accepts, `parse` of any of its initial segments either
succeeds or fails with the unexpected-end error, and with no other error;
`a = [ 1`, `a = { x = 1`, `a` and `a =` fail with the unexpected-end error. -/
theorem truncated_input_unexpected_end (ts p q : List Token) (d : AstBlock)
    (h : Parser.parse ts = .ok d) (hsplit : ts = p ++ q) :
    ((∃ d1, Parser.parse p = .ok d1) ∨ Parser.parse p = .error .unexpectedEnd) ∧
      parseSource "a = [ 1".toList = .error (.syn .unexpectedEnd) ∧
      parseSource "a = \x7b x = 1".toList = .error (.syn .unexpectedEnd) ∧
      parseSource "a".toList = .error (.syn .unexpectedEnd) ∧
      parseSource "a =".toList = .error (.syn .unexpectedEnd) := by
  refine ⟨?_, by decide, by decide, by decide, by decide⟩
  subst hsplit
  exact Parser.parseLoop_truncate _ p q [] d h _ (Nat.lt_succ_self _)

theorem truncated_input_unexpected_end_witness :
    Parser.parse Examples.yThenX.tokens =
        .ok [("x".toList, "2".toList), ("y".toList, "1".toList)] ∧
      Examples.yThenX.tokens =
        [⟨.IDENTIFIER, "y".toList⟩, equalsTok, ⟨.NUMBER, "1".toList⟩, ⟨.IDENTIFIER, "x".toList⟩] ++
          [equalsTok, ⟨.NUMBER, "2".toList⟩] ∧
      ((∃ d1, Parser.parse [⟨.IDENTIFIER, "y".toList⟩, equalsTok, ⟨.NUMBER, "1".toList⟩,
            ⟨.IDENTIFIER, "x".toList⟩] = .ok d1) ∨
        Parser.parse [⟨.IDENTIFIER, "y".toList⟩, equalsTok, ⟨.NUMBER, "1".toList⟩,
            ⟨.IDENTIFIER, "x".toList⟩] = .error .unexpectedEnd) :=
  ⟨by decide, by decide,
    (truncated_input_unexpected_end Examples.yThenX.tokens
      [⟨.IDENTIFIER, "y".toList⟩, equalsTok, ⟨.NUMBER, "1".toList⟩, ⟨.IDENTIFIER, "x".toList⟩]
      [equalsTok, ⟨.NUMBER, "2".toList⟩] [("x".toList, "2".toList), ("y".toList, "1".toList)]
      (by decide) (by decide)).1⟩


/-- C11, as stated, fails: values are strings, and different parse trees give
the same string.  A number and a string with the same text, the list `[1]` and
the string `"[1,]"`, the list `[x y]` and the list `["x,y"]`, and the blocks
`{ x = 1 y = 2 }` and `{ y = 2 x = 1 }` are accepted by `parse_value` with the
same value. -/
theorem value_structure_not_recoverable :
    (Parser.parse_value 9 [⟨.NUMBER, "1".toList⟩] = .ok ("1".toList, []) ∧
      Parser.parse_value 9 [⟨.STRING, "1".toList⟩] = .ok ("1".toList, [])) ∧
    (Parser.parse_value 9 [lbracketTok, ⟨.NUMBER, "1".toList⟩, rbracketTok] =
        .ok ("[1,]".toList, []) ∧
      Parser.parse_value 9 [⟨.STRING, "[1,]".toList⟩] = .ok ("[1,]".toList, [])) ∧
    (Parser.parse_value 9 [lbracketTok, ⟨.IDENTIFIER, "x".toList⟩, ⟨.IDENTIFIER, "y".toList⟩,
          rbracketTok] = .ok ("[x,y,]".toList, []) ∧
      Parser.parse_value 9 [lbracketTok, ⟨.STRING, "x,y".toList⟩, rbracketTok] =
        .ok ("[x,y,]".toList, [])) ∧
    (Parser.parse_value 19 [lbraceTok, ⟨.IDENTIFIER, "x".toList⟩, equalsTok,
          ⟨.NUMBER, "1".toList⟩, ⟨.IDENTIFIER, "y".toList⟩, equalsTok, ⟨.NUMBER, "2".toList⟩,
          rbraceTok] = .ok ("\x7bx=1,y=2,\x7d".toList, []) ∧
      Parser.parse_value 19 [lbraceTok, ⟨.IDENTIFIER, "y".toList⟩, equalsTok,
          ⟨.NUMBER, "2".toList⟩, ⟨.IDENTIFIER, "x".toList⟩, equalsTok, ⟨.NUMBER, "1".toList⟩,
          rbraceTok] = .ok ("\x7bx=1,y=2,\x7d".toList, [])) ∧
    parseSource "a = 1".toList = parseSource "a = \"1\"".toList ∧
    parseSource "a = [1]".toList = parseSource "a = \"[1,]\"".toList :=
  ⟨⟨by decide, by decide⟩, ⟨by decide, by decide⟩, ⟨by decide, by decide⟩,
    ⟨by decide, by decide⟩, by decide, by decide⟩

/-- C11, amended: the value is a string, and the structure can be read back
from it for lists of identifiers and numbers.  For two lists whose scalar
items, at every depth, are identifier and number tokens as the lexer emits
them, `parse_value` accepts both, and when the two values are equal the lists
have the same items, of the same kinds and texts, nested the same way (they
differ at most in their optional commas).  The value of an identifier or a
number is its text, which is never the value of a list, and a text is the
text of one kind only. -/
theorem plain_list_value_injective (a b : Items) (ha : a.plain = true) (hb : b.plain = true) :
    Parser.parse_value (2 * (Value.list a).tokens.length + 1) (Value.list a).tokens =
        .ok ((Value.list a).value, []) ∧
      Parser.parse_value (2 * (Value.list b).tokens.length + 1) (Value.list b).tokens =
        .ok ((Value.list b).value, []) ∧
      ((Value.list a).value = (Value.list b).value → a.strip = b.strip) ∧
      (∀ kind text, wordText kind text = true →
        Parser.parse_value 3 (Value.scalar kind text).tokens = .ok (text, []) ∧
          text ≠ (Value.list a).value ∧
          ∀ kind2, wordText kind2 text = true → kind2 = kind) := by
  have ea := Parser.parse_value_tree (.list a) _ [] (le_refl _)
  have eb := Parser.parse_value_tree (.list b) _ [] (le_refl _)
  rw [List.append_nil] at ea eb
  refine ⟨ea, eb, fun h => values_determine_items a b ha hb h, ?_⟩
  intro kind text hw
  have es := Parser.parse_value_tree (.scalar kind text) 3 [] (le_refl _)
  rw [List.append_nil] at es
  refine ⟨es, ?_, fun kind2 h2 => wordText_kind h2 hw⟩
  intro e
  obtain ⟨c, cs, e1, hall⟩ := wordText_chars hw
  have hv : (Value.list a).value = '[' :: (a.content ++ [']']) := rfl
  rw [hv, e1] at e
  simp only [List.cons.injEq] at e
  exact (hall c (e1 ▸ List.mem_cons_self _ _)).2.1 e.1

theorem plain_list_value_injective_witness :
    (Examples.oneTwoThree true).plain = true ∧ (Examples.oneTwoThree false).plain = true ∧
      ((Value.list (Examples.oneTwoThree true)).value =
          (Value.list (Examples.oneTwoThree false)).value →
        (Examples.oneTwoThree true).strip = (Examples.oneTwoThree false).strip) :=
  ⟨by decide, by decide,
    (plain_list_value_injective (Examples.oneTwoThree true) (Examples.oneTwoThree false)
      (by decide) (by decide)).2.2.1⟩

/-- C18: `tokenize` never reads past the end of the input.  In the lexer whose
cursor is an index, where reading `source_[i]` with `i` not below the length
and taking a substring that starts beyond the length are faults, no source
makes a run end in either fault or run out of steps: the run returns exactly
the tokens, or throws exactly the exception, of `tokenize`.  The cursor it
ends with is at most the length plus one, and it is the length plus one after
an unterminated string (`"abc`) and after an unterminated comment (`#x`). -/
theorem tokenize_reads_in_bounds (source : Str) :
    (∀ i, Indexed.tokenize source ≠ .error (.index i)) ∧
      (∀ start, Indexed.tokenize source ≠ .error (.substrStart start)) ∧
      Indexed.tokenize source ≠ .outOfFuel ∧
      (∀ ts, Lexer.tokenize source = .ok ts ↔
        ∃ stop, Indexed.tokenize source = .ok (ts, stop)) ∧
      (∀ e, Lexer.tokenize source = .error e ↔ Indexed.tokenize source = .error (.lex e)) ∧
      (∀ ts stop, Indexed.tokenize source = .ok (ts, stop) → stop ≤ source.length + 1) ∧
      Indexed.tokenize "\"abc".toList = .ok ([⟨.STRING, "abc".toList⟩], 5) ∧
      Indexed.tokenize "#x".toList = .ok ([], 3) := by
  have h := Indexed.tokenize_agrees source
  have hfuel := Lexer.tokenize_ne_outOfFuel source
  cases hr : Lexer.tokenize source with
  | ok ts0 =>
    rw [hr] at h
    obtain ⟨stop0, hq, hle⟩ := h
    rw [hq]
    refine ⟨fun i e => (by cases e), fun s e => (by cases e), fun e => (by cases e), ?_, ?_, ?_,
      by decide, by decide⟩
    · intro ts
      constructor
      · intro e
        cases e
        exact ⟨stop0, rfl⟩
      · rintro ⟨fin, e⟩
        cases e
        rfl
    · intro e
      constructor
      · intro e1
        cases e1
      · intro e1
        cases e1
    · intro ts fin e
      cases e
      exact hle
  | error e0 =>
    rw [hr] at h
    have hq : Indexed.tokenize source = .error (.lex e0) := h
    rw [hq]
    refine ⟨fun i e => (by cases e), fun s e => (by cases e), fun e => (by cases e), ?_, ?_, ?_,
      by decide, by decide⟩
    · intro ts
      constructor
      · intro e
        cases e
      · rintro ⟨fin, e⟩
        cases e
    · intro e
      constructor
      · intro e1
        cases e1
        rfl
      · intro e1
        cases e1
        rfl
    · intro ts fin e
      cases e
  | outOfFuel => exact absurd hr hfuel

end Brik
